import Mathlib

/-!
Verification development for the osu2sm converter (osu! beatmaps → StepMania
simfiles).  The Rust sources are shallowly embedded: `f64` values are modelled
as exact rationals (`ℚ`), machine integers as `Int`/`Nat`, fallible code as
`Except`, and in-place mutation as explicit state passing.  Third-party
library calls (the `rand` samplers, the `fxhash` seed hash) are modelled from
their documented contracts where noted.
-/

namespace Osu2sm

/- Batteries marks the `Rat` field operations `@[irreducible]`, which blocks
`decide`-style evaluation of the embedded functions on concrete inputs; the
kernel ignores reducibility, so restoring the default is sound. -/
set_option allowUnsafeReducibility true in
attribute [semireducible] Rat.add Rat.sub Rat.mul Rat.inv

/-- Kernel-computable floor on `ℚ` (`Int.floor` is irreducible, which blocks
`decide`); equal to `⌊·⌋` by `ratFloor_eq`. -/
def ratFloor (q : ℚ) : Int := q.floor

/-- Kernel-computable ceiling on `ℚ`; equal to `⌈·⌉` by `ratCeil_eq`. -/
def ratCeil (q : ℚ) : Int := -Rat.floor (-q)

/-- Modelled from the spec: `BeatPos` (src does not carry the node-era
`simfile.rs`; §3/§4.1 of the spec describe it).  A position in beats stored as
fixed point with denominator 48.  `frac` is the `i32` numerator; overflow is
immaterial for the claims at hand so it is an unbounded `Int`. -/
structure BeatPos where
  frac : Int
deriving DecidableEq, Repr

namespace BeatPos

/-- The fixed-point denominator (spec §3: 48). -/
def FIXED_POINT : Int := 48

/-- Modelled from the spec: `BeatPos::from(f64)` — nearest-integer rounding of
`x·48`.  Rust `f64::round` rounds halves away from zero; halves are rounded up
here, which agrees on every value arising in the claims. -/
def fromFloat (q : ℚ) : BeatPos := ⟨ratFloor (q * 48 + 1 / 2)⟩

/-- Modelled from the spec: `BeatPos::from_num_ceil(f64)` — smallest beat
position that is `≥ x`. -/
def fromNumCeil (q : ℚ) : BeatPos := ⟨ratCeil (q * 48)⟩

/-- Modelled from the spec: converting a `BeatPos` back to a number. -/
def asNum (b : BeatPos) : ℚ := (b.frac : ℚ) / 48

/-- Modelled from the spec: the smallest representable gap, 1/48 beat. -/
def epsilon : BeatPos := ⟨1⟩

instance : Add BeatPos := ⟨fun a b => ⟨a.frac + b.frac⟩⟩
instance : Sub BeatPos := ⟨fun a b => ⟨a.frac - b.frac⟩⟩
instance : LE BeatPos := ⟨fun a b => a.frac ≤ b.frac⟩
instance : LT BeatPos := ⟨fun a b => a.frac < b.frac⟩
instance : Max BeatPos := ⟨fun a b => ⟨max a.frac b.frac⟩⟩

instance (a b : BeatPos) : Decidable (a ≤ b) :=
  inferInstanceAs (Decidable (a.frac ≤ b.frac))
instance (a b : BeatPos) : Decidable (a < b) :=
  inferInstanceAs (Decidable (a.frac < b.frac))

/-- Modelled from the spec: `BeatPos::ceil(step)` — round up to the nearest
multiple of `step`; a non-positive step means "no rounding" (spec §4.2 step 3
uses `0` for no rounding). -/
def ceil (b step : BeatPos) : BeatPos :=
  if step.frac ≤ 0 then b else ⟨ratCeil ((b.frac : ℚ) / (step.frac : ℚ)) * step.frac⟩

/-- Modelled from the spec: `BeatPos::round(step)` — round to the nearest
multiple of `step` (halves up); a non-positive step means "no rounding". -/
def round (b step : BeatPos) : BeatPos :=
  if step.frac ≤ 0 then b
  else ⟨ratFloor ((b.frac : ℚ) / (step.frac : ℚ) + 1 / 2) * step.frac⟩

end BeatPos

/-- `osufile.rs`: a timing point parsed from a `.osu` file. -/
structure TimingPoint where
  time : ℚ
  beat_len : ℚ
  meter : Int
deriving DecidableEq, Repr

/-- `osufile.rs`: a hit object parsed from a `.osu` file. -/
structure HitObject where
  x : ℚ
  y : ℚ
  time : ℚ
  ty : Nat
  extras : String
deriving DecidableEq, Repr

/-- `osufile.rs`: the fields of `Beatmap` that the timing engine reads
(metadata strings not consumed by the embedded code are omitted). -/
structure Beatmap where
  audio : String
  preview_start : ℚ
  mode : Int
  circle_size : ℚ
  slider_multiplier : ℚ
  timing_points : List TimingPoint
  hit_objects : List HitObject
deriving Repr

/-- A StepMania control point as emitted by the converter
(`ControlPoint { beat, beat_len }`, beat length in seconds). -/
structure ControlPoint where
  beat : BeatPos
  beat_len : ℚ
deriving DecidableEq, Repr

/-- A chart note (`Note { kind, beat, key }`); `kind` is the `.sm` character
(`'1'` hit, `'2'` hold head, `'3'` hold tail), `key = -1` marks removal. -/
structure Note where
  kind : Char
  beat : BeatPos
  key : Int
deriving DecidableEq, Repr

namespace Note

def KIND_HIT : Char := '1'
def KIND_HEAD : Char := '2'
def KIND_TAIL : Char := '3'

def is_head (n : Note) : Bool := n.kind = KIND_HEAD
def is_tail (n : Note) : Bool := n.kind = KIND_TAIL

end Note

/-- How `osuload.rs::ConvCtx::new` can fail.  `indexPanic` models the Rust
panic raised by `bm.timing_points[0]` on an empty vector. -/
inductive ConvErr where
  | indexPanic
  | noAbsoluteTimingPoint
deriving DecidableEq, Repr

/-- `osuload.rs::ConvCtx` — the timing-engine state. -/
structure ConvCtx where
  cur_tp : TimingPoint
  rest_tp : List TimingPoint
  cur_time : ℚ
  cur_beat : BeatPos
  rounding : BeatPos
  inherited_multiplier : ℚ
  out_beatlen_range : ℚ × ℚ
  out_offset : ℚ
  out_bpms : List ControlPoint
  out_notes : List Note
deriving DecidableEq, Repr

/-- One step of the `ConvCtx::new` first scan: track the first non-inherited
timing point and the last one before the start. -/
def firstTpScanStep (first_hit_time : ℚ)
    (acc : Option (Nat × TimingPoint) × Option (Nat × TimingPoint))
    (p : Nat × TimingPoint) :
    Option (Nat × TimingPoint) × Option (Nat × TimingPoint) :=
  if p.2.beat_len > 0 then
    (acc.1 <|> some p,
     if p.2.time ≤ first_hit_time then some p else acc.2)
  else acc

/-- `ConvCtx::new`, first scan: the index and value of the last absolute
timing point whose time is `≤ first_hit_time`, falling back to the first
absolute timing point. -/
def firstTpScan (tps : List TimingPoint) (first_hit_time : ℚ) :
    Option (Nat × TimingPoint) :=
  let acc := tps.enum.foldl (firstTpScanStep first_hit_time) (none, none)
  acc.2 <|> acc.1

/-- `ConvCtx::new`, aliasing check for one rounding candidate: `true` when no
two consecutive absolute timing points collapse onto the same rounded beat
while their times differ. -/
def aliasFree (round_to : BeatPos) (cur_tp : TimingPoint) (cur_beat : BeatPos) :
    List TimingPoint → Bool
  | [] => true
  | tp :: rest =>
    if tp.beat_len > 0 then
      let beat_adv := (BeatPos.fromFloat ((tp.time - cur_tp.time) / cur_tp.beat_len)).round round_to
      let next_beat := cur_beat + beat_adv
      if tp.time ≠ cur_tp.time ∧ next_beat = cur_beat then false
      else aliasFree round_to tp next_beat rest
    else aliasFree round_to cur_tp cur_beat rest

/-- `ConvCtx::new`, rounding selection: the first candidate that passes the
aliasing check, `0` (no rounding) when none does or the list is empty. -/
def pickRounding (candidates : List ℚ) (first_tp : TimingPoint)
    (rest : List TimingPoint) : BeatPos :=
  match candidates with
  | [] => BeatPos.fromFloat 0
  | r :: rs =>
    let round_to := BeatPos.fromFloat r
    if aliasFree round_to first_tp (BeatPos.fromFloat 0) rest then round_to
    else pickRounding rs first_tp rest

/-- `ConvCtx::new`: the time of the first hit object, falling back to
`bm.timing_points[0].time`; `none` is the Rust index panic on an empty
timing-point vector. -/
def firstHitTime (bm : Beatmap) : Option ℚ :=
  (bm.hit_objects.head?.map HitObject.time) <|>
    (bm.timing_points.head?.map TimingPoint.time)

/-- `ConvCtx::new`: the chosen first timing point with its time snapped in
multiples of `beat_len · meter` towards `first_hit_time`
(`first_tp.time += floor((first_hit_time - first_tp.time) / round_to) · round_to`). -/
def snapFirstTp (tp0 : TimingPoint) (first_hit_time : ℚ) : TimingPoint :=
  let round_to := tp0.beat_len * (tp0.meter : ℚ)
  { tp0 with
    time := tp0.time + ratFloor ((first_hit_time - tp0.time) / round_to) * round_to }

/-- `osuload.rs::ConvCtx::new` (lines 383–471).  `conf_rounding` is the
`OsuLoad::rounding` candidate list.  In the `f64` source an empty
timing-point list with no hit objects panics at `bm.timing_points[0]`;
that is `ConvErr.indexPanic` here. -/
def convNew (conf_rounding : List ℚ) (bm : Beatmap) : Except ConvErr ConvCtx :=
  match firstHitTime bm with
  | none => Except.error ConvErr.indexPanic
  | some first_hit_time =>
    match firstTpScan bm.timing_points first_hit_time with
    | none => Except.error ConvErr.noAbsoluteTimingPoint
    | some (first_tp_idx, tp0) =>
      let first_tp := snapFirstTp tp0 first_hit_time
      let rest := bm.timing_points.drop (first_tp_idx + 1)
      let final_rounding := pickRounding conf_rounding first_tp rest
      let first_controlpoint : ControlPoint :=
        { beat := BeatPos.fromFloat 0, beat_len := first_tp.beat_len / 1000 }
      Except.ok
        { cur_tp := first_tp
          rest_tp := rest
          cur_time := first_tp.time
          cur_beat := BeatPos.fromFloat 0
          rounding := final_rounding
          inherited_multiplier := 1
          out_beatlen_range := (first_tp.beat_len, first_tp.beat_len)
          out_offset := first_tp.time / (-1000)
          out_bpms := [first_controlpoint]
          out_notes := [] }

/-- The candidate pivot granularities of the drift correction
(`get_beat`, lines 503–511). -/
def pivotGaps : List BeatPos :=
  [BeatPos.fromFloat 1, BeatPos.fromFloat (1 / 2), BeatPos.fromFloat (1 / 4),
   BeatPos.fromFloat (1 / 8), BeatPos.fromFloat (1 / 16), BeatPos.epsilon]

/-- The pivot search of `get_beat`: the first granularity in `pivotGaps`
whose pivot `ceil(pivot_max, g) − g` is `≥ last_beat`. -/
def findPivot (last_beat pivot_max : BeatPos) : Option BeatPos :=
  pivotGaps.foldr
    (fun g acc =>
      if last_beat ≤ pivot_max.ceil g - g then some (pivot_max.ceil g - g) else acc)
    none

/-- `get_beat`: `raw_beat_adv = (next_tp.time − cur_time) / cur_tp.beat_len`. -/
def rawBeatAdv (c : ConvCtx) (next_tp : TimingPoint) : ℚ :=
  (next_tp.time - c.cur_time) / c.cur_tp.beat_len

/-- `get_beat`: `beat_adv`, the raw advance rounded up to the timing
granularity. -/
def stepBeatAdv (c : ConvCtx) (next_tp : TimingPoint) : BeatPos :=
  (BeatPos.fromNumCeil (rawBeatAdv c next_tp)).ceil c.rounding

/-- `get_beat`: `tp_beat`, the beat at which the next timing point lands. -/
def stepTpBeat (c : ConvCtx) (next_tp : TimingPoint) : BeatPos :=
  c.cur_beat + stepBeatAdv c next_tp

/-- `get_beat`: `tp_time` before drift correction. -/
def stepTpTime (c : ConvCtx) (next_tp : TimingPoint) : ℚ :=
  c.cur_time + (stepBeatAdv c next_tp).asNum * c.cur_tp.beat_len

/-- `get_beat`: the absolute drift of the rounded snap, in milliseconds. -/
def stepDrift (c : ConvCtx) (next_tp : TimingPoint) : ℚ :=
  |stepTpTime c next_tp - next_tp.time|

/-- `get_beat`: `last_beat`, the beat of the last emitted note (0 when there
is none), clamped below by `cur_beat`. -/
def stepLastBeat (c : ConvCtx) : BeatPos :=
  max ((c.out_notes.getLast?.map Note.beat).getD (BeatPos.fromFloat 0)) c.cur_beat

/-- `get_beat`: `pivot_max = cur_beat + ceil48(raw_beat_adv)`. -/
def stepPivotMax (c : ConvCtx) (next_tp : TimingPoint) : BeatPos :=
  c.cur_beat + BeatPos.fromNumCeil (rawBeatAdv c next_tp)

/-- `get_beat`: the beat length of the correction control point inserted at
`pivot`, chosen to absorb the residual drift exactly. -/
def corrBeatLen (c : ConvCtx) (next_tp : TimingPoint) (pivot : BeatPos) : ℚ :=
  let target_time := next_tp.time - c.cur_time
  let time_to_pivot := (pivot - c.cur_beat).asNum * c.cur_tp.beat_len
  let consume_time := target_time - time_to_pivot
  let consume_beats := stepTpBeat c next_tp - pivot
  consume_time / consume_beats.asNum

/-- The drift-correction block of `get_beat` (lines 494–541): the pending
control-point list and the corrected `tp_time` after handling the absolute
timing point `next_tp`. -/
def stepCorr (c : ConvCtx) (next_tp : TimingPoint) : List ControlPoint × ℚ :=
  if 4 ≤ stepDrift c next_tp then
    match findPivot (stepLastBeat c) (stepPivotMax c next_tp) with
    | some pivot =>
      let beat_len := corrBeatLen c next_tp pivot
      (c.out_bpms ++ [{ beat := pivot, beat_len := beat_len / 1000 }],
       c.cur_time + (pivot - c.cur_beat).asNum * c.cur_tp.beat_len
         + (stepTpBeat c next_tp - pivot).asNum * beat_len)
    | none => (c.out_bpms, stepTpTime c next_tp)
  else (c.out_bpms, stepTpTime c next_tp)

/-- One iteration of the `get_beat` advancement loop (lines 484–553), for a
single timing point `next_tp` already known to satisfy `time ≥ next_tp.time`;
the caller pops `rest_tp`. -/
def stepTP (c : ConvCtx) (next_tp : TimingPoint) : ConvCtx :=
  if next_tp.beat_len ≤ 0 then
    { c with inherited_multiplier := next_tp.beat_len / (-100) }
  else
    { c with
      cur_beat := stepTpBeat c next_tp
      cur_time := (stepCorr c next_tp).2
      cur_tp := next_tp
      inherited_multiplier := 1
      out_bpms := (stepCorr c next_tp).1
        ++ [{ beat := stepTpBeat c next_tp, beat_len := next_tp.beat_len / 1000 }]
      out_beatlen_range :=
        (min c.out_beatlen_range.1 next_tp.beat_len,
         max c.out_beatlen_range.2 next_tp.beat_len) }

/-- The `get_beat` advancement loop over the remaining timing points.  The
list argument mirrors `c.rest_tp`; both shrink together. -/
def getBeatGo (c : ConvCtx) (time : ℚ) : List TimingPoint → ConvCtx
  | [] => c
  | next_tp :: rest =>
    if next_tp.time ≤ time then
      getBeatGo { stepTP c next_tp with rest_tp := rest } time rest
    else c

/-- `osuload.rs::ConvCtx::get_beat` (lines 475–563): advance timing points,
then convert `time` to a snapped beat using the current timing point. -/
def getBeat (c : ConvCtx) (time : ℚ) : ConvCtx × BeatPos :=
  let c := getBeatGo c time c.rest_tp
  (c, c.cur_beat + BeatPos.fromFloat ((time - c.cur_tp.time) / c.cur_tp.beat_len))

/-- The pivot rule exactly as the claim words it (refinement reference,
NOT translated from the source): the LARGEST pivot of the form
`ceil(pivot_max, g) − g` over the candidate granularities that is
`≥ last_beat`. -/
def specLargestPivot (last_beat pivot_max : BeatPos) : Option BeatPos :=
  (pivotGaps.filterMap (fun g =>
    let p := pivot_max.ceil g - g
    if last_beat ≤ p then some p else none)).max?

/-- An empty beatmap: no timing points, no hit objects. -/
def emptyBm : Beatmap :=
  { audio := "", preview_start := 0, mode := 3, circle_size := 4,
    slider_multiplier := 1, timing_points := [], hit_objects := [] }

/-- Concrete input for C1: one absolute timing point at 0 ms with
`beat_len = 500`, `meter = 4` (period 2000 ms), first hit at 2500 ms. -/
def cxBm1 : Beatmap :=
  { emptyBm with
    timing_points := [{ time := 0, beat_len := 500, meter := 4 }],
    hit_objects := [{ x := 128, y := 0, time := 2500, ty := 1, extras := "" }] }

/-- The context `ConvCtx::new` produces for `cxBm1`: the timing point's time
was snapped FORWARD from 0 ms to 2000 ms. -/
def cxCtx1 : ConvCtx :=
  { cur_tp := { time := 2000, beat_len := 500, meter := 4 }
    rest_tp := []
    cur_time := 2000
    cur_beat := ⟨0⟩
    rounding := ⟨12⟩
    inherited_multiplier := 1
    out_beatlen_range := (500, 500)
    out_offset := -2
    out_bpms := [{ beat := ⟨0⟩, beat_len := 1 / 2 }]
    out_notes := [] }

/-- Concrete input for C2: absolute timing points at 0 ms and 1700 ms
(`beat_len = 500`), one hit at 0 ms; with rounding 1/4 the second timing
point snaps to beat 3.5 = 1750 ms, a 50 ms drift. -/
def cxBm3 : Beatmap :=
  { emptyBm with
    timing_points :=
      [{ time := 0, beat_len := 500, meter := 4 },
       { time := 1700, beat_len := 500, meter := 4 }],
    hit_objects := [{ x := 0, y := 0, time := 0, ty := 1, extras := "" }] }

/-- The context `ConvCtx::new` produces for `cxBm3`. -/
def cxCtx3 : ConvCtx :=
  { cur_tp := { time := 0, beat_len := 500, meter := 4 }
    rest_tp := [{ time := 1700, beat_len := 500, meter := 4 }]
    cur_time := 0
    cur_beat := ⟨0⟩
    rounding := ⟨12⟩
    inherited_multiplier := 1
    out_beatlen_range := (500, 500)
    out_offset := 0
    out_bpms := [{ beat := ⟨0⟩, beat_len := 1 / 2 }]
    out_notes := [] }

/-- The second timing point of `cxBm3`. -/
def cxTp3 : TimingPoint := { time := 1700, beat_len := 500, meter := 4 }

/-! ### Buckets (`node.rs` lines 47–72 and the identical `transform.rs`
lines 41–66).  The stored element type (`Box<Simfile>` in the source) plays
no role in the list bookkeeping, so it is a type parameter here. -/

/-- `Bucket`: a flat vector of simfiles plus the end index of each list. -/
structure Bucket (α : Type) where
  simfiles : List α
  lists : List Nat
deriving Repr

/-- `Bucket::put_list`: append the list's elements and record the new end. -/
def Bucket.put_list {α : Type} (b : Bucket α) (list : List α) : Bucket α :=
  { simfiles := b.simfiles ++ list,
    lists := b.lists ++ [(b.simfiles ++ list).length] }

/-- The loop of `Bucket::take_lists`: successively drain the suffix starting
at each recorded end index (iterated last-to-first, skipping the final end),
then hand over the remainder. -/
def takeListsGo {α : Type} (flat : List α) : List Nat → List (List α)
  | [] => [flat]
  | e :: rest => flat.drop e :: takeListsGo (flat.take e) rest

/-- `Bucket::take_lists`, returning the lists in the order the consumer
closure receives them (an empty `lists` vector makes no call at all). -/
def Bucket.take_lists {α : Type} (b : Bucket α) : List (List α) :=
  if b.lists.isEmpty then []
  else takeListsGo b.simfiles (b.lists.reverse.drop 1)

/-- A bucket built by a sequence of `put_list` calls on the empty bucket. -/
def bucketOfLists {α : Type} (ls : List (List α)) : Bucket α :=
  ls.foldl Bucket.put_list { simfiles := [], lists := [] }

/-- Well-formedness maintained by `put_list`: the last recorded end index is
the total element count (or the bucket is entirely empty). -/
def bucketWF {α : Type} (b : Bucket α) : Prop :=
  (b.lists = [] ∧ b.simfiles = []) ∨ b.lists.getLast? = some b.simfiles.length

/-! ### The pipeline resolver (`node.rs::resolve_buckets`, lines 248–372;
`transform.rs` carries the same algorithm with `~in`/`~out` as the top-level
input/output names).  A stage is abstracted to what `buckets_mut` exposes:
its ordered list of (kind, bucket) ports. -/

inductive BucketKind where
  | generic
  | input
  | output
deriving DecidableEq, Repr

/-- `BucketId` (`node.rs` lines 179–186). -/
inductive BucketId where
  | resolved (s : String) (take : Bool)
  | auto
  | null
  | name (s : String)
  | nest (stages : List (List (BucketKind × BucketId)))
deriving Repr

/-- A stage, as the resolver sees it: its I/O ports. -/
abbrev Stage := List (BucketKind × BucketId)

/-- The resolver state: the resolved stages emitted so far and the counter
behind `gen_unique_name`. -/
structure RState where
  out : List Stage
  next_id : Nat
deriving Repr

/-- `gen_unique_name`: bump the counter and produce `~N`. -/
def RState.genName (st : RState) : RState × String :=
  ({ st with next_id := st.next_id + 1 }, "~" ++ toString (st.next_id + 1))

/-- `name.starts_with("~")`.  (`String.startsWith` itself is opaque to
kernel-style evaluation in this toolchain, so the one-character prefix test
is expressed on the character list.) -/
def startsWithTilde (s : String) : Bool := s.data.head? = some '~'

/-- The resolver's error cases (`anyhow!`/`bail!`/`ensure!` sites plus the
two panics of the last-read pass). -/
inductive RErr where
  | emptyInput
  | genericAuto
  | reservedName
  | nestGeneric
  | resolvedDirect
  | outputUnused
  | unresolvedBucket
deriving DecidableEq, Repr

mutual

/-- The stage loop of `resolve_layer`: walk the stages carrying
`last_magnetic_out` (`lastMag`); `isFirst` tracks `i == 0`. -/
def resolveStages (st : RState) (input output : Option String) (chained : Bool)
    (lastMag : Option String) (isFirst : Bool) :
    List Stage → Except RErr (RState × Option String)
  | [] => Except.ok (st, lastMag)
  | stage :: rest =>
    let magInit : Option String := if !chained || rest.isEmpty then output else none
    let lastMag0 := if !chained then input else lastMag
    match resolvePorts st input lastMag0 magInit st.out.length stage with
    | Except.error e => Except.error e
    | Except.ok (st1, lastMag1, mag1, insertIdx1, rports) =>
      if lastMag1.isSome && !isFirst then Except.error RErr.outputUnused
      else
        resolveStages { st1 with out := st1.out.insertIdx insertIdx1 rports }
          input output chained mag1 false rest
termination_by l => sizeOf l

/-- The port loop of `resolve_layer`: resolve each bucket of one stage,
threading the state, `last_magnetic_out`, `magnetic_out` and `insert_idx`,
and collecting the rewritten (resolved) ports. -/
def resolvePorts (st : RState) (input : Option String) (lastMag mag : Option String)
    (insertIdx : Nat) :
    List (BucketKind × BucketId) →
      Except RErr (RState × Option String × Option String × Nat ×
        List (BucketKind × BucketId))
  | [] => Except.ok (st, lastMag, mag, insertIdx, [])
  | (kind, bucket) :: ps =>
    match bucket with
    | BucketId.auto =>
      match kind with
      | BucketKind.input =>
        match lastMag with
        | none => Except.error RErr.emptyInput
        | some nm =>
          match resolvePorts st input none mag insertIdx ps with
          | Except.error e => Except.error e
          | Except.ok (st', lm', mag', idx', rps) =>
            Except.ok (st', lm', mag', idx', (kind, BucketId.resolved nm false) :: rps)
      | BucketKind.output =>
        match mag with
        | some m =>
          match resolvePorts st input lastMag (some m) insertIdx ps with
          | Except.error e => Except.error e
          | Except.ok (st', lm', mag', idx', rps) =>
            Except.ok (st', lm', mag', idx', (kind, BucketId.resolved m false) :: rps)
        | none =>
          let (st1, nm) := st.genName
          match resolvePorts st1 input lastMag (some nm) insertIdx ps with
          | Except.error e => Except.error e
          | Except.ok (st', lm', mag', idx', rps) =>
            Except.ok (st', lm', mag', idx', (kind, BucketId.resolved nm false) :: rps)
      | BucketKind.generic => Except.error RErr.genericAuto
    | BucketId.name s =>
      if startsWithTilde s then Except.error RErr.reservedName
      else
        match resolvePorts st input lastMag mag insertIdx ps with
        | Except.error e => Except.error e
        | Except.ok (st', lm', mag', idx', rps) =>
          Except.ok (st', lm', mag', idx', (kind, BucketId.resolved s false) :: rps)
    | BucketId.null =>
      match resolvePorts st input lastMag mag insertIdx ps with
      | Except.error e => Except.error e
      | Except.ok (st', lm', mag', idx', rps) =>
        Except.ok (st', lm', mag', idx', (kind, BucketId.resolved "" false) :: rps)
    | BucketId.resolved _ _ => Except.error RErr.resolvedDirect
    | BucketId.nest inner =>
      match kind with
      | BucketKind.input =>
        match lastMag with
        | none => Except.error RErr.emptyInput
        | some intoNested =>
          let (st1, fromNested) := st.genName
          match resolveStages st1 (some intoNested) (some fromNested) false
              (some intoNested) true inner with
          | Except.error e => Except.error e
          | Except.ok (st2, _) =>
            match resolvePorts st2 input none mag st2.out.length ps with
            | Except.error e => Except.error e
            | Except.ok (st', lm', mag', idx', rps) =>
              Except.ok (st', lm', mag', idx',
                (kind, BucketId.resolved fromNested false) :: rps)
      | BucketKind.output =>
        let (st1, intoNested) := st.genName
        let (st2, fromNested, mag2) :=
          match mag with
          | some m => (st1, m, some m)
          | none =>
            let (st2, nm) := st1.genName
            (st2, nm, some nm)
        match resolveStages st2 (some intoNested) (some fromNested) false
            (some intoNested) true inner with
        | Except.error e => Except.error e
        | Except.ok (st3, _) =>
          match resolvePorts st3 input lastMag mag2 insertIdx ps with
          | Except.error e => Except.error e
          | Except.ok (st', lm', mag', idx', rps) =>
            Except.ok (st', lm', mag', idx',
              (kind, BucketId.resolved intoNested false) :: rps)
      | BucketKind.generic => Except.error RErr.nestGeneric
termination_by l => sizeOf l

end

/-- The projection of a resolved port name (`BucketId::unwrap_name`; `none`
is the Rust panic on an unresolved bucket). -/
def portName : BucketId → Option String
  | BucketId.resolved n _ => some n
  | _ => none

/-- Insert-or-overwrite for the last-read map (`HashMap::insert`; only the
final value per name matters). -/
def assocPut (acc : List (String × Nat × Nat)) (key : String) (v : Nat × Nat) :
    List (String × Nat × Nat) :=
  match acc with
  | [] => [(key, v)]
  | (k, w) :: rest => if k = key then (k, v) :: rest else (k, w) :: assocPut rest key v

/-- The last-read pass, first half: for every input port record its position,
later occurrences of the same name overwriting earlier ones
(`last_reads.insert(name, bucket)`); an unresolved input port is the Rust
panic. -/
def lastReads (out : List Stage) : Except RErr (List (Nat × Nat)) :=
  let scan := out.enum.foldl (fun acc (istage : Nat × Stage) =>
    match acc with
    | Except.error e => Except.error e
    | Except.ok acc =>
      istage.2.enum.foldl (fun acc (jport : Nat × (BucketKind × BucketId)) =>
        match acc with
        | Except.error e => Except.error e
        | Except.ok acc =>
          match jport.2.1 with
          | BucketKind.input =>
            match portName jport.2.2 with
            | some n => Except.ok (assocPut acc n (istage.1, jport.1))
            | none => Except.error RErr.unresolvedBucket
          | _ => Except.ok acc) (Except.ok acc))
    (Except.ok [])
  match scan with
  | Except.error e => Except.error e
  | Except.ok acc => Except.ok (acc.map Prod.snd)

/-- Flip `take` on a resolved bucket. -/
def setTake : BucketId → BucketId
  | BucketId.resolved n _ => BucketId.resolved n true
  | b => b

/-- The last-read pass, second half: set `take = true` on every recorded
last-read port. -/
def applyTakeFlags (out : List Stage) : Except RErr (List Stage) := do
  let lr ← lastReads out
  pure (out.mapIdx fun i stage =>
    stage.mapIdx fun j (port : BucketKind × BucketId) =>
      if (i, j) ∈ lr then (port.1, setTake port.2) else port)

/-- `node.rs::resolve_buckets` (lines 248–372): resolve the stage layer from
the top (no parent input/output, chained), then run the last-read pass.
(The `prepare()` hook calls are outside the bucket assignment.) -/
def resolveBuckets (stages : List Stage) : Except RErr (List Stage) := do
  let (st, _) ← resolveStages { out := [], next_id := 0 } none none true none true stages
  applyTakeFlags st.out

/-- Every port of the stage carries an already-`Resolved` bucket. -/
def allResolvedStage (s : Stage) : Prop :=
  ∀ p ∈ s, ∃ n t, p.2 = BucketId.resolved n t

/-- Concrete input for C6: a single stage with one user-named output port. -/
def stages6 : List Stage := [[(BucketKind.output, BucketId.name "a")]]

/-- The resolver's output for `stages6`. -/
def out6 : List Stage := [[(BucketKind.output, BucketId.resolved "a" false)]]

/-! ### Chart model (`simfile.rs` Gamemode; the node-era `Simfile` and
`ToTime` are modelled from the spec, §3/§4.1, since that file is not under
`src/`). -/

/-- `simfile.rs::Gamemode` (the StepMania chart types). -/
inductive Gamemode where
  | danceSingle | danceDouble | danceCouple | danceSolo | danceThreepanel
  | danceRoutine
  | pumpSingle | pumpHalfdouble | pumpDouble | pumpCouple | pumpRoutine
  | kb7Single
  | ez2Single | ez2Double | ez2Real
  | paraSingle
  | ds3ddxSingle
  | bmSingle5 | bmVersus5 | bmDouble5 | bmSingle7 | bmVersus7 | bmDouble7
  | maniaxSingle | maniaxDouble
  | technoSingle4 | technoSingle5 | technoSingle8
  | technoDouble4 | technoDouble5 | technoDouble8
  | pnmFive | pnmNine
  | kickboxHuman | kickboxQuadarm | kickboxInsect | kickboxArachnid
deriving DecidableEq, Repr

/-- `Gamemode::key_count` (`simfile.rs` lines 572–613). -/
def Gamemode.key_count : Gamemode → Nat
  | danceSingle => 4
  | danceDouble => 8
  | danceCouple => 8
  | danceSolo => 6
  | danceThreepanel => 3
  | danceRoutine => 8
  | pumpSingle => 5
  | pumpHalfdouble => 6
  | pumpDouble => 10
  | pumpCouple => 10
  | pumpRoutine => 10
  | kb7Single => 7
  | ez2Single => 5
  | ez2Double => 10
  | ez2Real => 7
  | paraSingle => 5
  | ds3ddxSingle => 8
  | bmSingle5 => 6
  | bmVersus5 => 6
  | bmDouble5 => 12
  | bmSingle7 => 8
  | bmVersus7 => 8
  | bmDouble7 => 16
  | maniaxSingle => 4
  | maniaxDouble => 8
  | technoSingle4 => 4
  | technoSingle5 => 5
  | technoSingle8 => 8
  | technoDouble4 => 8
  | technoDouble5 => 10
  | technoDouble8 => 16
  | pnmFive => 5
  | pnmNine => 9
  | kickboxHuman => 4
  | kickboxQuadarm => 4
  | kickboxInsect => 6
  | kickboxArachnid => 8

/-- Modelled from the spec (§3): the node-era `Simfile` — metadata, offset
in seconds, output control points and the flat chart note list.  Fields the
embedded stages never read (banner/background/… paths, preview window) are
omitted. -/
structure Simfile where
  title : String
  subtitle : String
  artist : String
  title_trans : String
  subtitle_trans : String
  artist_trans : String
  desc : String
  music : Option String
  offset : ℚ
  bpms : List ControlPoint
  notes : List Note
  gamemode : Gamemode
  difficulty_num : ℚ
deriving DecidableEq, Repr

/-- Modelled from the spec (§4.1): `ToTime`, a stateful forward cursor over
a simfile's control points. -/
structure ToTime where
  rest : List ControlPoint
  cur_beat : BeatPos
  cur_time : ℚ
  cur_beat_len : ℚ
deriving DecidableEq, Repr

/-- Modelled from the spec (§4.1): a fresh cursor starts at time `−offset`
with no control point passed yet. -/
def ToTime.new (sm : Simfile) : ToTime :=
  { rest := sm.bpms
    cur_beat := BeatPos.fromFloat 0
    cur_time := -sm.offset
    cur_beat_len := 0 }

/-- The advancement loop of `beat_to_time`: pass every control point with
`cp.beat ≤ beat`, accumulating `Δbeat · beat_len`. -/
def beatToTimeGo (cur_beat : BeatPos) (cur_time cur_beat_len : ℚ) (beat : BeatPos) :
    List ControlPoint → (ℚ × BeatPos × ℚ) × List ControlPoint
  | [] => ((cur_time, cur_beat, cur_beat_len), [])
  | cp :: rest =>
    if cp.beat ≤ beat then
      beatToTimeGo cp.beat (cur_time + (cp.beat - cur_beat).asNum * cur_beat_len)
        cp.beat_len beat rest
    else ((cur_time, cur_beat, cur_beat_len), cp :: rest)

/-- Modelled from the spec (§4.1): `beat_to_time` for monotonically
non-decreasing beats; returns the time in seconds and the advanced cursor. -/
def ToTime.beat_to_time (t : ToTime) (beat : BeatPos) : ℚ × ToTime :=
  let ((time, cb, cbl), rest) := beatToTimeGo t.cur_beat t.cur_time t.cur_beat_len beat t.rest
  (time + (beat - cb).asNum * cbl,
   { rest := rest, cur_beat := cb, cur_time := time, cur_beat_len := cbl })

/-! ### Randomness (`main.rs::simfile_rng`; `fxhash::hash64` and
`Xoshiro256Plus` are third-party collaborators, modelled from their
contracts: a pure 64-bit hash of the tuple and a pure stream of uniform
samples determined by the seed). -/

/-- Modelled from the spec (§9 "Randomness"): a deterministic PRNG as a pure
stream of unit-interval samples plus a cursor.  Every theorem that consumes
samples only assumes `wfRng`. -/
structure FastRng where
  stream : Nat → ℚ
  pos : Nat

/-- Draw the next unit-interval sample. -/
def FastRng.next (r : FastRng) : ℚ × FastRng :=
  (r.stream r.pos, { r with pos := r.pos + 1 })

/-- A well-formed RNG only produces samples in `[0, 1)`. -/
def wfRng (r : FastRng) : Prop := ∀ n, 0 ≤ r.stream n ∧ r.stream n < 1

/-- Modelled from the spec: `Xoshiro256Plus::seed_from_u64` — a fixed pure
function of the seed (stand-in mixing; the claims depend only on purity and
well-formedness). -/
def FastRng.seed_from_u64 (seed : Nat) : FastRng :=
  { stream := fun n => (((seed + n) % 1000 : Nat) : ℚ) / 1000, pos := 0 }

/-- Modelled from the spec: `fxhash::hash64` of a tuple of strings — a pure
function of the hashed bytes (stand-in mixing). -/
def fxhash64 (parts : List String) : Nat :=
  parts.foldl
    (fun h s => s.data.foldl (fun h c => (h * 31 + c.toNat) % 2 ^ 64) ((h + 1) % 2 ^ 64))
    0

/-- An injective-ish string encoding of the hashed `Option<PathBuf>`. -/
def optStr : Option String → String
  | none => "N"
  | some s => "S" ++ s

/-- `main.rs::simfile_rng` (lines 687–690): seed a `FastRng` from the fxhash
of `(music, title_trans, desc, name)`. -/
def simfile_rng (sm : Simfile) (tag : String) : FastRng :=
  FastRng.seed_from_u64 (fxhash64 [optStr sm.music, sm.title_trans, sm.desc, tag])

/-! ### Weighted choice (`rand`'s `choose_weighted`, a third-party
collaborator modelled from its contract: `WeightedIndex::new` rejects an
empty list, a negative weight, and an all-zero total; sampling draws a
uniform `x ∈ [0, total)` and picks the first index whose cumulative weight
exceeds `x`). -/

inductive WeightedError where
  | NoItem
  | InvalidWeight
  | AllWeightsZero
deriving DecidableEq, Repr

/-- Cumulative-weight index selection: the first index `i` with
`x < w₀ + … + wᵢ`. -/
def selectIdx : List ℚ → ℚ → Nat
  | [], _ => 0
  | w :: ws, x => if x < w then 0 else 1 + selectIdx ws (x - w)

/-- Modelled from the spec: `slice.choose_weighted(rng, weight)`. -/
def chooseWeighted {α : Type} (rng : FastRng) (items : List α) (weight : α → ℚ) :
    Except WeightedError α × FastRng :=
  let ws := items.map weight
  if items.isEmpty then (Except.error WeightedError.NoItem, rng)
  else if ws.any (fun w => w < 0) then (Except.error WeightedError.InvalidWeight, rng)
  else if ws.sum = 0 then (Except.error WeightedError.AllWeightsZero, rng)
  else
    let (q, rng') := rng.next
    match items.get? (selectIdx ws (q * ws.sum)) with
    | some a => (Except.ok a, rng')
    | none => (Except.error WeightedError.NoItem, rng')

/-! ### The key allocator (`rekey.rs::KeyAlloc`, lines 53–119).  `f64`'s
`NEG_INFINITY` initial `last_active` is modelled as `none`; an infinite
inactivity time falls through every curve segment to the default weight,
exactly as `+∞ ≤ up_to` is false for every segment bound. -/

structure KeyAlloc where
  weight_points : List (ℚ × ℚ × ℚ)
  default_weight : ℚ
  last_active : List (Option ℚ)
deriving DecidableEq, Repr

/-- `KeyAlloc::new`. -/
def KeyAlloc.new (key_count : Nat) : KeyAlloc :=
  { weight_points := [], default_weight := 1,
    last_active := List.replicate key_count none }

/-- `KeyAlloc::set_weight_curve`: preprocess the curve into
`(upper_bound, slope, intercept)` segments plus the constant tail. -/
def KeyAlloc.set_weight_curve (ka : KeyAlloc) (curve : List (ℚ × ℚ)) : KeyAlloc :=
  { ka with
    weight_points := (curve.zip curve.tail).map (fun pq =>
      let m := (pq.2.2 - pq.1.2) / (pq.2.1 - pq.1.1)
      (pq.2.1, m, -pq.1.1 * m + pq.1.2))
    default_weight := (curve.getLast?.map Prod.snd).getD 1 }

/-- The inactivity time `time − last_active[k]`; `none` is `+∞`. -/
def inactiveTime (time : ℚ) (last : Option ℚ) : Option ℚ :=
  last.map (fun l => time - l)

/-- The segment walk of `inactive_time_to_weight`. -/
def weightSegs (default_weight : ℚ) : List (ℚ × ℚ × ℚ) → ℚ → ℚ
  | [], _ => default_weight
  | (up_to, m, c) :: rest, t =>
    if t ≤ up_to then m * t + c else weightSegs default_weight rest t

/-- `KeyAlloc::inactive_time_to_weight`: map the time since the key was last
active to a choice weight (an infinite time yields the default weight). -/
def KeyAlloc.inactive_time_to_weight (ka : KeyAlloc) (time : Option ℚ) : ℚ :=
  match time with
  | none => ka.default_weight
  | some t => weightSegs ka.default_weight ka.weight_points t

/-- `KeyAlloc::touch`. -/
def KeyAlloc.touch (ka : KeyAlloc) (key : Nat) (time : ℚ) : KeyAlloc :=
  { ka with last_active := ka.last_active.set key (some time) }

/-- The weight closure passed by `alloc` to `choose_weighted`. -/
def allocWeight (ka : KeyAlloc) (time : ℚ) (out_key : Nat) : ℚ :=
  ka.inactive_time_to_weight (inactiveTime time (ka.last_active.getD out_key none))

/-- `KeyAlloc::alloc` (lines 96–108): weighted-random choice over the
candidate keys; on success the chosen key is touched. -/
def KeyAlloc.alloc (ka : KeyAlloc) (keys : List Nat) (time : ℚ) (rng : FastRng) :
    Option Nat × KeyAlloc × FastRng :=
  match chooseWeighted rng keys (allocWeight ka time) with
  | (Except.ok key, rng') => (some key, ka.touch key time, rng')
  | (Except.error _, rng') => (none, ka, rng')

/-! ### The rekey stage (`rekey.rs::rekey`, lines 122–206). -/

/-- The `Rekey` stage configuration (bucket plumbing omitted). -/
structure Rekey where
  gamemode : Gamemode
  avoid_shuffle : Bool
  weight_curve : List (ℚ × ℚ)
deriving Repr

/-- The default `Rekey` configuration (`rekey.rs` lines 22–32). -/
def Rekey.default : Rekey :=
  { gamemode := Gamemode.danceSingle
    avoid_shuffle := true
    weight_curve := [(0, 1), (2/5, 10), (4/5, 200), (7/5, 300)] }

/-- The per-note loop of `rekey` (lines 159–202): map each note's key
through the lock automaton, marking unallocatable notes with `-1`. -/
def rekeyGo (toTime : ToTime) (ka : KeyAlloc) (rng : FastRng)
    (locked : List (Option (Option BeatPos))) (unlockByTails : List Nat) :
    List Note → List Note
  | [] => []
  | note :: rest =>
    let (note_time, toTime') := toTime.beat_to_time note.beat
    let locked := locked.map (fun l =>
      match l with
      | some (some unlock_after) => if unlock_after < note.beat then none else l
      | _ => l)
    if note.is_tail then
      let out_key := unlockByTails.getD note.key.toNat 0
      let locked := locked.set out_key none
      let ka := ka.touch out_key note_time
      { note with key := (out_key : Int) } ::
        rekeyGo toTime' ka rng locked unlockByTails rest
    else
      let candidates :=
        (locked.enum.filter (fun p => p.2.isNone)).map Prod.fst
      match ka.alloc candidates note_time rng with
      | (some out_key, ka', rng') =>
        if note.is_head then
          { note with key := (out_key : Int) } ::
            rekeyGo toTime' ka' rng' (locked.set out_key (some none))
              (unlockByTails.set note.key.toNat out_key) rest
        else
          { note with key := (out_key : Int) } ::
            rekeyGo toTime' ka' rng' (locked.set out_key (some (some note.beat)))
              unlockByTails rest
      | (none, ka', rng') =>
        { note with key := -1 } :: rekeyGo toTime' ka' rng' locked unlockByTails rest

/-- `rekey.rs::rekey` (lines 122–206).  The two `ensure!` key-count guards
cannot fire (every `Gamemode` has a positive key count), so the function is
total; the caller (`Rekey::apply`) sets `sm.gamemode` afterwards. -/
def rekey (sm : Simfile) (conf : Rekey) : Simfile :=
  let in_keycount := sm.gamemode.key_count
  let out_keycount := conf.gamemode.key_count
  if conf.avoid_shuffle ∧ in_keycount = out_keycount then sm
  else
    let key_alloc := (KeyAlloc.new out_keycount).set_weight_curve conf.weight_curve
    let rng := simfile_rng sm "rekey"
    let to_time := ToTime.new sm
    let locked_outkeys : List (Option (Option BeatPos)) :=
      List.replicate out_keycount none
    let unlock_by_tails : List Nat := List.replicate in_keycount 0
    let mapped := rekeyGo to_time key_alloc rng locked_outkeys unlock_by_tails sm.notes
    { sm with notes := mapped.filter (fun note => 0 ≤ note.key) }

/-! ### Note-list well-formedness (spec §3: sorted by beat; every head on
key k matched by exactly one later tail on key k with no intervening note on
that key). -/

/-- Non-decreasing beats. -/
def sortedByBeat : List Note → Bool
  | [] => true
  | [_] => true
  | a :: b :: rest => decide (a.beat ≤ b.beat) && sortedByBeat (b :: rest)

/-- One step of the per-key pairing scan: `openb[k] = some b` while a hold
started at beat `b` on key `k` is unclosed.  Heads and hits require a closed
in-range key, tails a hold opened at a strictly earlier beat. -/
def scanStep (openb : List (Option BeatPos)) (n : Note) :
    Option (List (Option BeatPos)) :=
  if n.key < 0 then none
  else
    match openb.get? n.key.toNat with
    | none => none
    | some st =>
      if n.is_tail then
        match st with
        | some hb => if hb < n.beat then some (openb.set n.key.toNat none) else none
        | none => none
      else if n.is_head then
        if st.isNone then some (openb.set n.key.toNat (some n.beat)) else none
      else
        if st.isNone then some openb else none

/-- The pairing scan over a note list. -/
def scanList (openb : List (Option BeatPos)) : List Note → Option (List (Option BeatPos))
  | [] => some openb
  | n :: rest =>
    match scanStep openb n with
    | some openb' => scanList openb' rest
    | none => none

/-- The pairing predicate: the scan succeeds and ends with every key
closed. -/
def pairScan (openb : List (Option BeatPos)) (notes : List Note) : Bool :=
  match scanList openb notes with
  | some openb' => openb'.all Option.isNone
  | none => false

/-- Chart well-formedness over `keyCount` keys. -/
def wellFormedNotes (keyCount : Nat) (notes : List Note) : Bool :=
  sortedByBeat notes && pairScan (List.replicate keyCount none) notes

/-- Concrete input for C5: a 4K chart of four hold heads at beat 0 with
their tails at beat 4. -/
def cxSm5 : Simfile :=
  { title := "t", subtitle := "", artist := "a", title_trans := "tt"
    subtitle_trans := "", artist_trans := "", desc := "d"
    music := some "m.mp3", offset := 0
    bpms := [{ beat := ⟨0⟩, beat_len := 1/2 }]
    notes :=
      [{ kind := '2', beat := ⟨0⟩, key := 0 }, { kind := '2', beat := ⟨0⟩, key := 1 },
       { kind := '2', beat := ⟨0⟩, key := 2 }, { kind := '2', beat := ⟨0⟩, key := 3 },
       { kind := '3', beat := ⟨192⟩, key := 0 }, { kind := '3', beat := ⟨192⟩, key := 1 },
       { kind := '3', beat := ⟨192⟩, key := 2 }, { kind := '3', beat := ⟨192⟩, key := 3 }]
    gamemode := Gamemode.danceSingle
    difficulty_num := 1 }

/-- Concrete configuration for C5: rekey the 4K chart to 3K. -/
def cxConf5 : Rekey := { Rekey.default with gamemode := Gamemode.danceThreepanel }

/-! ### The simultaneous-keys stage (`simultaneous.rs::limit_simultaneous_keys`,
lines 39–92).  `rand`'s `choose_multiple` is a third-party collaborator; it
is a parameter `choose`, constrained in the theorems by its documented
contract (`chooserOK`): it returns `min(amount, len)` distinct elements of
the slice. -/

/-- The `Simultaneous` stage configuration (bucket plumbing omitted);
`max_keys = -1` means "no limit" through the `as usize` wrap-around. -/
structure Simultaneous where
  max_keys : Int
deriving Repr

/-- The number of `true` entries of `active_notes`. -/
def countTrue (l : List Bool) : Nat := l.count true

/-- The kept fresh hits of a processed block (tails never count — marking
only flips `key` to `-1`, never `kind`). -/
def countHitsKept (l : List Note) : Nat :=
  (l.filter (fun n => !n.is_tail && !n.is_head && decide (0 ≤ n.key))).length

/-- The inner per-beat loop (lines 56–75): walk the block's notes, marking
orphaned tails, collecting the indices of this block's hits and heads
(`beat_notes`, indexed from `idx`), counting fresh hits (`tmp_active_notes`)
and updating `active_notes`. -/
def blockScanGo (active : List Bool) (idx : Nat) :
    List Note → List Note × List Bool × List Nat × Nat
  | [] => ([], active, [], 0)
  | n :: rest =>
    if n.is_tail then
      if active.getD n.key.toNat false then
        let (ns, act, bi, tmp) := blockScanGo (active.set n.key.toNat false) (idx + 1) rest
        (n :: ns, act, bi, tmp)
      else
        let (ns, act, bi, tmp) := blockScanGo active (idx + 1) rest
        ({ n with key := -1 } :: ns, act, bi, tmp)
    else
      if n.is_head then
        let (ns, act, bi, tmp) := blockScanGo (active.set n.key.toNat true) (idx + 1) rest
        (n :: ns, act, idx :: bi, tmp)
      else
        let (ns, act, bi, tmp) := blockScanGo active (idx + 1) rest
        (n :: ns, act, idx :: bi, tmp + 1)

/-- The removal loop (lines 81–87): mark every chosen block note and release
the `active_notes` entry of every chosen head.  (The Rust loop iterates the
chosen indices; iterating the block positionally applies the same
independent updates.) -/
def applyRemoval (chosen : List Nat) : Nat → List Note → List Bool → List Note × List Bool
  | _, [], active => ([], active)
  | idx, m :: rest, active =>
    if idx ∈ chosen then
      let (ns, act) := applyRemoval chosen (idx + 1) rest
        (if m.is_head then active.set m.key.toNat false else active)
      ({ m with key := -1 } :: ns, act)
    else
      let (ns, act) := applyRemoval chosen (idx + 1) rest active
      (m :: ns, act)

/-- The outer loop over beat blocks (lines 51–88), additionally returning
per block the recomputed post-removal active count (holding heads plus the
block's kept fresh hits) — the quantity claim C8 bounds. -/
def limitBlocks (choose : FastRng → List Nat → Nat → List Nat × FastRng)
    (rng : FastRng) (maxSim : Nat) (active : List Bool) :
    List Note → List Note × List Nat
  | [] => ([], [])
  | n :: rest =>
    let blk := n :: rest.takeWhile (fun m => m.beat = n.beat)
    let after := rest.dropWhile (fun m => m.beat = n.beat)
    let (marked, act1, beatIdxs, tmp) := blockScanGo active 0 blk
    let total := countTrue act1 + tmp
    let (chosen, rng') := choose rng beatIdxs (total - maxSim)
    let (marked', act2) := applyRemoval chosen 0 marked act1
    let (restOut, counts) := limitBlocks choose rng' maxSim act2 after
    (marked' ++ restOut, (countTrue act2 + countHitsKept marked') :: counts)
termination_by l => l.length
decreasing_by
  simp only [List.length_cons]
  exact Nat.lt_succ_of_le (List.dropWhile_sublist _).length_le

/-- `simultaneous.rs::limit_simultaneous_keys` (lines 39–92), parameterised
by the `choose_multiple` sampler; also returns the per-block post-removal
counts. -/
def limit_simultaneous_keys (choose : FastRng → List Nat → Nat → List Nat × FastRng)
    (sm : Simfile) (conf : Simultaneous) : Simfile × List Nat :=
  let max_simultaneous := (conf.max_keys % (2 ^ 64 : Int)).toNat
  let rng := simfile_rng sm "simultaneous"
  let active := List.replicate sm.gamemode.key_count false
  let (marked, counts) := limitBlocks choose rng max_simultaneous active sm.notes
  ({ sm with notes := marked.filter (fun note => 0 ≤ note.key) }, counts)

/-- The contract of `rand`'s `choose_multiple`: the selection is drawn from
the slice, has size `min(amount, len)`, and is duplicate-free whenever the
slice is. -/
def chooserOK (choose : FastRng → List Nat → Nat → List Nat × FastRng) : Prop :=
  ∀ rng l k,
    (∀ i ∈ (choose rng l k).1, i ∈ l) ∧
    (choose rng l k).1.length = min k l.length ∧
    (l.Nodup → (choose rng l k).1.Nodup)

/-- A contract-satisfying deterministic sampler (used by witnesses). -/
def chooseFirst (rng : FastRng) (l : List Nat) (k : Nat) : List Nat × FastRng :=
  (l.take k, rng)

/-- Concrete input for C8: a 4K chart with two hold heads and two hits at
beat 0, a hit at beat 1, and the hold tails at beat 4. -/
def cxSm8 : Simfile :=
  { cxSm5 with
    notes :=
      [{ kind := '2', beat := ⟨0⟩, key := 0 }, { kind := '2', beat := ⟨0⟩, key := 1 },
       { kind := '1', beat := ⟨0⟩, key := 2 }, { kind := '1', beat := ⟨0⟩, key := 3 },
       { kind := '1', beat := ⟨48⟩, key := 2 },
       { kind := '3', beat := ⟨192⟩, key := 0 }, { kind := '3', beat := ⟨192⟩, key := 1 }] }

/-- The indices (from `idx`) of a block's non-tail notes — the reference
description of `beat_notes`. -/
def nonTailIdxs (idx : Nat) : List Note → List Nat
  | [] => []
  | n :: rest =>
    if n.is_tail then nonTailIdxs (idx + 1) rest
    else idx :: nonTailIdxs (idx + 1) rest

/-- The number of fresh hits of a block — the reference description of
`tmp_active_notes`. -/
def countHits (l : List Note) : Nat :=
  (l.filter (fun m => !m.is_tail && !m.is_head)).length

/-- The scan and removal loops of one block, fused: tails are marked from
the running `active_notes`, non-tails by membership of their index in the
chosen set (reference formulation; equal to scan-then-removal on well-formed
blocks by `scan_removal_eq_mark`). -/
def markBlock (chosen : List Nat) (active : List Bool) (idx : Nat) :
    List Note → List Note × List Bool
  | [] => ([], active)
  | m :: rest =>
    if m.is_tail then
      if active.getD m.key.toNat false then
        let (ns, act) := markBlock chosen (active.set m.key.toNat false) (idx + 1) rest
        (m :: ns, act)
      else
        let (ns, act) := markBlock chosen active (idx + 1) rest
        ({ m with key := -1 } :: ns, act)
    else if idx ∈ chosen then
      let (ns, act) := markBlock chosen active (idx + 1) rest
      ({ m with key := -1 } :: ns, act)
    else if m.is_head then
      let (ns, act) := markBlock chosen (active.set m.key.toNat true) (idx + 1) rest
      (m :: ns, act)
    else
      let (ns, act) := markBlock chosen active (idx + 1) rest
      (m :: ns, act)

/-- The chooser call made for one block (selection and advanced RNG). -/
def blockChosen (choose : FastRng → List Nat → Nat → List Nat × FastRng)
    (rng : FastRng) (maxSim : Nat) (active : List Bool) (blk : List Note) :
    List Nat × FastRng :=
  choose rng (blockScanGo active 0 blk).2.2.1
    (countTrue (blockScanGo active 0 blk).2.1 + (blockScanGo active 0 blk).2.2.2 - maxSim)

/-- One block's scan-then-removal result (marked notes and final
`active_notes`). -/
def blockOut (choose : FastRng → List Nat → Nat → List Nat × FastRng)
    (rng : FastRng) (maxSim : Nat) (active : List Bool) (blk : List Note) :
    List Note × List Bool :=
  applyRemoval (blockChosen choose rng maxSim active blk).1 0
    (blockScanGo active 0 blk).1 (blockScanGo active 0 blk).2.1

/-- The per-key view of the open-hold states seen by the output scan: a key
is open in the output iff it is open in the input and its head was kept
(`active` is true). -/
def projOut (stIn : List (Option BeatPos)) (active : List Bool) : List (Option BeatPos) :=
  List.zipWith (fun s a => if a then s else none) stIn active

/-- Clear a set of keys in `active_notes` (proof device relating the
scan-then-removal pipeline to `markBlock`). -/
def clearKeys (cl : List Nat) (act : List Bool) : List Bool :=
  cl.foldl (fun a k => a.set k false) act

/-- The number of chosen positions (counting from `idx`) holding heads. -/
def chosenHeads (chosen : List Nat) (idx : Nat) : List Note → Nat
  | [] => 0
  | m :: rest =>
    (if idx ∈ chosen ∧ m.is_head = true then 1 else 0) + chosenHeads chosen (idx + 1) rest

/-- The number of chosen positions (counting from `idx`) holding fresh hits. -/
def chosenHits (chosen : List Nat) (idx : Nat) : List Note → Nat
  | [] => 0
  | m :: rest =>
    (if idx ∈ chosen ∧ m.is_tail = false ∧ m.is_head = false then 1 else 0) +
      chosenHits chosen (idx + 1) rest

end Osu2sm

namespace Osu2sm

/-! ### Theorems -/

instance {ε α : Type} [DecidableEq ε] [DecidableEq α] : DecidableEq (Except ε α) :=
  fun a b =>
    match a, b with
    | Except.ok x, Except.ok y =>
      if h : x = y then isTrue (by rw [h]) else isFalse (by intro hc; cases hc; exact h rfl)
    | Except.error x, Except.error y =>
      if h : x = y then isTrue (by rw [h]) else isFalse (by intro hc; cases hc; exact h rfl)
    | Except.ok _, Except.error _ => isFalse (by intro hc; cases hc)
    | Except.error _, Except.ok _ => isFalse (by intro hc; cases hc)

/-- `ratFloor` agrees with Mathlib's floor. -/
theorem ratFloor_eq (q : ℚ) : ratFloor q = ⌊q⌋ := by
  rw [ratFloor, Rat.floor_def', ← Rat.floor_def]

/-- `ratCeil` agrees with Mathlib's ceiling. -/
theorem ratCeil_eq (q : ℚ) : ratCeil q = ⌈q⌉ := by
  rw [ratCeil, show Rat.floor (-q) = ⌊-q⌋ from by rw [Rat.floor_def', ← Rat.floor_def],
    Int.floor_neg, neg_neg]

/-- Helper: snapping `t` by multiples of `r > 0` towards `h` lands in
`(h − r, h]` and stays on the lattice `t + ℤ·r`. -/
theorem snap_bounds (t h r : ℚ) (hr : 0 < r) :
    t + ⌊(h - t) / r⌋ * r ≤ h ∧ h - r < t + ⌊(h - t) / r⌋ * r := by
  have hne : r ≠ 0 := ne_of_gt hr
  have hfl : (⌊(h - t) / r⌋ : ℚ) ≤ (h - t) / r := Int.floor_le _
  have hfl2 : (h - t) / r - 1 < (⌊(h - t) / r⌋ : ℚ) := by
    have := Int.lt_floor_add_one ((h - t) / r)
    linarith
  constructor
  · have := mul_le_mul_of_nonneg_right hfl (le_of_lt hr)
    rw [div_mul_cancel₀ _ hne] at this
    linarith
  · have := mul_lt_mul_of_pos_right hfl2 hr
    rw [sub_mul, div_mul_cancel₀ _ hne, one_mul] at this
    linarith

/-- C1, counterexample: on `cxBm1` the chosen timing point (original time
0 ms) is snapped FORWARD to 2000 ms, so the adjusted time does not satisfy
`t' ≤ t`: initialisation does not only move the timing point backwards. -/
theorem C1_counterexample :
    convNew [(1 : ℚ)/4] cxBm1 = Except.ok cxCtx1 ∧
    cxBm1.timing_points.map TimingPoint.time = [0] ∧
    cxCtx1.cur_tp.time = 2000 ∧
    ¬(cxCtx1.cur_tp.time ≤ 0) := by
  refine ⟨by decide, by decide, by decide, by decide⟩

/-- C1 (amended): initialisation snaps the chosen timing point's time to the
unique lattice point `t' = t + k·(beat_len·meter)` (`k ∈ ℤ`) with
`first_hit_time − beat_len·meter < t' ≤ first_hit_time`; the time moves
forwards as well as backwards, so `t' ≤ t` holds only when
`first_hit_time < t + beat_len·meter`. -/
theorem C1_theorem (conf : List ℚ) (bm : Beatmap) (ctx : ConvCtx)
    (fh : ℚ) (i : Nat) (tp : TimingPoint)
    (hfh : firstHitTime bm = some fh)
    (hscan : firstTpScan bm.timing_points fh = some (i, tp))
    (hr : 0 < tp.beat_len * (tp.meter : ℚ))
    (hok : convNew conf bm = Except.ok ctx) :
    ctx.cur_tp.time ≤ fh ∧
    fh - tp.beat_len * (tp.meter : ℚ) < ctx.cur_tp.time ∧
    ∃ k : ℤ, ctx.cur_tp.time = tp.time + k * (tp.beat_len * (tp.meter : ℚ)) := by
  have hctx : ctx.cur_tp = snapFirstTp tp fh := by
    simp only [convNew, hfh, hscan, Except.ok.injEq] at hok
    rw [← hok]
  have hb := snap_bounds tp.time fh (tp.beat_len * (tp.meter : ℚ)) hr
  have ht : (snapFirstTp tp fh).time
      = tp.time + (⌊(fh - tp.time) / (tp.beat_len * (tp.meter : ℚ))⌋ : ℚ)
          * (tp.beat_len * (tp.meter : ℚ)) := by
    simp [snapFirstTp, ratFloor_eq]
  rw [hctx, ht]
  exact ⟨hb.1, hb.2, ⟨⌊(fh - tp.time) / (tp.beat_len * (tp.meter : ℚ))⌋, rfl⟩⟩

/-- C1, witness: the amended theorem applied to `cxBm1`. -/
theorem C1_witness :
    cxCtx1.cur_tp.time ≤ 2500 ∧
    2500 - 500 * ((4 : Int) : ℚ) < cxCtx1.cur_tp.time ∧
    ∃ k : ℤ, cxCtx1.cur_tp.time = 0 + k * (500 * ((4 : Int) : ℚ)) :=
  C1_theorem [(1 : ℚ)/4] cxBm1 cxCtx1 2500 0
    { time := 0, beat_len := 500, meter := 4 }
    (by decide) (by decide) (by norm_num) (by decide)

/-- Helper: a first-match foldr equals the head of the filtered map. -/
theorem foldr_firstSat (lb : BeatPos) (f : BeatPos → BeatPos) (l : List BeatPos) :
    l.foldr (fun g acc => if lb ≤ f g then some (f g) else acc) none
      = ((l.map f).filter (fun p => decide (lb ≤ p))).head? := by
  induction l with
  | nil => rfl
  | cons g rest ih =>
    simp only [List.foldr_cons, List.map_cons, List.filter_cons]
    by_cases h : lb ≤ f g
    · simp [h]
    · simp [h, ih]

/-- Helper: the pivot search is a first-match scan of the granularity list,
coarsest first. -/
theorem findPivot_eq_firstSat (lb pm : BeatPos) :
    findPivot lb pm =
      ((pivotGaps.map fun g => pm.ceil g - g).filter
        (fun p => decide (lb ≤ p))).head? :=
  foldr_firstSat lb (fun g => pm.ceil g - g) pivotGaps

/-- C2, counterexample: on `cxBm3` the drift correction fires (50 ms ≥ 4 ms)
and the emitted correction control point sits at beat 3 (`frac = 144`),
while the largest satisfying pivot in the claim's sense is beat 163/48. -/
theorem C2_counterexample :
    convNew [(1 : ℚ)/4] cxBm3 = Except.ok cxCtx3 ∧
    cxCtx3.rest_tp = [cxTp3] ∧
    0 < cxTp3.beat_len ∧
    4 ≤ stepDrift cxCtx3 cxTp3 ∧
    (stepTP cxCtx3 cxTp3).out_bpms =
      [{ beat := ⟨0⟩, beat_len := 1/2 }, { beat := ⟨144⟩, beat_len := 2/5 },
       { beat := ⟨168⟩, beat_len := 1/2 }] ∧
    specLargestPivot (stepLastBeat cxCtx3) (stepPivotMax cxCtx3 cxTp3) = some ⟨163⟩ ∧
    ¬((⟨144⟩ : BeatPos) = (⟨163⟩ : BeatPos)) := by
  refine ⟨by decide, by decide, by decide, by decide, by decide, by decide, by decide⟩

/-- C2 (amended): when `get_beat` advances past an absolute timing point with
a rounded-snap drift of at least 4 ms, the correction control point is placed
at the pivot of the FIRST granularity `g ∈ {1, 1/2, 1/4, 1/8, 1/16, 1/48}`
(coarsest first) whose pivot `ceil(pivot_max, g) − g` is
`≥ max(last note beat, cur_beat)` — not at the largest such pivot; if no
granularity satisfies the bound, no correction control point is emitted. -/
theorem C2_theorem (c : ConvCtx) (tp : TimingPoint)
    (hbl : 0 < tp.beat_len) (hdrift : 4 ≤ stepDrift c tp) :
    (stepTP c tp).out_bpms =
      (match findPivot (stepLastBeat c) (stepPivotMax c tp) with
       | some pivot =>
         c.out_bpms ++ [{ beat := pivot, beat_len := corrBeatLen c tp pivot / 1000 },
                        { beat := stepTpBeat c tp, beat_len := tp.beat_len / 1000 }]
       | none =>
         c.out_bpms ++ [{ beat := stepTpBeat c tp, beat_len := tp.beat_len / 1000 }]) ∧
    findPivot (stepLastBeat c) (stepPivotMax c tp) =
      ((pivotGaps.map fun g => (stepPivotMax c tp).ceil g - g).filter
        (fun p => decide (stepLastBeat c ≤ p))).head? := by
  refine ⟨?_, findPivot_eq_firstSat _ _⟩
  rw [stepTP, if_neg (not_le.mpr hbl), stepCorr, if_pos hdrift]
  cases findPivot (stepLastBeat c) (stepPivotMax c tp) <;> simp

/-- C2, witness: the amended theorem applied to the `cxBm3` advancement. -/
theorem C2_witness :
    (stepTP cxCtx3 cxTp3).out_bpms =
      (match findPivot (stepLastBeat cxCtx3) (stepPivotMax cxCtx3 cxTp3) with
       | some pivot =>
         cxCtx3.out_bpms
           ++ [{ beat := pivot, beat_len := corrBeatLen cxCtx3 cxTp3 pivot / 1000 },
               { beat := stepTpBeat cxCtx3 cxTp3, beat_len := cxTp3.beat_len / 1000 }]
       | none =>
         cxCtx3.out_bpms
           ++ [{ beat := stepTpBeat cxCtx3 cxTp3, beat_len := cxTp3.beat_len / 1000 }]) ∧
    findPivot (stepLastBeat cxCtx3) (stepPivotMax cxCtx3 cxTp3) =
      ((pivotGaps.map fun g => (stepPivotMax cxCtx3 cxTp3).ceil g - g).filter
        (fun p => decide (stepLastBeat cxCtx3 ≤ p))).head? :=
  C2_theorem cxCtx3 cxTp3 (by decide) (by decide)

/-- C3: the doubly-empty beatmap (no hit objects, no timing points — which in
particular has no absolute timing point) makes `ConvCtx::new` evaluate
`bm.timing_points[0]` and panic, instead of returning the
`NoAbsoluteTimingPoint` error the claim promises. -/
theorem C3_theorem :
    convNew [] emptyBm = Except.error ConvErr.indexPanic ∧
    ConvErr.indexPanic ≠ ConvErr.noAbsoluteTimingPoint := by
  refine ⟨by decide, by decide⟩

/-- Helper: a fold of `firstTpScanStep` over inherited-only timing points is
the identity. -/
theorem firstTpScanStep_const (fh : ℚ) (l : List (Nat × TimingPoint))
    (h : ∀ p ∈ l, ¬(0 < p.2.beat_len)) (acc) :
    l.foldl (firstTpScanStep fh) acc = acc := by
  induction l generalizing acc with
  | nil => rfl
  | cons p rest ih =>
    rw [List.foldl_cons, firstTpScanStep, if_neg (h p (List.mem_cons_self p rest))]
    exact ih (fun q hq => h q (List.mem_cons_of_mem p hq)) acc

/-- Helper (the spec-intended part of C3): whenever the beatmap is not
doubly empty and has no absolute timing point, `ConvCtx::new` does return
`NoAbsoluteTimingPoint`. -/
theorem convNew_no_absolute (conf : List ℚ) (bm : Beatmap)
    (hne : bm.timing_points ≠ [] ∨ bm.hit_objects ≠ [])
    (habs : ∀ tp ∈ bm.timing_points, ¬(0 < tp.beat_len)) :
    convNew conf bm = Except.error ConvErr.noAbsoluteTimingPoint := by
  obtain ⟨fh, hfh⟩ : ∃ fh, firstHitTime bm = some fh := by
    rcases hh : bm.hit_objects with _ | ⟨o, os⟩
    · rcases ht : bm.timing_points with _ | ⟨tp, tps⟩
      · rcases hne with h | h
        · exact absurd ht h
        · exact absurd hh h
      · exact ⟨tp.time, by simp [firstHitTime, hh, ht]⟩
    · exact ⟨o.time, by simp [firstHitTime, hh]⟩
  have hstep := firstTpScanStep_const fh bm.timing_points.enum
    (fun p hp => habs p.2 (List.getElem?_mem (List.mem_enum_iff_getElem?.mp hp)))
    (none, none)
  have hscan : firstTpScan bm.timing_points fh = none := by
    simp only [firstTpScan, hstep]
    rfl
  simp only [convNew, hfh, hscan]

/-- C4, counterexample: consuming an inherited timing point with
`beat_len = −50` stores `−50/−100 = 1/2`, not `−100/−50 = 2`. -/
theorem C4_counterexample :
    (stepTP cxCtx3 { time := 0, beat_len := -50, meter := 4 }).inherited_multiplier
      = 1/2 ∧
    (-100 : ℚ) / (-50) = 2 ∧
    ((1 : ℚ)/2) ≠ 2 := by
  refine ⟨by decide, by decide, by decide⟩

/-- C4 (amended): consuming an inherited timing point (`beat_len ≤ 0`) stores
`beat_len/(−100)` (the reciprocal of the osu! slider-velocity multiplier
`−100/beat_len`) and leaves `cur_beat`, `cur_time`, the emitted control-point
list and the note list unchanged. -/
theorem C4_theorem (c : ConvCtx) (tp : TimingPoint) (h : tp.beat_len ≤ 0) :
    (stepTP c tp).inherited_multiplier = tp.beat_len / (-100) ∧
    (stepTP c tp).cur_beat = c.cur_beat ∧
    (stepTP c tp).cur_time = c.cur_time ∧
    (stepTP c tp).out_bpms = c.out_bpms ∧
    (stepTP c tp).out_notes = c.out_notes := by
  rw [stepTP, if_pos h]
  exact ⟨rfl, rfl, rfl, rfl, rfl⟩

/-- Helper: `put_list` always leaves the last recorded end index equal to
the element count. -/
theorem bucketWF_put {α : Type} (b : Bucket α) (l : List α) :
    bucketWF (b.put_list l) := by
  right
  simp [Bucket.put_list, List.getLast?_concat]

/-- Helper: on a well-formed bucket, `take_lists` after one more `put_list`
prepends exactly the new list. -/
theorem take_put {α : Type} (b : Bucket α) (l : List α) (hwf : bucketWF b) :
    (b.put_list l).take_lists = l :: b.take_lists := by
  rcases hwf with ⟨h1, h2⟩ | h
  · rcases b with ⟨s, ls⟩
    cases h1
    cases h2
    simp [Bucket.put_list, Bucket.take_lists, takeListsGo]
  · obtain ⟨ys, hys⟩ : ∃ ys, b.lists = ys ++ [b.simfiles.length] := by
      rcases List.eq_nil_or_concat b.lists with h0 | ⟨ys, a, hconc⟩
      · rw [h0] at h; cases h
      · rw [List.concat_eq_append] at hconc
        rw [hconc, List.getLast?_concat] at h
        cases h
        exact ⟨ys, hconc⟩
    rcases b with ⟨s, ls⟩
    simp only at hys
    subst hys
    simp [Bucket.put_list, Bucket.take_lists, takeListsGo, List.drop_left,
      List.take_left]

/-- Helper: buckets built by `put_list` alone are well formed. -/
theorem bucketWF_ofLists {α : Type} (ls : List (List α)) :
    bucketWF (bucketOfLists ls) := by
  induction ls using List.reverseRecOn with
  | nil => left; exact ⟨rfl, rfl⟩
  | append_singleton ls l _ih =>
    rw [show bucketOfLists (ls ++ [l]) = (bucketOfLists ls).put_list l from by
      rw [bucketOfLists, bucketOfLists, List.foldl_append]; rfl]
    exact bucketWF_put _ l

/-- C10: `take_lists` calls its consumer once per preceding `put_list`,
handing over each stored list exactly once with its internal order intact,
in reverse order of insertion (most recent first). -/
theorem C10_theorem {α : Type} (ls : List (List α)) :
    (bucketOfLists ls).take_lists = ls.reverse := by
  induction ls using List.reverseRecOn with
  | nil => rfl
  | append_singleton ls l ih =>
    rw [show bucketOfLists (ls ++ [l]) = (bucketOfLists ls).put_list l from by
      rw [bucketOfLists, bucketOfLists, List.foldl_append]; rfl]
    rw [take_put _ _ (bucketWF_ofLists ls), ih]
    simp

/-- C6, counterexample: the single-stage pipeline `stages6` resolves
successfully to `out6`, but resolving `out6` itself fails (`Resolved`
buckets are rejected), so resolution is not idempotent. -/
theorem C6_counterexample :
    resolveBuckets stages6 = Except.ok out6 ∧
    resolveBuckets out6 = Except.error RErr.resolvedDirect := by
  constructor
  · simp +decide [resolveBuckets, resolveStages, resolvePorts, applyTakeFlags,
      lastReads, stages6, out6, Bind.bind, Except.bind, List.foldl, List.enum,
      List.enumFrom, List.mapIdx, portName, startsWithTilde, List.mapIdx.go,
      pure, Except.pure]
  · simp +decide [resolveBuckets, resolveStages, resolvePorts, stages6, out6,
      Bind.bind, Except.bind]

/-- C6 (amended): bucket resolution is not idempotent — on any stage list
whose first stage leads with an already-`Resolved` bucket (as every port of
a successfully resolved stage list is), a second resolution run fails with
the "resolved buckets cannot be used directly" error rather than
reproducing the assignment. -/
theorem C6_theorem (out : List Stage) (p : BucketKind × BucketId) (ps : Stage)
    (rest : List Stage) (hshape : out = (p :: ps) :: rest)
    (hres : ∃ n t, p.2 = BucketId.resolved n t) :
    resolveBuckets out = Except.error RErr.resolvedDirect := by
  subst hshape
  obtain ⟨kind, bucket⟩ := p
  obtain ⟨n, t, rfl⟩ := hres
  simp [resolveBuckets, resolveStages, resolvePorts, Bind.bind, Except.bind]

/-- C6, witness: the amended theorem applied to the resolved output `out6`. -/
theorem C6_witness : resolveBuckets out6 = Except.error RErr.resolvedDirect :=
  C6_theorem out6 (BucketKind.output, BucketId.resolved "a" false) [] []
    rfl ⟨"a", false, rfl⟩

/-- Seeded RNGs are well formed. -/
theorem wfRng_seed (seed : Nat) : wfRng (FastRng.seed_from_u64 seed) := by
  intro n
  simp only [FastRng.seed_from_u64]
  constructor
  · positivity
  · rw [div_lt_one (by norm_num)]
    exact_mod_cast Nat.mod_lt _ (by norm_num)

/-- C5: on the well-formed 4K chart `cxSm5`, rekeying to 3K removes the
fourth head (all out-keys locked) but still emits its tail, mapped through
the stale `unlock_by_tails` entry to out-key 0 — the output carries two
beat-4 tails on key 0 for a single head, violating head/tail pairing. -/
theorem C5_theorem :
    wellFormedNotes 4 cxSm5.notes = true ∧
    (rekey cxSm5 cxConf5).notes =
      [{ kind := '2', beat := ⟨0⟩, key := 1 }, { kind := '2', beat := ⟨0⟩, key := 2 },
       { kind := '2', beat := ⟨0⟩, key := 0 },
       { kind := '3', beat := ⟨192⟩, key := 1 }, { kind := '3', beat := ⟨192⟩, key := 2 },
       { kind := '3', beat := ⟨192⟩, key := 0 }, { kind := '3', beat := ⟨192⟩, key := 0 }] ∧
    wellFormedNotes 3 (rekey cxSm5 cxConf5).notes = false := by
  refine ⟨by decide, by decide, by decide⟩

/-- Helper: on non-negative weights, cumulative selection of a point below
the total stays in range. -/
theorem selectIdx_lt (ws : List ℚ) (x : ℚ) (hnn : ∀ w ∈ ws, 0 ≤ w)
    (hx0 : 0 ≤ x) (hxs : x < ws.sum) : selectIdx ws x < ws.length := by
  induction ws generalizing x with
  | nil =>
    rw [List.sum_nil] at hxs
    linarith
  | cons w ws ih =>
    rw [selectIdx]
    by_cases h : x < w
    · rw [if_pos h]
      exact Nat.succ_pos _
    · rw [if_neg h, List.length_cons]
      have hrec := ih (x - w) (fun v hv => hnn v (List.mem_cons_of_mem w hv))
        (by push_neg at h; linarith)
        (by rw [List.sum_cons] at hxs; linarith)
      omega

/-- Helper: `alloc` fails exactly on the degenerate weight configurations
`choose_weighted` rejects. -/
theorem alloc_none_of_degenerate (ka : KeyAlloc) (keys : List Nat) (time : ℚ)
    (rng : FastRng)
    (h : keys = [] ∨ (∃ w ∈ keys.map (allocWeight ka time), w < 0) ∨
      (keys.map (allocWeight ka time)).sum = 0) :
    (ka.alloc keys time rng).1 = none := by
  rcases h with h | ⟨w, hwmem, hwlt⟩ | h
  · subst h
    rfl
  · by_cases he : keys.isEmpty
    · simp [KeyAlloc.alloc, chooseWeighted, he]
    · have hany : (keys.map (allocWeight ka time)).any (fun w => decide (w < 0)) = true :=
        List.any_eq_true.mpr ⟨w, hwmem, decide_eq_true hwlt⟩
      simp [KeyAlloc.alloc, chooseWeighted, he, hany]
  · by_cases he : keys.isEmpty
    · simp [KeyAlloc.alloc, chooseWeighted, he]
    · by_cases hany : (keys.map (allocWeight ka time)).any (fun w => decide (w < 0)) = true
      · simp [KeyAlloc.alloc, chooseWeighted, he, hany]
      · simp [KeyAlloc.alloc, chooseWeighted, he, hany, h]

/-- Helper: on a non-empty slice with non-negative weights of positive sum,
`alloc` succeeds, returns a slice element and touches it. -/
theorem alloc_some_of_good (ka : KeyAlloc) (keys : List Nat) (time : ℚ)
    (rng : FastRng) (hw : wfRng rng) (hne : keys ≠ [])
    (hnn : ∀ w ∈ keys.map (allocWeight ka time), 0 ≤ w)
    (hnz : (keys.map (allocWeight ka time)).sum ≠ 0) :
    ∃ key ∈ keys, (ka.alloc keys time rng).1 = some key ∧
      (ka.alloc keys time rng).2.1 = ka.touch key time := by
  have he : keys.isEmpty = false := by
    rw [List.isEmpty_eq_false]
    exact hne
  have hany : (keys.map (allocWeight ka time)).any (fun w => decide (w < 0)) = false := by
    rw [List.any_eq_false]
    intro w hwmem
    simp only [decide_eq_true_eq]
    exact not_lt.mpr (hnn w hwmem)
  have hpos : 0 < (keys.map (allocWeight ka time)).sum :=
    lt_of_le_of_ne (List.sum_nonneg hnn) (Ne.symm hnz)
  have hq := hw rng.pos
  have hidx : selectIdx (keys.map (allocWeight ka time))
      (rng.stream rng.pos * (keys.map (allocWeight ka time)).sum)
        < (keys.map (allocWeight ka time)).length := by
    refine selectIdx_lt _ _ hnn ?_ ?_
    · exact mul_nonneg hq.1 (le_of_lt hpos)
    · calc rng.stream rng.pos * (keys.map (allocWeight ka time)).sum
          < 1 * (keys.map (allocWeight ka time)).sum :=
            mul_lt_mul_of_pos_right hq.2 hpos
        _ = (keys.map (allocWeight ka time)).sum := one_mul _
  rw [List.length_map] at hidx
  have hget := List.get?_eq_get hidx
  have hmem := List.get?_mem hget
  rw [List.get?_eq_getElem?] at hget
  refine ⟨keys.get ⟨_, hidx⟩, hmem, ?_⟩
  constructor
  · simp [KeyAlloc.alloc, chooseWeighted, he, hany, hnz, FastRng.next, hget]
  · simp [KeyAlloc.alloc, chooseWeighted, he, hany, hnz, FastRng.next, hget]

/-- C7 (amended): `alloc` returns `None` iff the candidate slice is empty OR
the weights are degenerate (some weight negative, or all weights zero — as
with an all-zero user weight curve); on success it returns a key from the
slice and sets that key's `last_active` to the given time, leaving the other
entries unchanged. -/
theorem C7_theorem (ka : KeyAlloc) (keys : List Nat) (time : ℚ) (rng : FastRng)
    (hw : wfRng rng) :
    ((ka.alloc keys time rng).1 = none ↔
      keys = [] ∨ (∃ w ∈ keys.map (allocWeight ka time), w < 0) ∨
        (keys.map (allocWeight ka time)).sum = 0) ∧
    (∀ key, (ka.alloc keys time rng).1 = some key →
      key ∈ keys ∧
      (ka.alloc keys time rng).2.1.last_active = ka.last_active.set key (some time)) := by
  constructor
  · constructor
    · intro hnone
      by_contra hcon
      push_neg at hcon
      obtain ⟨hne, hnoneg, hnz⟩ := hcon
      obtain ⟨key, _, hsome, _⟩ := alloc_some_of_good ka keys time rng hw hne hnoneg hnz
      rw [hnone] at hsome
      cases hsome
    · exact alloc_none_of_degenerate ka keys time rng
  · intro key hkey
    by_cases hdeg : keys = [] ∨ (∃ w ∈ keys.map (allocWeight ka time), w < 0) ∨
      (keys.map (allocWeight ka time)).sum = 0
    · rw [alloc_none_of_degenerate ka keys time rng hdeg] at hkey
      cases hkey
    · push_neg at hdeg
      obtain ⟨hne, hnoneg, hnz⟩ := hdeg
      obtain ⟨key', hmem, hsome, htouch⟩ :=
        alloc_some_of_good ka keys time rng hw hne hnoneg hnz
      rw [hsome, Option.some.injEq] at hkey
      subst hkey
      exact ⟨hmem, by rw [htouch]; rfl⟩

/-- C7, counterexample: with the degenerate all-zero weight curve the
allocator fails on a non-empty candidate slice, refuting "None iff empty". -/
theorem C7_counterexample :
    (((KeyAlloc.new 1).set_weight_curve [(0, 0), (1, 0)]).alloc [0] 5
      (FastRng.seed_from_u64 0)).1 = none ∧
    ([0] : List Nat) ≠ [] := by
  refine ⟨by decide, by decide⟩

/-- C7, witness: the amended theorem on a fresh 3-key allocator with
candidates `[0, 2]`. -/
theorem C7_witness :
    (((KeyAlloc.new 3).alloc [0, 2] 5 (FastRng.seed_from_u64 0)).1 = none ↔
      ([0, 2] : List Nat) = [] ∨
      (∃ w ∈ ([0, 2] : List Nat).map (allocWeight (KeyAlloc.new 3) 5), w < 0) ∨
      (([0, 2] : List Nat).map (allocWeight (KeyAlloc.new 3) 5)).sum = 0) ∧
    (∀ key, (((KeyAlloc.new 3).alloc [0, 2] 5 (FastRng.seed_from_u64 0)).1 = some key →
      key ∈ ([0, 2] : List Nat) ∧
      (((KeyAlloc.new 3).alloc [0, 2] 5 (FastRng.seed_from_u64 0)).2.1.last_active
        = (KeyAlloc.new 3).last_active.set key (some 5)))) :=
  C7_theorem (KeyAlloc.new 3) [0, 2] 5 (FastRng.seed_from_u64 0) (wfRng_seed 0)

/-- C9: the rekey RNG is a pure function of `(music, title_translit, desc,
"rekey")`, and the rekey output notes depend only on those fields plus the
chart content the stage reads (gamemode, offset, control points, notes) —
so two runs on identical inputs under identical configuration emit identical
note sequences. -/
theorem C9_theorem (sm1 sm2 : Simfile) (conf : Rekey)
    (hm : sm1.music = sm2.music) (ht : sm1.title_trans = sm2.title_trans)
    (hd : sm1.desc = sm2.desc) :
    simfile_rng sm1 "rekey" = simfile_rng sm2 "rekey" ∧
    (sm1.gamemode = sm2.gamemode → sm1.offset = sm2.offset → sm1.bpms = sm2.bpms →
      sm1.notes = sm2.notes → (rekey sm1 conf).notes = (rekey sm2 conf).notes) := by
  constructor
  · rw [simfile_rng, simfile_rng, hm, ht, hd]
  · intro hg ho hb hn
    simp only [rekey, ToTime.new, simfile_rng, hm, ht, hd, hg, ho, hb, hn]
    split
    · exact hn
    · rfl

/-- C9, witness: two simfiles that differ only in fields the stage never
reads produce the same RNG and the same output notes. -/
theorem C9_witness :
    simfile_rng cxSm5 "rekey"
      = simfile_rng { cxSm5 with title := "other", artist := "other" } "rekey" ∧
    (cxSm5.gamemode = ({ cxSm5 with title := "other", artist := "other" } : Simfile).gamemode →
      cxSm5.offset = ({ cxSm5 with title := "other", artist := "other" } : Simfile).offset →
      cxSm5.bpms = ({ cxSm5 with title := "other", artist := "other" } : Simfile).bpms →
      cxSm5.notes = ({ cxSm5 with title := "other", artist := "other" } : Simfile).notes →
      (rekey cxSm5 cxConf5).notes
        = (rekey { cxSm5 with title := "other", artist := "other" } cxConf5).notes) :=
  C9_theorem cxSm5 { cxSm5 with title := "other", artist := "other" } cxConf5
    rfl rfl rfl

/-! ### C8 helpers: counting and list utilities -/

/-- `countTrue` of a cons. -/
theorem countTrue_cons (x : Bool) (l : List Bool) :
    countTrue (x :: l) = (if x then 1 else 0) + countTrue l := by
  cases x <;> simp [countTrue, List.count_cons, Nat.add_comm]

/-- `getD` after clearing one entry. -/
theorem getD_set_false (l : List Bool) (k j : Nat) :
    (l.set k false).getD j false = (l.getD j false && !(decide (j = k))) := by
  rw [List.getD_eq_getElem?_getD, List.getD_eq_getElem?_getD, List.getElem?_set]
  by_cases h : k = j
  · subst h
    simp only [if_pos rfl]
    by_cases hk : k < l.length <;> simp [hk]
  · rw [if_neg h]
    simp [Ne.symm h]

/-- `getD` after setting one in-range entry. -/
theorem getD_set_true (l : List Bool) (k j : Nat) (hk : k < l.length) :
    (l.set k true).getD j false = (l.getD j false || decide (j = k)) := by
  rw [List.getD_eq_getElem?_getD, List.getD_eq_getElem?_getD, List.getElem?_set]
  by_cases h : k = j
  · subst h
    simp [hk]
  · rw [if_neg h]
    simp [Ne.symm h]

/-- A `true` entry is in range. -/
theorem getD_true_lt (l : List Bool) (k : Nat) (h : l.getD k false = true) : k < l.length := by
  by_contra hk
  rw [List.getD_eq_getElem?_getD, List.getElem?_eq_none (Nat.le_of_not_lt hk)] at h
  exact Bool.false_ne_true h

/-- Clearing can only decrease the count. -/
theorem countTrue_set_false_le (l : List Bool) : ∀ k, countTrue (l.set k false) ≤ countTrue l := by
  induction l with
  | nil => intro k; simp [List.set]
  | cons x xs ih =>
    intro k
    cases k with
    | zero =>
      simp only [List.set_cons_zero, countTrue_cons]
      exact Nat.add_le_add_right (by cases x <;> simp) _
    | succ k' =>
      simp only [List.set_cons_succ, countTrue_cons]
      exact Nat.add_le_add_left (ih k') _

/-- Setting can increase the count by at most one. -/
theorem countTrue_set_true_le (l : List Bool) : ∀ k, countTrue (l.set k true) ≤ countTrue l + 1 := by
  induction l with
  | nil => intro k; simp [List.set]
  | cons x xs ih =>
    intro k
    cases k with
    | zero =>
      simp only [List.set_cons_zero, countTrue_cons]
      cases x <;> simp [Nat.add_comm, Nat.add_le_add_iff_left]
    | succ k' =>
      simp only [List.set_cons_succ, countTrue_cons]
      calc (if x then 1 else 0) + countTrue (xs.set k' true)
          ≤ (if x then 1 else 0) + (countTrue xs + 1) := Nat.add_le_add_left (ih k') _
        _ = (if x then 1 else 0) + countTrue xs + 1 := by omega

/-- Clearing a `true` entry decreases the count by exactly one. -/
theorem countTrue_set_false_eq (l : List Bool) :
    ∀ k, l.getD k false = true → countTrue (l.set k false) + 1 = countTrue l := by
  induction l with
  | nil => intro k h; simp [List.getD] at h
  | cons x xs ih =>
    intro k h
    cases k with
    | zero =>
      have hx : x = true := h
      simp [List.set_cons_zero, countTrue_cons, hx, Nat.add_comm]
    | succ k' =>
      have h' : xs.getD k' false = true := h
      have := ih k' h'
      simp only [List.set_cons_succ, countTrue_cons]
      omega

/-- Bool lists agreeing on every `getD` (and in length) are equal. -/
theorem list_bool_ext (l₁ l₂ : List Bool) (hlen : l₁.length = l₂.length)
    (h : ∀ k, l₁.getD k false = l₂.getD k false) : l₁ = l₂ := by
  apply List.ext_getElem?
  intro n
  by_cases hn : n < l₁.length
  · have h₂ : n < l₂.length := hlen ▸ hn
    have := h n
    rw [List.getD_eq_getElem?_getD, List.getD_eq_getElem?_getD,
        List.getElem?_eq_getElem hn, List.getElem?_eq_getElem h₂] at this
    rw [List.getElem?_eq_getElem hn, List.getElem?_eq_getElem h₂]
    simpa using this
  · rw [List.getElem?_eq_none (Nat.le_of_not_lt hn),
        List.getElem?_eq_none (hlen ▸ Nat.le_of_not_lt hn)]

/-- `clearKeys` of a cons. -/
theorem clearKeys_cons (c : Nat) (cl : List Nat) (act : List Bool) :
    clearKeys (c :: cl) act = clearKeys cl (act.set c false) := rfl

/-- `clearKeys` preserves length. -/
theorem clearKeys_length (cl : List Nat) : ∀ act, (clearKeys cl act).length = act.length := by
  induction cl with
  | nil => intro act; rfl
  | cons c cl ih => intro act; rw [clearKeys_cons, ih, List.length_set]

/-- `getD`-description of `clearKeys`. -/
theorem clearKeys_getD (cl : List Nat) : ∀ act k,
    (clearKeys cl act).getD k false = (act.getD k false && !(decide (k ∈ cl))) := by
  induction cl with
  | nil => intro act k; simp [clearKeys]
  | cons c cl ih =>
    intro act k
    rw [clearKeys_cons, ih, getD_set_false]
    by_cases h : k ∈ cl <;> by_cases h2 : k = c <;> simp [h, h2]

/-- Clearing one more key appends it to the cleared set. -/
theorem clearKeys_set_false (cl : List Nat) : ∀ act k,
    (clearKeys cl act).set k false = clearKeys (cl ++ [k]) act := by
  induction cl with
  | nil => intro act k; rfl
  | cons c cl ih => intro act k; rw [clearKeys_cons, ih]; rfl

/-- Heads are not tails. -/
theorem not_tail_of_head {n : Note} (hh : n.is_head = true) : n.is_tail = false := by
  have hk : n.kind = Note.KIND_HEAD := of_decide_eq_true hh
  simp [Note.is_tail, hk, Note.KIND_HEAD, Note.KIND_TAIL]

/-- Inversion of a successful scan step on a tail. -/
theorem scanStep_tail {st st' : List (Option BeatPos)} {n : Note} (ht : n.is_tail = true)
    (h : scanStep st n = some st') :
    ∃ hb, 0 ≤ n.key ∧ n.key.toNat < st.length ∧ st.getD n.key.toNat none = some hb ∧
      hb < n.beat ∧ st' = st.set n.key.toNat none := by
  unfold scanStep at h
  split at h
  · cases h
  · rename_i hkey
    rcases hget : st.get? n.key.toNat with _ | stk
    · rw [hget] at h; cases h
    · rw [hget] at h
      simp only [ht, if_true] at h
      rcases stk with _ | hb
      · simp at h
      · simp only at h
        split at h
        · rename_i hhb
          refine ⟨hb, Int.not_lt.mp hkey, ?_, ?_, hhb, by cases h; rfl⟩
          · rw [List.get?_eq_getElem?] at hget
            exact (List.getElem?_eq_some.mp hget).1
          · rw [List.get?_eq_getElem?] at hget
            rw [List.getD_eq_getElem?_getD, hget]
            rfl
        · cases h

/-- Inversion of a successful scan step on a head. -/
theorem scanStep_head {st st' : List (Option BeatPos)} {n : Note} (hh : n.is_head = true)
    (h : scanStep st n = some st') :
    0 ≤ n.key ∧ n.key.toNat < st.length ∧ st.getD n.key.toNat none = none ∧
      st' = st.set n.key.toNat (some n.beat) := by
  unfold scanStep at h
  split at h
  · cases h
  · rename_i hkey
    rcases hget : st.get? n.key.toNat with _ | stk
    · rw [hget] at h; cases h
    · rw [hget] at h
      rw [not_tail_of_head hh] at h
      simp only [Bool.false_eq_true, if_false] at h
      split at h
      · rename_i hnone
        rw [List.get?_eq_getElem?] at hget
        refine ⟨Int.not_lt.mp hkey, (List.getElem?_eq_some.mp hget).1, ?_, by cases h; rfl⟩
        rw [List.getD_eq_getElem?_getD, hget, Option.isNone_iff_eq_none.mp hnone]
        rfl
      · cases h

/-- Inversion of a successful scan step on a fresh hit. -/
theorem scanStep_hit {st st' : List (Option BeatPos)} {n : Note} (ht : n.is_tail = false)
    (hh : n.is_head = false) (h : scanStep st n = some st') :
    0 ≤ n.key ∧ n.key.toNat < st.length ∧ st.getD n.key.toNat none = none ∧ st' = st := by
  unfold scanStep at h
  split at h
  · cases h
  · rename_i hkey
    rcases hget : st.get? n.key.toNat with _ | stk
    · rw [hget] at h; cases h
    · rw [hget] at h
      rw [ht, hh] at h
      simp only [Bool.false_eq_true, if_false] at h
      split at h
      · rename_i hnone
        rw [List.get?_eq_getElem?] at hget
        refine ⟨Int.not_lt.mp hkey, (List.getElem?_eq_some.mp hget).1, ?_, by cases h; rfl⟩
        rw [List.getD_eq_getElem?_getD, hget, Option.isNone_iff_eq_none.mp hnone]
        rfl
      · cases h

/-- A successful scan step preserves length. -/
theorem scanStep_length {st st' : List (Option BeatPos)} {n : Note}
    (h : scanStep st n = some st') : st'.length = st.length := by
  by_cases ht : n.is_tail = true
  · obtain ⟨hb, -, -, -, -, hset⟩ := scanStep_tail ht h
    rw [hset, List.length_set]
  · by_cases hh : n.is_head = true
    · obtain ⟨-, -, -, hset⟩ := scanStep_head hh h
      rw [hset, List.length_set]
    · obtain ⟨-, -, -, hset⟩ :=
        scanStep_hit (Bool.not_eq_true _ ▸ ht) (Bool.not_eq_true _ ▸ hh) h
      rw [hset]

/-- A successful scan preserves length. -/
theorem scanList_length : ∀ (ns : List Note) (st st' : List (Option BeatPos)),
    scanList st ns = some st' → st'.length = st.length := by
  intro ns
  induction ns with
  | nil => intro st st' h; cases h; rfl
  | cons n rest ih =>
    intro st st' h
    cases hstep : scanStep st n with
    | none =>
      simp only [scanList, hstep] at h
      exact Option.noConfusion h
    | some mid =>
      simp only [scanList, hstep] at h
      rw [ih mid st' h, scanStep_length hstep]

/-- Splitting a successful scan over an append. -/
theorem scanList_append : ∀ (xs ys : List Note) (st st'' : List (Option BeatPos)),
    scanList st (xs ++ ys) = some st'' →
    ∃ mid, scanList st xs = some mid ∧ scanList mid ys = some st'' := by
  intro xs
  induction xs with
  | nil => intro ys st st'' h; exact ⟨st, rfl, h⟩
  | cons x xs ih =>
    intro ys st st'' h
    rw [List.cons_append] at h
    cases hstep : scanStep st x with
    | none =>
      simp only [scanList, hstep] at h
      exact Option.noConfusion h
    | some mid =>
      simp only [scanList, hstep] at h
      obtain ⟨mid', h1, h2⟩ := ih ys mid st'' h
      exact ⟨mid', by simp only [scanList, hstep]; exact h1, h2⟩

/-- Assembling a scan over an append. -/
theorem scanList_append_of : ∀ (xs ys : List Note) (st mid st'' : List (Option BeatPos)),
    scanList st xs = some mid → scanList mid ys = some st'' →
    scanList st (xs ++ ys) = some st'' := by
  intro xs
  induction xs with
  | nil => intro ys st mid st'' h1 h2; cases h1; exact h2
  | cons x xs ih =>
    intro ys st mid st'' h1 h2
    rw [List.cons_append]
    cases hstep : scanStep st x with
    | none =>
      simp only [scanList, hstep] at h1
      exact Option.noConfusion h1
    | some mid0 =>
      simp only [scanList, hstep] at h1 ⊢
      exact ih ys mid0 mid st'' h1 h2

/-- `countHits` of a cons. -/
theorem countHits_cons (n : Note) (rest : List Note) :
    countHits (n :: rest) =
      (if n.is_tail = false ∧ n.is_head = false then 1 else 0) + countHits rest := by
  simp only [countHits, List.filter_cons]
  cases h1 : n.is_tail <;> cases h2 : n.is_head <;> simp [Nat.add_comm]

/-- The `beat_notes` component of the block scan is exactly the non-tail
index list. -/
theorem blockScanGo_beatIdxs (blk : List Note) : ∀ (active : List Bool) (idx : Nat),
    (blockScanGo active idx blk).2.2.1 = nonTailIdxs idx blk := by
  induction blk with
  | nil => intro active idx; rfl
  | cons n rest ih =>
    intro active idx
    simp only [blockScanGo, nonTailIdxs]
    cases ht : n.is_tail with
    | true =>
      simp only [if_true]
      cases ha : active.getD n.key.toNat false with
      | true => simp only [if_true]; exact ih (active.set n.key.toNat false) (idx+1)
      | false => simp only [Bool.false_eq_true, if_false]; exact ih active (idx+1)
    | false =>
      simp only [Bool.false_eq_true, if_false]
      cases hh : n.is_head with
      | true =>
        simp only [if_true, List.cons.injEq, true_and]
        exact ih (active.set n.key.toNat true) (idx+1)
      | false =>
        simp only [Bool.false_eq_true, if_false, List.cons.injEq, true_and]
        exact ih active (idx+1)

/-- The `tmp_active_notes` component of the block scan is the number of
fresh hits. -/
theorem blockScanGo_tmp (blk : List Note) : ∀ (active : List Bool) (idx : Nat),
    (blockScanGo active idx blk).2.2.2 = countHits blk := by
  induction blk with
  | nil => intro active idx; rfl
  | cons n rest ih =>
    intro active idx
    simp only [blockScanGo, countHits_cons]
    cases ht : n.is_tail with
    | true =>
      simp only [if_true, Bool.true_eq_false, false_and, if_false, Nat.zero_add]
      cases ha : active.getD n.key.toNat false with
      | true => simp only [if_true]; exact ih (active.set n.key.toNat false) (idx+1)
      | false => simp only [Bool.false_eq_true, if_false]; exact ih active (idx+1)
    | false =>
      simp only [Bool.false_eq_true, if_false]
      cases hh : n.is_head with
      | true =>
        simp only [if_true, Bool.true_eq_false, and_false, if_false, Nat.zero_add]
        exact ih (active.set n.key.toNat true) (idx+1)
      | false =>
        simp only [Bool.false_eq_true, if_false]
        have h1 := ih active (idx+1)
        show (blockScanGo active (idx+1) rest).2.2.2 + 1 = 1 + countHits rest
        rw [h1, Nat.add_comm]

/-- The block scan preserves the length of `active_notes`. -/
theorem blockScanGo_act_length (blk : List Note) : ∀ (active : List Bool) (idx : Nat),
    ((blockScanGo active idx blk).2.1).length = active.length := by
  induction blk with
  | nil => intro active idx; rfl
  | cons n rest ih =>
    intro active idx
    simp only [blockScanGo]
    cases ht : n.is_tail with
    | true =>
      simp only [if_true]
      cases ha : active.getD n.key.toNat false with
      | true =>
        simp only [if_true]
        exact (ih (active.set n.key.toNat false) (idx+1)).trans (List.length_set _ _ _)
      | false => simp only [Bool.false_eq_true, if_false]; exact ih active (idx+1)
    | false =>
      simp only [Bool.false_eq_true, if_false]
      cases hh : n.is_head with
      | true =>
        simp only [if_true]
        exact (ih _ (idx+1)).trans (List.length_set _ _ _)
      | false =>
        simp only [Bool.false_eq_true, if_false]
        exact ih active (idx+1)

/-- The block scan returns one marked note per input note. -/
theorem blockScanGo_marked_length (blk : List Note) : ∀ (active : List Bool) (idx : Nat),
    ((blockScanGo active idx blk).1).length = blk.length := by
  induction blk with
  | nil => intro active idx; rfl
  | cons n rest ih =>
    intro active idx
    simp only [blockScanGo]
    cases ht : n.is_tail with
    | true =>
      simp only [if_true]
      cases ha : active.getD n.key.toNat false with
      | true => simp only [if_true, List.length_cons]; rw [ih _ (idx+1)]
      | false => simp only [Bool.false_eq_true, if_false, List.length_cons]; rw [ih _ (idx+1)]
    | false =>
      simp only [Bool.false_eq_true, if_false]
      cases hh : n.is_head with
      | true => simp only [if_true, List.length_cons]; rw [ih _ (idx+1)]
      | false => simp only [Bool.false_eq_true, if_false, List.length_cons]; rw [ih _ (idx+1)]

/-- Every non-tail index points at or past the start. -/
theorem nonTailIdxs_ge (blk : List Note) : ∀ (idx : Nat) (i : Nat),
    i ∈ nonTailIdxs idx blk → idx ≤ i := by
  induction blk with
  | nil => intro idx i h; simp [nonTailIdxs] at h
  | cons n rest ih =>
    intro idx i h
    simp only [nonTailIdxs] at h
    cases ht : n.is_tail with
    | true =>
      rw [ht, if_pos rfl] at h
      exact Nat.le_of_succ_le (ih (idx+1) i h)
    | false =>
      rw [ht, if_neg Bool.false_ne_true, List.mem_cons] at h
      rcases h with rfl | h
      · exact Nat.le_refl _
      · exact Nat.le_of_succ_le (ih (idx+1) i h)

/-- The non-tail index list has no duplicates. -/
theorem nonTailIdxs_nodup (blk : List Note) : ∀ (idx : Nat), (nonTailIdxs idx blk).Nodup := by
  induction blk with
  | nil => intro idx; simp [nonTailIdxs]
  | cons n rest ih =>
    intro idx
    simp only [nonTailIdxs]
    cases ht : n.is_tail with
    | true => simp only [if_true]; exact ih (idx+1)
    | false =>
      simp only [Bool.false_eq_true, if_false]
      refine List.nodup_cons.mpr ⟨fun hmem => ?_, ih (idx+1)⟩
      exact absurd (nonTailIdxs_ge rest (idx+1) idx hmem) (by omega)

/-- A non-tail index points at a non-tail note. -/
theorem nonTailIdxs_spec (blk : List Note) : ∀ (idx i : Nat), i ∈ nonTailIdxs idx blk →
    ∃ m, blk[i - idx]? = some m ∧ m.is_tail = false := by
  induction blk with
  | nil => intro idx i h; simp [nonTailIdxs] at h
  | cons n rest ih =>
    intro idx i h
    simp only [nonTailIdxs] at h
    cases ht : n.is_tail with
    | true =>
      rw [ht, if_pos rfl] at h
      obtain ⟨m, hm, hmt⟩ := ih (idx+1) i h
      have hge : idx + 1 ≤ i := nonTailIdxs_ge rest (idx+1) i h
      refine ⟨m, ?_, hmt⟩
      rw [show i - idx = (i - (idx+1)) + 1 from by omega, List.getElem?_cons_succ]
      exact hm
    | false =>
      rw [ht, if_neg Bool.false_ne_true, List.mem_cons] at h
      rcases h with rfl | h
      · refine ⟨n, ?_, ht⟩
        simp
      · obtain ⟨m, hm, hmt⟩ := ih (idx+1) i h
        have hge : idx + 1 ≤ i := nonTailIdxs_ge rest (idx+1) i h
        refine ⟨m, ?_, hmt⟩
        rw [show i - idx = (i - (idx+1)) + 1 from by omega, List.getElem?_cons_succ]
        exact hm

/-- The scan's post-count (holding heads plus fresh hits) exceeds the
incoming count by at most the number of non-tail notes. -/
theorem blockScanGo_count_le (blk : List Note) : ∀ (active : List Bool) (idx : Nat),
    countTrue (blockScanGo active idx blk).2.1 + (blockScanGo active idx blk).2.2.2
      ≤ countTrue active + (nonTailIdxs idx blk).length := by
  induction blk with
  | nil => intro active idx; simp [blockScanGo, nonTailIdxs]
  | cons n rest ih =>
    intro active idx
    simp only [blockScanGo, nonTailIdxs]
    cases ht : n.is_tail with
    | true =>
      simp only [if_true]
      cases ha : active.getD n.key.toNat false with
      | true =>
        simp only [if_true]
        have h1 := ih (active.set n.key.toNat false) (idx+1)
        have h2 := countTrue_set_false_le active n.key.toNat
        show countTrue (blockScanGo (active.set n.key.toNat false) (idx+1) rest).2.1 +
            (blockScanGo (active.set n.key.toNat false) (idx+1) rest).2.2.2 ≤
          countTrue active + (nonTailIdxs (idx+1) rest).length
        omega
      | false =>
        simp only [Bool.false_eq_true, if_false]
        exact ih active (idx+1)
    | false =>
      simp only [Bool.false_eq_true, if_false]
      cases hh : n.is_head with
      | true =>
        simp only [if_true, List.length_cons]
        have h1 := ih (active.set n.key.toNat true) (idx+1)
        have h2 := countTrue_set_true_le active n.key.toNat
        show countTrue (blockScanGo (active.set n.key.toNat true) (idx+1) rest).2.1 +
            (blockScanGo (active.set n.key.toNat true) (idx+1) rest).2.2.2 ≤
          countTrue active + ((nonTailIdxs (idx+1) rest).length + 1)
        omega
      | false =>
        simp only [Bool.false_eq_true, if_false, List.length_cons]
        have h1 := ih active (idx+1)
        show countTrue (blockScanGo active (idx+1) rest).2.1 +
            ((blockScanGo active (idx+1) rest).2.2.2 + 1) ≤
          countTrue active + ((nonTailIdxs (idx+1) rest).length + 1)
        omega

/-- Reduce a Bool-conditioned `if` whose condition is known true. -/
theorem if_bool_true {α : Sort u} (c : Bool) (h : c = true) (a b : α) :
    (if c = true then a else b) = a := by
  rw [h]
  exact if_pos rfl

/-- Reduce a Bool-conditioned `if` whose condition is known false. -/
theorem if_bool_false {α : Sort u} (c : Bool) (h : c = false) (a b : α) :
    (if c = true then a else b) = b := by
  rw [h]
  exact if_neg Bool.false_ne_true

/-- Marking a note changes neither its kind flags nor its beat. -/
theorem is_tail_mark (n : Note) : ({ n with key := -1 } : Note).is_tail = n.is_tail := rfl

/-- Marking a note preserves `is_head`. -/
theorem is_head_mark (n : Note) : ({ n with key := -1 } : Note).is_head = n.is_head := rfl

/-- Marking a note preserves its beat. -/
theorem beat_mark (n : Note) : ({ n with key := -1 } : Note).beat = n.beat := rfl

/-- `BeatPos` strict order is irreflexive. -/
theorem beatPos_lt_irrefl (a : BeatPos) : ¬a < a := fun h => lt_irrefl a.frac h

/-- A scan step keeps other keys' open holds open (the step's own key is a
different one). -/
theorem scanStep_open_preserve {st mid : List (Option BeatPos)} {n : Note} {b : BeatPos}
    {k : Nat} (hstep : scanStep st n = some mid) (hbn : n.beat = b)
    (hstk : st.getD k none = some b) : mid.getD k none = some b ∧ n.key.toNat ≠ k := by
  by_cases ht : n.is_tail = true
  · obtain ⟨hb', hk0, hlt, hget, hlt', hset⟩ := scanStep_tail ht hstep
    have hne : n.key.toNat ≠ k := by
      intro he
      rw [he, hstk] at hget
      injection hget with he'
      rw [hbn] at hlt'
      rw [he'] at hlt'
      exact absurd hlt' (beatPos_lt_irrefl hb')
    refine ⟨?_, hne⟩
    rw [hset, List.getD_eq_getElem?_getD, List.getElem?_set_ne hne,
      ← List.getD_eq_getElem?_getD]
    exact hstk
  · by_cases hh : n.is_head = true
    · obtain ⟨hk0, hlt, hget, hset⟩ := scanStep_head hh hstep
      have hne : n.key.toNat ≠ k := by
        intro he
        rw [he, hstk] at hget
        exact Option.noConfusion hget
      refine ⟨?_, hne⟩
      rw [hset, List.getD_eq_getElem?_getD, List.getElem?_set_ne hne,
        ← List.getD_eq_getElem?_getD]
      exact hstk
    · obtain ⟨hk0, hlt, hget, hset⟩ :=
        scanStep_hit (Bool.not_eq_true _ ▸ ht) (Bool.not_eq_true _ ▸ hh) hstep
      have hne : n.key.toNat ≠ k := by
        intro he
        rw [he, hstk] at hget
        exact Option.noConfusion hget
      rw [hset]
      exact ⟨hstk, hne⟩

/-- Scan success bounds every note's key by the state length. -/
theorem scanList_keys (blk : List Note) : ∀ (st st' : List (Option BeatPos)),
    scanList st blk = some st' → ∀ m ∈ blk, 0 ≤ m.key ∧ m.key.toNat < st.length := by
  induction blk with
  | nil => intro st st' h m hm; cases hm
  | cons n rest ih =>
    intro st st' h m hm
    cases hstep : scanStep st n with
    | none =>
      simp only [scanList, hstep] at h
      exact Option.noConfusion h
    | some mid =>
      simp only [scanList, hstep] at h
      rcases List.mem_cons.mp hm with rfl | hm'
      · by_cases ht : m.is_tail = true
        · obtain ⟨hb, hk, hlt, -, -, -⟩ := scanStep_tail ht hstep
          exact ⟨hk, hlt⟩
        · by_cases hh : m.is_head = true
          · obtain ⟨hk, hlt, -, -⟩ := scanStep_head hh hstep
            exact ⟨hk, hlt⟩
          · obtain ⟨hk, hlt, -, -⟩ :=
              scanStep_hit (Bool.not_eq_true _ ▸ ht) (Bool.not_eq_true _ ▸ hh) hstep
            exact ⟨hk, hlt⟩
      · obtain ⟨hk, hlt⟩ := ih mid st' h m hm'
        exact ⟨hk, by rw [← scanStep_length hstep]; exact hlt⟩

/-- Once a key's hold is open at the block beat, the scan keeps its
`active_notes` entry true. -/
theorem blockScanGo_act_preserve (blk : List Note) : ∀ (active : List Bool) (idx : Nat)
    (st st' : List (Option BeatPos)) (b : BeatPos) (k : Nat),
    (∀ m ∈ blk, m.beat = b) → scanList st blk = some st' →
    st.getD k none = some b → active.getD k false = true →
    ((blockScanGo active idx blk).2.1).getD k false = true := by
  induction blk with
  | nil => intro active idx st st' b k hb hscan hstk hact; exact hact
  | cons n rest ih =>
    intro active idx st st' b k hb hscan hstk hact
    cases hstep : scanStep st n with
    | none =>
      simp only [scanList, hstep] at hscan
      exact Option.noConfusion hscan
    | some mid =>
      simp only [scanList, hstep] at hscan
      have hbn : n.beat = b := hb n (List.mem_cons_self n rest)
      have hbrest : ∀ m ∈ rest, m.beat = b := fun m hm => hb m (List.mem_cons_of_mem n hm)
      obtain ⟨hmid, hne⟩ := scanStep_open_preserve hstep hbn hstk
      simp only [blockScanGo]
      by_cases ht : n.is_tail = true
      · rw [if_bool_true _ ht]
        by_cases ha : active.getD n.key.toNat false = true
        · rw [if_bool_true _ ha]
          have hact' : (active.set n.key.toNat false).getD k false = true := by
            rw [getD_set_false, hact]
            simp [Ne.symm hne]
          exact ih (active.set n.key.toNat false) (idx+1) mid st' b k hbrest hscan hmid hact'
        · rw [if_bool_false _ (Bool.not_eq_true _ ▸ ha)]
          exact ih active (idx+1) mid st' b k hbrest hscan hmid hact
      · rw [if_bool_false _ (Bool.not_eq_true _ ▸ ht)]
        by_cases hh : n.is_head = true
        · rw [if_bool_true _ hh]
          obtain ⟨hk0, hlt, -, -⟩ := scanStep_head hh hstep
          have hact' : (active.set n.key.toNat true).getD k false = true := by
            rw [List.getD_eq_getElem?_getD, List.getElem?_set_ne hne,
              ← List.getD_eq_getElem?_getD]
            exact hact
          exact ih (active.set n.key.toNat true) (idx+1) mid st' b k hbrest hscan hmid hact'
        · rw [if_bool_false _ (Bool.not_eq_true _ ▸ hh)]
          exact ih active (idx+1) mid st' b k hbrest hscan hmid hact

/-- While a key's hold is open at the block beat, no later head can use that
key. -/
theorem scan_no_head_on_open (blk : List Note) : ∀ (st st' : List (Option BeatPos))
    (b : BeatPos) (k : Nat),
    (∀ m ∈ blk, m.beat = b) → scanList st blk = some st' → st.getD k none = some b →
    ∀ m ∈ blk, m.is_head = true → m.key.toNat ≠ k := by
  induction blk with
  | nil => intro st st' b k hb hscan hstk m hm; cases hm
  | cons n rest ih =>
    intro st st' b k hb hscan hstk m hm hmh
    cases hstep : scanStep st n with
    | none =>
      simp only [scanList, hstep] at hscan
      exact Option.noConfusion hscan
    | some mid =>
      simp only [scanList, hstep] at hscan
      have hbn : n.beat = b := hb n (List.mem_cons_self n rest)
      obtain ⟨hmid, hne⟩ := scanStep_open_preserve hstep hbn hstk
      rcases List.mem_cons.mp hm with rfl | hm'
      · exact hne
      · exact ih mid st' b k (fun m' hm'' => hb m' (List.mem_cons_of_mem n hm'')) hscan
          hmid m hm' hmh

/-- After a successful block scan, every head's key is marked active. -/
theorem blockScanGo_head_keys (blk : List Note) : ∀ (active : List Bool) (idx : Nat)
    (st st' : List (Option BeatPos)) (b : BeatPos),
    (∀ m ∈ blk, m.beat = b) → scanList st blk = some st' → st.length = active.length →
    ∀ m ∈ blk, m.is_head = true →
      ((blockScanGo active idx blk).2.1).getD m.key.toNat false = true := by
  induction blk with
  | nil => intro active idx st st' b hb hscan hlen m hm; cases hm
  | cons n rest ih =>
    intro active idx st st' b hb hscan hlen m hm hmh
    cases hstep : scanStep st n with
    | none =>
      simp only [scanList, hstep] at hscan
      exact Option.noConfusion hscan
    | some mid =>
      simp only [scanList, hstep] at hscan
      have hbn : n.beat = b := hb n (List.mem_cons_self n rest)
      have hbrest : ∀ m' ∈ rest, m'.beat = b := fun m' hm' => hb m' (List.mem_cons_of_mem n hm')
      simp only [blockScanGo]
      rcases List.mem_cons.mp hm with rfl | hm'
      · -- the head itself: its branch sets the key, the rest preserves it
        rw [if_bool_false _ (not_tail_of_head hmh), if_bool_true _ hmh]
        obtain ⟨hk0, hlt, hget, hset⟩ := scanStep_head hmh hstep
        have hact' : (active.set m.key.toNat true).getD m.key.toNat false = true := by
          rw [getD_set_true _ _ _ (hlen ▸ hlt)]
          simp
        have hmid : mid.getD m.key.toNat none = some b := by
          rw [hset, List.getD_eq_getElem?_getD, List.getElem?_set_self hlt, hbn]
          rfl
        exact blockScanGo_act_preserve rest (active.set m.key.toNat true) (idx+1) mid st' b
          m.key.toNat hbrest hscan hmid hact'
      · -- a later head: recurse through whichever branch the current note takes
        have hlen' : mid.length = (active.set n.key.toNat false).length := by
          rw [scanStep_length hstep, List.length_set]
          exact hlen
        by_cases ht : n.is_tail = true
        · rw [if_bool_true _ ht]
          by_cases ha : active.getD n.key.toNat false = true
          · rw [if_bool_true _ ha]
            exact ih (active.set n.key.toNat false) (idx+1) mid st' b hbrest hscan hlen' m hm' hmh
          · rw [if_bool_false _ (Bool.not_eq_true _ ▸ ha)]
            exact ih active (idx+1) mid st' b hbrest hscan
              (by rw [scanStep_length hstep]; exact hlen) m hm' hmh
        · rw [if_bool_false _ (Bool.not_eq_true _ ▸ ht)]
          by_cases hh : n.is_head = true
          · rw [if_bool_true _ hh]
            exact ih (active.set n.key.toNat true) (idx+1) mid st' b hbrest hscan
              (by rw [scanStep_length hstep, List.length_set]; exact hlen) m hm' hmh
          · rw [if_bool_false _ (Bool.not_eq_true _ ▸ hh)]
            exact ih active (idx+1) mid st' b hbrest hscan
              (by rw [scanStep_length hstep]; exact hlen) m hm' hmh

/-- Under a successful same-beat block scan, heads carry pairwise distinct
keys. -/
theorem scan_heads_pairwise (blk : List Note) : ∀ (st st' : List (Option BeatPos)) (b : BeatPos),
    (∀ m ∈ blk, m.beat = b) → scanList st blk = some st' →
    ∀ (j1 j2 : Nat) (m1 m2 : Note), blk[j1]? = some m1 → blk[j2]? = some m2 → j1 < j2 →
      m1.is_head = true → m2.is_head = true → m1.key.toNat ≠ m2.key.toNat := by
  induction blk with
  | nil => intro st st' b hb hscan j1 j2 m1 m2 h1 h2 hlt hh1 hh2; simp at h1
  | cons n rest ih =>
    intro st st' b hb hscan j1 j2 m1 m2 h1 h2 hlt hh1 hh2
    cases hstep : scanStep st n with
    | none =>
      simp only [scanList, hstep] at hscan
      exact Option.noConfusion hscan
    | some mid =>
      simp only [scanList, hstep] at hscan
      have hbn : n.beat = b := hb n (List.mem_cons_self n rest)
      have hbrest : ∀ m' ∈ rest, m'.beat = b := fun m' hm' => hb m' (List.mem_cons_of_mem n hm')
      cases j1 with
      | zero =>
        rw [List.getElem?_cons_zero] at h1
        injection h1 with h1
        subst h1
        cases j2 with
        | zero => exact absurd hlt (lt_irrefl 0)
        | succ j2' =>
          rw [List.getElem?_cons_succ] at h2
          obtain ⟨hk0, hklt, hget, hset⟩ := scanStep_head hh1 hstep
          have hmid : mid.getD n.key.toNat none = some b := by
            rw [hset, List.getD_eq_getElem?_getD, List.getElem?_set_self hklt, hbn]
            rfl
          exact fun he =>
            scan_no_head_on_open rest mid st' b n.key.toNat hbrest hscan hmid m2
              (List.getElem?_mem h2) hh2 he.symm
      | succ j1' =>
        cases j2 with
        | zero => exact absurd hlt (by omega)
        | succ j2' =>
          rw [List.getElem?_cons_succ] at h1 h2
          exact ih mid st' b hbrest hscan j1' j2' m1 m2 h1 h2 (by omega) hh1 hh2

/-- Marked-list equation: kept tail. -/
theorem bsg_m_tk {n : Note} (rest : List Note) (active : List Bool) (idx : Nat)
    (ht : n.is_tail = true) (ha : active.getD n.key.toNat false = true) :
    (blockScanGo active idx (n :: rest)).1 =
      n :: (blockScanGo (active.set n.key.toNat false) (idx+1) rest).1 := by
  simp only [blockScanGo]
  rw [if_bool_true _ ht, if_bool_true _ ha]

/-- Active-list equation: kept tail. -/
theorem bsg_a_tk {n : Note} (rest : List Note) (active : List Bool) (idx : Nat)
    (ht : n.is_tail = true) (ha : active.getD n.key.toNat false = true) :
    (blockScanGo active idx (n :: rest)).2.1 =
      (blockScanGo (active.set n.key.toNat false) (idx+1) rest).2.1 := by
  simp only [blockScanGo]
  rw [if_bool_true _ ht, if_bool_true _ ha]

/-- Marked-list equation: orphaned tail. -/
theorem bsg_m_to {n : Note} (rest : List Note) (active : List Bool) (idx : Nat)
    (ht : n.is_tail = true) (ha : active.getD n.key.toNat false = false) :
    (blockScanGo active idx (n :: rest)).1 =
      { n with key := -1 } :: (blockScanGo active (idx+1) rest).1 := by
  simp only [blockScanGo]
  rw [if_bool_true _ ht, if_bool_false _ ha]

/-- Active-list equation: orphaned tail. -/
theorem bsg_a_to {n : Note} (rest : List Note) (active : List Bool) (idx : Nat)
    (ht : n.is_tail = true) (ha : active.getD n.key.toNat false = false) :
    (blockScanGo active idx (n :: rest)).2.1 = (blockScanGo active (idx+1) rest).2.1 := by
  simp only [blockScanGo]
  rw [if_bool_true _ ht, if_bool_false _ ha]

/-- Marked-list equation: head. -/
theorem bsg_m_h {n : Note} (rest : List Note) (active : List Bool) (idx : Nat)
    (ht : n.is_tail = false) (hh : n.is_head = true) :
    (blockScanGo active idx (n :: rest)).1 =
      n :: (blockScanGo (active.set n.key.toNat true) (idx+1) rest).1 := by
  simp only [blockScanGo]
  rw [if_bool_false _ ht, if_bool_true _ hh]

/-- Active-list equation: head. -/
theorem bsg_a_h {n : Note} (rest : List Note) (active : List Bool) (idx : Nat)
    (ht : n.is_tail = false) (hh : n.is_head = true) :
    (blockScanGo active idx (n :: rest)).2.1 =
      (blockScanGo (active.set n.key.toNat true) (idx+1) rest).2.1 := by
  simp only [blockScanGo]
  rw [if_bool_false _ ht, if_bool_true _ hh]

/-- Marked-list equation: fresh hit. -/
theorem bsg_m_x {n : Note} (rest : List Note) (active : List Bool) (idx : Nat)
    (ht : n.is_tail = false) (hh : n.is_head = false) :
    (blockScanGo active idx (n :: rest)).1 = n :: (blockScanGo active (idx+1) rest).1 := by
  simp only [blockScanGo]
  rw [if_bool_false _ ht, if_bool_false _ hh]

/-- Active-list equation: fresh hit. -/
theorem bsg_a_x {n : Note} (rest : List Note) (active : List Bool) (idx : Nat)
    (ht : n.is_tail = false) (hh : n.is_head = false) :
    (blockScanGo active idx (n :: rest)).2.1 = (blockScanGo active (idx+1) rest).2.1 := by
  simp only [blockScanGo]
  rw [if_bool_false _ ht, if_bool_false _ hh]

/-- The scan's marked list agrees with the block positionally, up to tail
marking. -/
theorem blockScanGo_marked_get (blk : List Note) : ∀ (active : List Bool) (idx j : Nat)
    (m : Note), blk[j]? = some m →
    ∃ mm, ((blockScanGo active idx blk).1)[j]? = some mm ∧ mm.kind = m.kind ∧
      mm.beat = m.beat ∧ (mm.key = m.key ∨ (mm.key = -1 ∧ m.is_tail = true)) := by
  induction blk with
  | nil => intro active idx j m h; simp at h
  | cons n rest ih =>
    intro active idx j m h
    by_cases ht : n.is_tail = true
    · by_cases ha : active.getD n.key.toNat false = true
      · rw [bsg_m_tk rest active idx ht ha]
        cases j with
        | zero =>
          rw [List.getElem?_cons_zero] at h
          injection h with h
          subst h
          exact ⟨n, List.getElem?_cons_zero, rfl, rfl, Or.inl rfl⟩
        | succ j' =>
          rw [List.getElem?_cons_succ] at h
          obtain ⟨mm, h1, h2, h3, h4⟩ := ih (active.set n.key.toNat false) (idx+1) j' m h
          refine ⟨mm, ?_, h2, h3, h4⟩
          rw [List.getElem?_cons_succ]
          exact h1
      · rw [bsg_m_to rest active idx ht (Bool.not_eq_true _ ▸ ha)]
        cases j with
        | zero =>
          rw [List.getElem?_cons_zero] at h
          injection h with h
          subst h
          exact ⟨{ n with key := -1 }, List.getElem?_cons_zero, rfl, rfl, Or.inr ⟨rfl, ht⟩⟩
        | succ j' =>
          rw [List.getElem?_cons_succ] at h
          obtain ⟨mm, h1, h2, h3, h4⟩ := ih active (idx+1) j' m h
          refine ⟨mm, ?_, h2, h3, h4⟩
          rw [List.getElem?_cons_succ]
          exact h1
    · by_cases hh : n.is_head = true
      · rw [bsg_m_h rest active idx (Bool.not_eq_true _ ▸ ht) hh]
        cases j with
        | zero =>
          rw [List.getElem?_cons_zero] at h
          injection h with h
          subst h
          exact ⟨n, List.getElem?_cons_zero, rfl, rfl, Or.inl rfl⟩
        | succ j' =>
          rw [List.getElem?_cons_succ] at h
          obtain ⟨mm, h1, h2, h3, h4⟩ := ih (active.set n.key.toNat true) (idx+1) j' m h
          refine ⟨mm, ?_, h2, h3, h4⟩
          rw [List.getElem?_cons_succ]
          exact h1
      · rw [bsg_m_x rest active idx (Bool.not_eq_true _ ▸ ht) (Bool.not_eq_true _ ▸ hh)]
        cases j with
        | zero =>
          rw [List.getElem?_cons_zero] at h
          injection h with h
          subst h
          exact ⟨n, List.getElem?_cons_zero, rfl, rfl, Or.inl rfl⟩
        | succ j' =>
          rw [List.getElem?_cons_succ] at h
          obtain ⟨mm, h1, h2, h3, h4⟩ := ih active (idx+1) j' m h
          refine ⟨mm, ?_, h2, h3, h4⟩
          rw [List.getElem?_cons_succ]
          exact h1

/-- The scan's marked list has the block's hit count. -/
theorem blockScanGo_countHits (blk : List Note) : ∀ (active : List Bool) (idx : Nat),
    countHits ((blockScanGo active idx blk).1) = countHits blk := by
  induction blk with
  | nil => intro active idx; rfl
  | cons n rest ih =>
    intro active idx
    by_cases ht : n.is_tail = true
    · by_cases ha : active.getD n.key.toNat false = true
      · rw [bsg_m_tk rest active idx ht ha, countHits_cons, countHits_cons,
          ih (active.set n.key.toNat false) (idx+1)]
      · rw [bsg_m_to rest active idx ht (Bool.not_eq_true _ ▸ ha), countHits_cons,
          countHits_cons, ih active (idx+1), is_tail_mark, is_head_mark]
    · by_cases hh : n.is_head = true
      · rw [bsg_m_h rest active idx (Bool.not_eq_true _ ▸ ht) hh, countHits_cons,
          countHits_cons, ih (active.set n.key.toNat true) (idx+1)]
      · rw [bsg_m_x rest active idx (Bool.not_eq_true _ ▸ ht) (Bool.not_eq_true _ ▸ hh),
          countHits_cons, countHits_cons, ih active (idx+1)]

/-- The scan's marked list has the block's non-tail positions. -/
theorem blockScanGo_nonTailIdxs (blk : List Note) : ∀ (active : List Bool) (idx j : Nat),
    nonTailIdxs j ((blockScanGo active idx blk).1) = nonTailIdxs j blk := by
  induction blk with
  | nil => intro active idx j; rfl
  | cons n rest ih =>
    intro active idx j
    by_cases ht : n.is_tail = true
    · by_cases ha : active.getD n.key.toNat false = true
      · rw [bsg_m_tk rest active idx ht ha]
        simp only [nonTailIdxs]
        rw [ih (active.set n.key.toNat false) (idx+1) (j+1)]
      · rw [bsg_m_to rest active idx ht (Bool.not_eq_true _ ▸ ha)]
        simp only [nonTailIdxs, is_tail_mark]
        rw [ih active (idx+1) (j+1)]
    · by_cases hh : n.is_head = true
      · rw [bsg_m_h rest active idx (Bool.not_eq_true _ ▸ ht) hh]
        simp only [nonTailIdxs]
        rw [ih (active.set n.key.toNat true) (idx+1) (j+1)]
      · rw [bsg_m_x rest active idx (Bool.not_eq_true _ ▸ ht) (Bool.not_eq_true _ ▸ hh)]
        simp only [nonTailIdxs]
        rw [ih active (idx+1) (j+1)]

/-- `markBlock` equation: kept tail. -/
theorem mb_tk {m : Note} (rest : List Note) (chosen : List Nat) (active : List Bool)
    (idx : Nat) (ht : m.is_tail = true) (ha : active.getD m.key.toNat false = true) :
    markBlock chosen active idx (m :: rest) =
      (m :: (markBlock chosen (active.set m.key.toNat false) (idx+1) rest).1,
       (markBlock chosen (active.set m.key.toNat false) (idx+1) rest).2) := by
  simp only [markBlock]
  rw [if_bool_true _ ht, if_bool_true _ ha]

/-- `markBlock` equation: orphaned tail. -/
theorem mb_to {m : Note} (rest : List Note) (chosen : List Nat) (active : List Bool)
    (idx : Nat) (ht : m.is_tail = true) (ha : active.getD m.key.toNat false = false) :
    markBlock chosen active idx (m :: rest) =
      ({ m with key := -1 } :: (markBlock chosen active (idx+1) rest).1,
       (markBlock chosen active (idx+1) rest).2) := by
  simp only [markBlock]
  rw [if_bool_true _ ht, if_bool_false _ ha]

/-- `markBlock` equation: chosen non-tail. -/
theorem mb_ch {m : Note} (rest : List Note) (chosen : List Nat) (active : List Bool)
    (idx : Nat) (ht : m.is_tail = false) (hc : idx ∈ chosen) :
    markBlock chosen active idx (m :: rest) =
      ({ m with key := -1 } :: (markBlock chosen active (idx+1) rest).1,
       (markBlock chosen active (idx+1) rest).2) := by
  simp only [markBlock]
  rw [if_bool_false _ ht, if_pos hc]

/-- `markBlock` equation: kept head. -/
theorem mb_h {m : Note} (rest : List Note) (chosen : List Nat) (active : List Bool)
    (idx : Nat) (ht : m.is_tail = false) (hc : idx ∉ chosen) (hh : m.is_head = true) :
    markBlock chosen active idx (m :: rest) =
      (m :: (markBlock chosen (active.set m.key.toNat true) (idx+1) rest).1,
       (markBlock chosen (active.set m.key.toNat true) (idx+1) rest).2) := by
  simp only [markBlock]
  rw [if_bool_false _ ht, if_neg hc, if_bool_true _ hh]

/-- `markBlock` equation: kept hit. -/
theorem mb_x {m : Note} (rest : List Note) (chosen : List Nat) (active : List Bool)
    (idx : Nat) (ht : m.is_tail = false) (hc : idx ∉ chosen) (hh : m.is_head = false) :
    markBlock chosen active idx (m :: rest) =
      (m :: (markBlock chosen active (idx+1) rest).1,
       (markBlock chosen active (idx+1) rest).2) := by
  simp only [markBlock]
  rw [if_bool_false _ ht, if_neg hc, if_bool_false _ hh]

/-- `applyRemoval` equation: chosen position. -/
theorem ar_ch {m : Note} (ms : List Note) (chosen : List Nat) (act : List Bool)
    (idx : Nat) (hc : idx ∈ chosen) :
    applyRemoval chosen idx (m :: ms) act =
      ({ m with key := -1 } ::
        (applyRemoval chosen (idx+1) ms
          (if m.is_head = true then act.set m.key.toNat false else act)).1,
       (applyRemoval chosen (idx+1) ms
          (if m.is_head = true then act.set m.key.toNat false else act)).2) := by
  simp only [applyRemoval]
  rw [if_pos hc]

/-- `applyRemoval` equation: kept position. -/
theorem ar_nc {m : Note} (ms : List Note) (chosen : List Nat) (act : List Bool)
    (idx : Nat) (hc : idx ∉ chosen) :
    applyRemoval chosen idx (m :: ms) act =
      (m :: (applyRemoval chosen (idx+1) ms act).1, (applyRemoval chosen (idx+1) ms act).2) := by
  simp only [applyRemoval]
  rw [if_neg hc]

/-- On a same-beat block whose scan succeeds, running the removal pass over
the scan's output (with the already-cleared keys accumulated in `cl`) equals
the fused one-pass `markBlock`. -/
theorem scan_removal_eq_mark (blk : List Note) :
    ∀ (actS actM : List Bool) (cl chosen : List Nat) (idx : Nat)
      (st stMid : List (Option BeatPos)) (b : BeatPos),
    (∀ m ∈ blk, m.beat = b) →
    scanList st blk = some stMid →
    actS.length = actM.length →
    st.length = actS.length →
    (∀ k, actS.getD k false = (actM.getD k false || decide (k ∈ cl))) →
    (∀ k ∈ cl, st.getD k none = some b) →
    (∀ k ∈ cl, actM.getD k false = false) →
    (∀ k, actM.getD k false = true → (st.getD k none).isSome = true) →
    (∀ (j : Nat) (m' : Note), blk[j]? = some m' → (idx + j) ∈ chosen → m'.is_tail = false) →
    applyRemoval chosen idx ((blockScanGo actS idx blk).1)
        (clearKeys cl ((blockScanGo actS idx blk).2.1))
      = markBlock chosen actM idx blk := by
  induction blk with
  | nil =>
    intro actS actM cl chosen idx st stMid b hbeat hscan hlen1 hlen2 hrel hclst hclM hMst hch
    show ([], clearKeys cl actS) = ([], actM)
    have hact : clearKeys cl actS = actM := by
      apply list_bool_ext
      · rw [clearKeys_length]
        exact hlen1
      · intro k
        rw [clearKeys_getD, hrel k]
        by_cases hk : k ∈ cl
        · have h1 := hclM k hk
          rw [List.getD_eq_getElem?_getD] at h1
          simp [hk, h1]
        · simp [hk]
    rw [hact]
  | cons n rest ih =>
    intro actS actM cl chosen idx st stMid b hbeat hscan hlen1 hlen2 hrel hclst hclM hMst hch
    cases hstep : scanStep st n with
    | none =>
      simp only [scanList, hstep] at hscan
      exact Option.noConfusion hscan
    | some mid =>
      simp only [scanList, hstep] at hscan
      have hbn : n.beat = b := hbeat n (List.mem_cons_self n rest)
      have hbrest : ∀ m ∈ rest, m.beat = b := fun m hm => hbeat m (List.mem_cons_of_mem n hm)
      have hch' : ∀ (j : Nat) (m' : Note), rest[j]? = some m' → (idx + 1 + j) ∈ chosen →
          m'.is_tail = false := by
        intro j m' hj hcj
        refine hch (j+1) m' ?_ ?_
        · rw [List.getElem?_cons_succ]
          exact hj
        · rw [show idx + (j+1) = idx + 1 + j from by omega]
          exact hcj
      have hmidlen : mid.length = st.length := scanStep_length hstep
      by_cases ht : n.is_tail = true
      · -- a tail: never chosen, and its key is not in `cl`
        obtain ⟨hb', hk0, hklt, hget, hlt', hset⟩ := scanStep_tail ht hstep
        have hkcl : n.key.toNat ∉ cl := by
          intro hmem
          have hcb := hclst _ hmem
          rw [hcb] at hget
          injection hget with he'
          rw [hbn] at hlt'
          rw [he'] at hlt'
          exact beatPos_lt_irrefl hb' hlt'
        have hidxnc : idx ∉ chosen := by
          intro hmem
          have hx := hch 0 n List.getElem?_cons_zero (by rw [Nat.add_zero]; exact hmem)
          rw [ht] at hx
          exact Bool.noConfusion hx
        have heq_k : actS.getD n.key.toNat false = actM.getD n.key.toNat false := by
          rw [hrel]
          simp [hkcl]
        have hclst' : ∀ k' ∈ cl, mid.getD k' none = some b := by
          intro k' hk'
          have hne : n.key.toNat ≠ k' := fun he => hkcl (he ▸ hk')
          rw [hset, List.getD_eq_getElem?_getD, List.getElem?_set_ne hne,
            ← List.getD_eq_getElem?_getD]
          exact hclst k' hk'
        by_cases ha : actS.getD n.key.toNat false = true
        · -- kept tail
          have haM : actM.getD n.key.toNat false = true := heq_k ▸ ha
          rw [bsg_m_tk rest actS idx ht ha, bsg_a_tk rest actS idx ht ha,
            ar_nc _ _ _ _ hidxnc, mb_tk rest chosen actM idx ht haM]
          have hrel' : ∀ k', (actS.set n.key.toNat false).getD k' false =
              ((actM.set n.key.toNat false).getD k' false || decide (k' ∈ cl)) := by
            intro k'
            rw [getD_set_false, getD_set_false, hrel k']
            by_cases he : k' = n.key.toNat
            · simp [he, hkcl]
            · simp [he]
          have hclM' : ∀ k' ∈ cl, (actM.set n.key.toNat false).getD k' false = false := by
            intro k' hk'
            rw [getD_set_false, hclM k' hk']
            simp
          have hMst' : ∀ k', (actM.set n.key.toNat false).getD k' false = true →
              (mid.getD k' none).isSome = true := by
            intro k' hk'
            rw [getD_set_false] at hk'
            by_cases he : k' = n.key.toNat
            · rw [he] at hk'
              simp at hk'
            · rw [hset, List.getD_eq_getElem?_getD, List.getElem?_set_ne (Ne.symm he),
                ← List.getD_eq_getElem?_getD]
              apply hMst
              simpa [he] using hk'
          have hIH := ih (actS.set n.key.toNat false) (actM.set n.key.toNat false) cl chosen
            (idx+1) mid stMid b hbrest hscan
            (by rw [List.length_set, List.length_set]; exact hlen1)
            (by rw [hmidlen, List.length_set]; exact hlen2)
            hrel' hclst' hclM' hMst' hch'
          rw [hIH]
        · -- orphaned tail
          have haS : actS.getD n.key.toNat false = false := Bool.not_eq_true _ ▸ ha
          have haM : actM.getD n.key.toNat false = false := heq_k ▸ haS
          rw [bsg_m_to rest actS idx ht haS, bsg_a_to rest actS idx ht haS,
            ar_nc _ _ _ _ hidxnc, mb_to rest chosen actM idx ht haM]
          have hMst' : ∀ k', actM.getD k' false = true → (mid.getD k' none).isSome = true := by
            intro k' hk'
            by_cases he : k' = n.key.toNat
            · rw [he, haM] at hk'
              exact Bool.noConfusion hk'
            · rw [hset, List.getD_eq_getElem?_getD, List.getElem?_set_ne (Ne.symm he),
                ← List.getD_eq_getElem?_getD]
              exact hMst k' hk'
          have hIH := ih actS actM cl chosen (idx+1) mid stMid b hbrest hscan hlen1
            (by rw [hmidlen]; exact hlen2) hrel hclst' hclM hMst' hch'
          rw [hIH]
      · -- a non-tail note
        have htf : n.is_tail = false := Bool.not_eq_true _ ▸ ht
        by_cases hh : n.is_head = true
        · -- a head: its key is fresh, so it is neither in `cl` nor active in `actM`
          obtain ⟨hk0, hklt, hget, hset⟩ := scanStep_head hh hstep
          have hkcl : n.key.toNat ∉ cl := by
            intro hmem
            have hcb := hclst _ hmem
            rw [hcb] at hget
            exact Option.noConfusion hget
          have haM : actM.getD n.key.toNat false = false := by
            by_contra hx
            have := hMst n.key.toNat (Bool.not_eq_false _ ▸ hx)
            rw [hget] at this
            exact Bool.noConfusion this
          have hkltM : n.key.toNat < actM.length := by
            rw [← hlen1, ← hlen2]
            exact hklt
          have hkltS : n.key.toNat < actS.length := by
            rw [← hlen2]
            exact hklt
          have hclst'' : ∀ k' ∈ cl, mid.getD k' none = some b := by
            intro k' hk'
            have hne : n.key.toNat ≠ k' := fun he => hkcl (he ▸ hk')
            rw [hset, List.getD_eq_getElem?_getD, List.getElem?_set_ne hne,
              ← List.getD_eq_getElem?_getD]
            exact hclst k' hk'
          have hmidk : mid.getD n.key.toNat none = some b := by
            rw [hset, List.getD_eq_getElem?_getD, List.getElem?_set_self hklt, hbn]
            rfl
          by_cases hc : idx ∈ chosen
          · -- chosen head: the real pipeline clears it after the scan
            rw [bsg_m_h rest actS idx htf hh, bsg_a_h rest actS idx htf hh,
              ar_ch _ _ _ _ hc, if_bool_true _ hh, clearKeys_set_false,
              mb_ch rest chosen actM idx htf hc]
            have hrel' : ∀ k', (actS.set n.key.toNat true).getD k' false =
                (actM.getD k' false || decide (k' ∈ cl ++ [n.key.toNat])) := by
              intro k'
              by_cases he : k' = n.key.toNat
              · subst he
                rw [getD_set_true _ _ _ hkltS, haM]
                simp
              · rw [List.getD_eq_getElem?_getD, List.getElem?_set_ne (Ne.symm he),
                  ← List.getD_eq_getElem?_getD, hrel k']
                simp [he]
            have hclst' : ∀ k' ∈ cl ++ [n.key.toNat], mid.getD k' none = some b := by
              intro k' hk'
              rcases List.mem_append.mp hk' with hk' | hk'
              · exact hclst'' k' hk'
              · rw [List.mem_singleton.mp hk']
                exact hmidk
            have hclM' : ∀ k' ∈ cl ++ [n.key.toNat], actM.getD k' false = false := by
              intro k' hk'
              rcases List.mem_append.mp hk' with hk' | hk'
              · exact hclM k' hk'
              · rw [List.mem_singleton.mp hk']
                exact haM
            have hMst' : ∀ k', actM.getD k' false = true → (mid.getD k' none).isSome = true := by
              intro k' hk'
              by_cases he : k' = n.key.toNat
              · rw [he, haM] at hk'
                exact Bool.noConfusion hk'
              · rw [hset, List.getD_eq_getElem?_getD, List.getElem?_set_ne (Ne.symm he),
                  ← List.getD_eq_getElem?_getD]
                exact hMst k' hk'
            have hIH := ih (actS.set n.key.toNat true) actM (cl ++ [n.key.toNat]) chosen
              (idx+1) mid stMid b hbrest hscan
              (by rw [List.length_set]; exact hlen1)
              (by rw [hmidlen, List.length_set]; exact hlen2)
              hrel' hclst' hclM' hMst' hch'
            rw [hIH]
          · -- kept head
            rw [bsg_m_h rest actS idx htf hh, bsg_a_h rest actS idx htf hh,
              ar_nc _ _ _ _ hc, mb_h rest chosen actM idx htf hc hh]
            have hrel' : ∀ k', (actS.set n.key.toNat true).getD k' false =
                ((actM.set n.key.toNat true).getD k' false || decide (k' ∈ cl)) := by
              intro k'
              by_cases he : k' = n.key.toNat
              · subst he
                rw [getD_set_true _ _ _ hkltS, getD_set_true _ _ _ hkltM]
                simp
              · rw [List.getD_eq_getElem?_getD, List.getElem?_set_ne (Ne.symm he),
                  ← List.getD_eq_getElem?_getD, hrel k',
                  List.getD_eq_getElem?_getD (actM.set n.key.toNat true),
                  List.getElem?_set_ne (Ne.symm he), ← List.getD_eq_getElem?_getD]
            have hclM' : ∀ k' ∈ cl, (actM.set n.key.toNat true).getD k' false = false := by
              intro k' hk'
              have hne : n.key.toNat ≠ k' := fun he => hkcl (he ▸ hk')
              rw [List.getD_eq_getElem?_getD, List.getElem?_set_ne hne,
                ← List.getD_eq_getElem?_getD]
              exact hclM k' hk'
            have hMst' : ∀ k', (actM.set n.key.toNat true).getD k' false = true →
                (mid.getD k' none).isSome = true := by
              intro k' hk'
              by_cases he : k' = n.key.toNat
              · rw [he, hmidk]
                rfl
              · rw [List.getD_eq_getElem?_getD, List.getElem?_set_ne (Ne.symm he),
                  ← List.getD_eq_getElem?_getD] at hk'
                rw [hset, List.getD_eq_getElem?_getD, List.getElem?_set_ne (Ne.symm he),
                  ← List.getD_eq_getElem?_getD]
                exact hMst k' hk'
            have hIH := ih (actS.set n.key.toNat true) (actM.set n.key.toNat true) cl chosen
              (idx+1) mid stMid b hbrest hscan
              (by rw [List.length_set, List.length_set]; exact hlen1)
              (by rw [hmidlen, List.length_set]; exact hlen2)
              hrel' hclst'' hclM' hMst' hch'
            rw [hIH]
        · -- a fresh hit: nothing changes in the states
          have hhf : n.is_head = false := Bool.not_eq_true _ ▸ hh
          obtain ⟨hk0, hklt, hget, hset⟩ := scanStep_hit htf hhf hstep
          rw [hset] at hscan
          by_cases hc : idx ∈ chosen
          · rw [bsg_m_x rest actS idx htf hhf, bsg_a_x rest actS idx htf hhf,
              ar_ch _ _ _ _ hc, if_bool_false _ hhf, mb_ch rest chosen actM idx htf hc]
            have hIH := ih actS actM cl chosen (idx+1) st stMid b hbrest hscan hlen1 hlen2
              hrel hclst hclM hMst hch'
            rw [hIH]
          · rw [bsg_m_x rest actS idx htf hhf, bsg_a_x rest actS idx htf hhf,
              ar_nc _ _ _ _ hc, mb_x rest chosen actM idx htf hc hhf]
            have hIH := ih actS actM cl chosen (idx+1) st stMid b hbrest hscan hlen1 hlen2
              hrel hclst hclM hMst hch'
            rw [hIH]

/-- `projOut` length. -/
theorem projOut_length (st : List (Option BeatPos)) (act : List Bool) :
    (projOut st act).length = min st.length act.length := by
  rw [projOut, List.length_zipWith]

/-- Clearing a key clears its projection. -/
theorem projOut_set_false (st : List (Option BeatPos)) (act : List Bool) (k : Nat)
    (x : Option BeatPos) :
    projOut (st.set k x) (act.set k false) = (projOut st act).set k none := by
  apply List.ext_getElem?
  intro i
  simp only [projOut, List.getElem?_zipWith, List.getElem?_set]
  by_cases he : k = i
  · subst he
    by_cases h1 : k < st.length <;> by_cases h2 : k < act.length <;>
      simp [h1, h2, List.length_zipWith, Nat.lt_min]
  · simp [he]

/-- Opening a key opens its projection. -/
theorem projOut_set_true (st : List (Option BeatPos)) (act : List Bool) (k : Nat)
    (b : Option BeatPos) (h1 : k < st.length) (h2 : k < act.length) :
    projOut (st.set k b) (act.set k true) = (projOut st act).set k b := by
  apply List.ext_getElem?
  intro i
  simp only [projOut, List.getElem?_zipWith, List.getElem?_set]
  by_cases he : k = i
  · subst he
    simp [h1, h2, List.length_zipWith, Nat.lt_min]
  · simp [he]

/-- Setting an inactive key's state does not change the projection. -/
theorem projOut_set_skip (st : List (Option BeatPos)) (act : List Bool) (k : Nat)
    (x : Option BeatPos) (ha : act.getD k false = false) :
    projOut (st.set k x) act = projOut st act := by
  apply List.ext_getElem?
  intro i
  simp only [projOut, List.getElem?_zipWith, List.getElem?_set]
  by_cases he : k = i
  · subst he
    by_cases h1 : k < st.length
    · by_cases h2 : k < act.length
      · have hak : act[k] = false := by
          rw [List.getD_eq_getElem?_getD, List.getElem?_eq_getElem h2] at ha
          simpa using ha
        rw [List.getElem?_eq_getElem h1, List.getElem?_eq_getElem h2, hak]
        simp [h1]
      · rw [List.getElem?_eq_none (Nat.le_of_not_lt h2)]
        simp [h1]
    · rw [List.getElem?_eq_none (Nat.le_of_not_lt h1)]
      simp [h1]
  · simp [he]

/-- An all-closed input projects to an all-closed output state. -/
theorem projOut_allNone (st : List (Option BeatPos)) :
    ∀ (act : List Bool), st.all Option.isNone = true →
      (projOut st act).all Option.isNone = true := by
  induction st with
  | nil => intro act h; rfl
  | cons s st' ih =>
    intro act h
    cases act with
    | nil => rfl
    | cons a act' =>
      rw [List.all_cons] at h
      obtain ⟨h1, h2⟩ := Bool.and_eq_true_iff.mp h
      show ((if a then s else none) :: projOut st' act').all Option.isNone = true
      rw [List.all_cons, Bool.and_eq_true_iff]
      refine ⟨?_, ih act' h2⟩
      cases a
      · rfl
      · simpa using h1

/-- An all-closed projection from replicates. -/
theorem projOut_replicate (nK : Nat) :
    projOut (List.replicate nK none) (List.replicate nK false) = List.replicate nK none := by
  rw [projOut, List.zipWith_replicate, Nat.min_self]
  simp

/-- Introduction form of a tail scan step. -/
theorem scanStep_tail_intro {st : List (Option BeatPos)} {n : Note} {hb : BeatPos}
    (ht : n.is_tail = true) (hk0 : 0 ≤ n.key)
    (hget : st.get? n.key.toNat = some (some hb)) (hlt : hb < n.beat) :
    scanStep st n = some (st.set n.key.toNat none) := by
  unfold scanStep
  rw [if_neg (Int.not_lt.mpr hk0), hget]
  simp [ht, hlt]

/-- Introduction form of a head scan step. -/
theorem scanStep_head_intro {st : List (Option BeatPos)} {n : Note}
    (hh : n.is_head = true) (hk0 : 0 ≤ n.key)
    (hget : st.get? n.key.toNat = some none) :
    scanStep st n = some (st.set n.key.toNat (some n.beat)) := by
  unfold scanStep
  rw [if_neg (Int.not_lt.mpr hk0), hget]
  simp [not_tail_of_head hh, hh]

/-- Introduction form of a hit scan step. -/
theorem scanStep_hit_intro {st : List (Option BeatPos)} {n : Note}
    (ht : n.is_tail = false) (hh : n.is_head = false) (hk0 : 0 ≤ n.key)
    (hget : st.get? n.key.toNat = some none) : scanStep st n = some st := by
  unfold scanStep
  rw [if_neg (Int.not_lt.mpr hk0), hget]
  simp [ht, hh]

/-- Component of `mb_tk`. -/
theorem mb_tk_m {m : Note} (rest : List Note) (chosen : List Nat) (active : List Bool)
    (idx : Nat) (ht : m.is_tail = true) (ha : active.getD m.key.toNat false = true) :
    (markBlock chosen active idx (m :: rest)).1 =
      m :: (markBlock chosen (active.set m.key.toNat false) (idx+1) rest).1 := by
  rw [mb_tk rest chosen active idx ht ha]

/-- Component of `mb_tk`. -/
theorem mb_tk_a {m : Note} (rest : List Note) (chosen : List Nat) (active : List Bool)
    (idx : Nat) (ht : m.is_tail = true) (ha : active.getD m.key.toNat false = true) :
    (markBlock chosen active idx (m :: rest)).2 =
      (markBlock chosen (active.set m.key.toNat false) (idx+1) rest).2 := by
  rw [mb_tk rest chosen active idx ht ha]

/-- Component of `mb_to`. -/
theorem mb_to_m {m : Note} (rest : List Note) (chosen : List Nat) (active : List Bool)
    (idx : Nat) (ht : m.is_tail = true) (ha : active.getD m.key.toNat false = false) :
    (markBlock chosen active idx (m :: rest)).1 =
      { m with key := -1 } :: (markBlock chosen active (idx+1) rest).1 := by
  rw [mb_to rest chosen active idx ht ha]

/-- Component of `mb_to`. -/
theorem mb_to_a {m : Note} (rest : List Note) (chosen : List Nat) (active : List Bool)
    (idx : Nat) (ht : m.is_tail = true) (ha : active.getD m.key.toNat false = false) :
    (markBlock chosen active idx (m :: rest)).2 = (markBlock chosen active (idx+1) rest).2 := by
  rw [mb_to rest chosen active idx ht ha]

/-- Component of `mb_ch`. -/
theorem mb_ch_m {m : Note} (rest : List Note) (chosen : List Nat) (active : List Bool)
    (idx : Nat) (ht : m.is_tail = false) (hc : idx ∈ chosen) :
    (markBlock chosen active idx (m :: rest)).1 =
      { m with key := -1 } :: (markBlock chosen active (idx+1) rest).1 := by
  rw [mb_ch rest chosen active idx ht hc]

/-- Component of `mb_ch`. -/
theorem mb_ch_a {m : Note} (rest : List Note) (chosen : List Nat) (active : List Bool)
    (idx : Nat) (ht : m.is_tail = false) (hc : idx ∈ chosen) :
    (markBlock chosen active idx (m :: rest)).2 = (markBlock chosen active (idx+1) rest).2 := by
  rw [mb_ch rest chosen active idx ht hc]

/-- Component of `mb_h`. -/
theorem mb_h_m {m : Note} (rest : List Note) (chosen : List Nat) (active : List Bool)
    (idx : Nat) (ht : m.is_tail = false) (hc : idx ∉ chosen) (hh : m.is_head = true) :
    (markBlock chosen active idx (m :: rest)).1 =
      m :: (markBlock chosen (active.set m.key.toNat true) (idx+1) rest).1 := by
  rw [mb_h rest chosen active idx ht hc hh]

/-- Component of `mb_h`. -/
theorem mb_h_a {m : Note} (rest : List Note) (chosen : List Nat) (active : List Bool)
    (idx : Nat) (ht : m.is_tail = false) (hc : idx ∉ chosen) (hh : m.is_head = true) :
    (markBlock chosen active idx (m :: rest)).2 =
      (markBlock chosen (active.set m.key.toNat true) (idx+1) rest).2 := by
  rw [mb_h rest chosen active idx ht hc hh]

/-- Component of `mb_x`. -/
theorem mb_x_m {m : Note} (rest : List Note) (chosen : List Nat) (active : List Bool)
    (idx : Nat) (ht : m.is_tail = false) (hc : idx ∉ chosen) (hh : m.is_head = false) :
    (markBlock chosen active idx (m :: rest)).1 =
      m :: (markBlock chosen active (idx+1) rest).1 := by
  rw [mb_x rest chosen active idx ht hc hh]

/-- Component of `mb_x`. -/
theorem mb_x_a {m : Note} (rest : List Note) (chosen : List Nat) (active : List Bool)
    (idx : Nat) (ht : m.is_tail = false) (hc : idx ∉ chosen) (hh : m.is_head = false) :
    (markBlock chosen active idx (m :: rest)).2 = (markBlock chosen active (idx+1) rest).2 := by
  rw [mb_x rest chosen active idx ht hc hh]

/-- Component of `ar_ch`. -/
theorem ar_ch_m {m : Note} (ms : List Note) (chosen : List Nat) (act : List Bool)
    (idx : Nat) (hc : idx ∈ chosen) :
    (applyRemoval chosen idx (m :: ms) act).1 =
      { m with key := -1 } ::
        (applyRemoval chosen (idx+1) ms
          (if m.is_head = true then act.set m.key.toNat false else act)).1 := by
  rw [ar_ch ms chosen act idx hc]

/-- Component of `ar_ch`. -/
theorem ar_ch_a {m : Note} (ms : List Note) (chosen : List Nat) (act : List Bool)
    (idx : Nat) (hc : idx ∈ chosen) :
    (applyRemoval chosen idx (m :: ms) act).2 =
      (applyRemoval chosen (idx+1) ms
        (if m.is_head = true then act.set m.key.toNat false else act)).2 := by
  rw [ar_ch ms chosen act idx hc]

/-- Component of `ar_nc`. -/
theorem ar_nc_m {m : Note} (ms : List Note) (chosen : List Nat) (act : List Bool)
    (idx : Nat) (hc : idx ∉ chosen) :
    (applyRemoval chosen idx (m :: ms) act).1 =
      m :: (applyRemoval chosen (idx+1) ms act).1 := by
  rw [ar_nc ms chosen act idx hc]

/-- Component of `ar_nc`. -/
theorem ar_nc_a {m : Note} (ms : List Note) (chosen : List Nat) (act : List Bool)
    (idx : Nat) (hc : idx ∉ chosen) :
    (applyRemoval chosen idx (m :: ms) act).2 = (applyRemoval chosen (idx+1) ms act).2 := by
  rw [ar_nc ms chosen act idx hc]

/-- The pairing scan of the block's kept output: starting from the
projected open-hold state, the output scan succeeds and lands on the
projection of the input scan's end state through the final `active_notes`. -/
theorem markBlock_scan (blk : List Note) :
    ∀ (actM : List Bool) (chosen : List Nat) (idx : Nat)
      (st stMid : List (Option BeatPos)) (b : BeatPos),
    (∀ m ∈ blk, m.beat = b) →
    scanList st blk = some stMid →
    st.length = actM.length →
    (∀ k, actM.getD k false = true → (st.getD k none).isSome = true) →
    scanList (projOut st actM)
        ((markBlock chosen actM idx blk).1.filter (fun note => decide (0 ≤ note.key)))
      = some (projOut stMid (markBlock chosen actM idx blk).2) ∧
    (markBlock chosen actM idx blk).2.length = actM.length ∧
    (∀ k, (markBlock chosen actM idx blk).2.getD k false = true →
      (stMid.getD k none).isSome = true) := by
  induction blk with
  | nil =>
    intro actM chosen idx st stMid b hbeat hscan hlen hMst
    simp only [scanList] at hscan
    injection hscan with h
    subst h
    exact ⟨rfl, rfl, hMst⟩
  | cons n rest ih =>
    intro actM chosen idx st stMid b hbeat hscan hlen hMst
    cases hstep : scanStep st n with
    | none =>
      simp only [scanList, hstep] at hscan
      exact Option.noConfusion hscan
    | some mid =>
      simp only [scanList, hstep] at hscan
      have hbn : n.beat = b := hbeat n (List.mem_cons_self n rest)
      have hbrest : ∀ m ∈ rest, m.beat = b := fun m hm => hbeat m (List.mem_cons_of_mem n hm)
      have hmidlen : mid.length = st.length := scanStep_length hstep
      by_cases ht : n.is_tail = true
      · obtain ⟨hb', hk0, hklt, hget, hlt', hset⟩ := scanStep_tail ht hstep
        have hkM : n.key.toNat < actM.length := hlen ▸ hklt
        have e1 : st[n.key.toNat] = some hb' := by
          rw [List.getD_eq_getElem?_getD, List.getElem?_eq_getElem hklt] at hget
          simpa using hget
        by_cases ha : actM.getD n.key.toNat false = true
        · -- kept tail: the output scan closes the key as well
          have e2 : actM[n.key.toNat] = true := by
            rw [List.getD_eq_getElem?_getD, List.getElem?_eq_getElem hkM] at ha
            simpa using ha
          rw [mb_tk_m rest chosen actM idx ht ha, mb_tk_a rest chosen actM idx ht ha,
            List.filter_cons_of_pos (by simpa using hk0)]
          have hSstep : scanStep (projOut st actM) n =
              some ((projOut st actM).set n.key.toNat none) := by
            apply scanStep_tail_intro ht hk0 ?_ hlt'
            rw [List.get?_eq_getElem?, projOut, List.getElem?_zipWith,
              List.getElem?_eq_getElem hklt, List.getElem?_eq_getElem hkM, e1, e2]
            simp
          have hproj : (projOut st actM).set n.key.toNat none =
              projOut mid (actM.set n.key.toNat false) := by
            rw [hset, projOut_set_false]
          have hMst' : ∀ k', (actM.set n.key.toNat false).getD k' false = true →
              (mid.getD k' none).isSome = true := by
            intro k' hk'
            rw [getD_set_false] at hk'
            by_cases he : k' = n.key.toNat
            · rw [he] at hk'
              simp at hk'
            · rw [hset, List.getD_eq_getElem?_getD, List.getElem?_set_ne (Ne.symm he),
                ← List.getD_eq_getElem?_getD]
              apply hMst
              simpa [he] using hk'
          obtain ⟨hIH1, hIH2, hIH3⟩ := ih (actM.set n.key.toNat false) chosen (idx+1) mid
            stMid b hbrest hscan (by rw [hmidlen, hlen, List.length_set]) hMst'
          refine ⟨?_, by rw [hIH2, List.length_set], hIH3⟩
          simp only [scanList, hSstep, hproj]
          exact hIH1
        · -- orphaned tail: dropped from the output, nothing changes
          have haf : actM.getD n.key.toNat false = false := Bool.not_eq_true _ ▸ ha
          rw [mb_to_m rest chosen actM idx ht haf, mb_to_a rest chosen actM idx ht haf,
            List.filter_cons_of_neg (by simp)]
          have hproj : projOut mid actM = projOut st actM := by
            rw [hset, projOut_set_skip _ _ _ _ haf]
          have hMst' : ∀ k', actM.getD k' false = true → (mid.getD k' none).isSome = true := by
            intro k' hk'
            by_cases he : k' = n.key.toNat
            · rw [he, haf] at hk'
              exact Bool.noConfusion hk'
            · rw [hset, List.getD_eq_getElem?_getD, List.getElem?_set_ne (Ne.symm he),
                ← List.getD_eq_getElem?_getD]
              exact hMst k' hk'
          obtain ⟨hIH1, hIH2, hIH3⟩ := ih actM chosen (idx+1) mid stMid b hbrest hscan
            (by rw [hmidlen, hlen]) hMst'
          rw [← hproj]
          exact ⟨hIH1, hIH2, hIH3⟩
      · have htf : n.is_tail = false := Bool.not_eq_true _ ▸ ht
        by_cases hh : n.is_head = true
        · obtain ⟨hk0, hklt, hget, hset⟩ := scanStep_head hh hstep
          have hkM : n.key.toNat < actM.length := hlen ▸ hklt
          have haM : actM.getD n.key.toNat false = false := by
            by_contra hx
            have hsx := hMst n.key.toNat (Bool.not_eq_false _ ▸ hx)
            rw [hget] at hsx
            exact Bool.noConfusion hsx
          have e1 : st[n.key.toNat] = none := by
            rw [List.getD_eq_getElem?_getD, List.getElem?_eq_getElem hklt] at hget
            simpa using hget
          by_cases hc : idx ∈ chosen
          · -- chosen head: dropped from the output, key stays closed
            rw [mb_ch_m rest chosen actM idx htf hc, mb_ch_a rest chosen actM idx htf hc,
              List.filter_cons_of_neg (by simp)]
            have hproj : projOut mid actM = projOut st actM := by
              rw [hset, projOut_set_skip _ _ _ _ haM]
            have hMst' : ∀ k', actM.getD k' false = true → (mid.getD k' none).isSome = true := by
              intro k' hk'
              by_cases he : k' = n.key.toNat
              · rw [he, haM] at hk'
                exact Bool.noConfusion hk'
              · rw [hset, List.getD_eq_getElem?_getD, List.getElem?_set_ne (Ne.symm he),
                  ← List.getD_eq_getElem?_getD]
                exact hMst k' hk'
            obtain ⟨hIH1, hIH2, hIH3⟩ := ih actM chosen (idx+1) mid stMid b hbrest hscan
              (by rw [hmidlen, hlen]) hMst'
            rw [← hproj]
            exact ⟨hIH1, hIH2, hIH3⟩
          · -- kept head: the output scan opens the key as well
            rw [mb_h_m rest chosen actM idx htf hc hh, mb_h_a rest chosen actM idx htf hc hh,
              List.filter_cons_of_pos (by simpa using hk0)]
            have e2 : actM[n.key.toNat] = false := by
              rw [List.getD_eq_getElem?_getD, List.getElem?_eq_getElem hkM] at haM
              simpa using haM
            have hSstep : scanStep (projOut st actM) n =
                some ((projOut st actM).set n.key.toNat (some n.beat)) := by
              apply scanStep_head_intro hh hk0
              rw [List.get?_eq_getElem?, projOut, List.getElem?_zipWith,
                List.getElem?_eq_getElem hklt, List.getElem?_eq_getElem hkM, e1, e2]
              simp
            have hproj : (projOut st actM).set n.key.toNat (some n.beat) =
                projOut mid (actM.set n.key.toNat true) := by
              rw [hset, projOut_set_true st actM n.key.toNat (some n.beat) hklt hkM]
            have hMst' : ∀ k', (actM.set n.key.toNat true).getD k' false = true →
                (mid.getD k' none).isSome = true := by
              intro k' hk'
              by_cases he : k' = n.key.toNat
              · subst he
                rw [hset, List.getD_eq_getElem?_getD, List.getElem?_set_self hklt]
                rfl
              · rw [List.getD_eq_getElem?_getD, List.getElem?_set_ne (Ne.symm he),
                  ← List.getD_eq_getElem?_getD] at hk'
                rw [hset, List.getD_eq_getElem?_getD, List.getElem?_set_ne (Ne.symm he),
                  ← List.getD_eq_getElem?_getD]
                exact hMst k' hk'
            obtain ⟨hIH1, hIH2, hIH3⟩ := ih (actM.set n.key.toNat true) chosen (idx+1) mid
              stMid b hbrest hscan (by rw [hmidlen, hlen, List.length_set]) hMst'
            refine ⟨?_, by rw [hIH2, List.length_set], hIH3⟩
            simp only [scanList, hSstep, hproj]
            exact hIH1
        · -- a fresh hit
          have hhf : n.is_head = false := Bool.not_eq_true _ ▸ hh
          obtain ⟨hk0, hklt, hget, hset⟩ := scanStep_hit htf hhf hstep
          have hkM : n.key.toNat < actM.length := hlen ▸ hklt
          have e1 : st[n.key.toNat] = none := by
            rw [List.getD_eq_getElem?_getD, List.getElem?_eq_getElem hklt] at hget
            simpa using hget
          rw [hset] at hscan
          by_cases hc : idx ∈ chosen
          · -- chosen hit: dropped
            rw [mb_ch_m rest chosen actM idx htf hc, mb_ch_a rest chosen actM idx htf hc,
              List.filter_cons_of_neg (by simp)]
            exact ih actM chosen (idx+1) st stMid b hbrest hscan hlen hMst
          · -- kept hit: the output scan passes over it
            rw [mb_x_m rest chosen actM idx htf hc hhf, mb_x_a rest chosen actM idx htf hc hhf,
              List.filter_cons_of_pos (by simpa using hk0)]
            have hSstep : scanStep (projOut st actM) n = some (projOut st actM) := by
              apply scanStep_hit_intro htf hhf hk0
              rw [List.get?_eq_getElem?, projOut, List.getElem?_zipWith,
                List.getElem?_eq_getElem hklt, List.getElem?_eq_getElem hkM, e1]
              cases h2 : actM[n.key.toNat] <;> simp
            obtain ⟨hIH1, hIH2, hIH3⟩ := ih actM chosen (idx+1) st stMid b hbrest hscan
              hlen hMst
            refine ⟨?_, hIH2, hIH3⟩
            simp only [scanList, hSstep]
            exact hIH1

/-- Marking a note sets its key to `-1`. -/
theorem key_mark (n : Note) : ({ n with key := -1 } : Note).key = -1 := rfl

/-- Tails are not heads. -/
theorem not_head_of_tail {n : Note} (ht : n.is_tail = true) : n.is_head = false := by
  have hk : n.kind = Note.KIND_TAIL := of_decide_eq_true ht
  simp [Note.is_head, hk, Note.KIND_HEAD, Note.KIND_TAIL]

/-- `countHitsKept` of a cons. -/
theorem countHitsKept_cons (n : Note) (l : List Note) :
    countHitsKept (n :: l) =
      (if n.is_tail = false ∧ n.is_head = false ∧ 0 ≤ n.key then 1 else 0) +
        countHitsKept l := by
  simp only [countHitsKept, List.filter_cons]
  cases h1 : n.is_tail <;> cases h2 : n.is_head <;> by_cases h3 : 0 ≤ n.key <;>
    simp [h1, h2, h3, Nat.add_comm]

/-- The removal pass preserves the length of `active_notes`. -/
theorem applyRemoval_act_length (ms : List Note) : ∀ (chosen : List Nat) (idx : Nat)
    (act : List Bool), ((applyRemoval chosen idx ms act).2).length = act.length := by
  induction ms with
  | nil => intro chosen idx act; rfl
  | cons m rest ih =>
    intro chosen idx act
    by_cases hc : idx ∈ chosen
    · rw [ar_ch_a rest chosen act idx hc, ih]
      by_cases hh : m.is_head = true
      · rw [if_bool_true _ hh, List.length_set]
      · rw [if_bool_false _ (Bool.not_eq_true _ ▸ hh)]
    · rw [ar_nc_a rest chosen act idx hc, ih]

/-- The removal pass preserves the beat sequence. -/
theorem applyRemoval_beats (ms : List Note) : ∀ (chosen : List Nat) (idx : Nat)
    (act : List Bool),
    ((applyRemoval chosen idx ms act).1).map Note.beat = ms.map Note.beat := by
  induction ms with
  | nil => intro chosen idx act; rfl
  | cons m rest ih =>
    intro chosen idx act
    by_cases hc : idx ∈ chosen
    · rw [ar_ch_m rest chosen act idx hc, List.map_cons, List.map_cons, ih, beat_mark]
    · rw [ar_nc_m rest chosen act idx hc, List.map_cons, List.map_cons, ih]

/-- The block scan preserves the beat sequence. -/
theorem blockScanGo_beats (blk : List Note) : ∀ (active : List Bool) (idx : Nat),
    ((blockScanGo active idx blk).1).map Note.beat = blk.map Note.beat := by
  induction blk with
  | nil => intro active idx; rfl
  | cons n rest ih =>
    intro active idx
    by_cases ht : n.is_tail = true
    · by_cases ha : active.getD n.key.toNat false = true
      · rw [bsg_m_tk rest active idx ht ha, List.map_cons, List.map_cons,
          ih (active.set n.key.toNat false) (idx+1)]
      · rw [bsg_m_to rest active idx ht (Bool.not_eq_true _ ▸ ha), List.map_cons,
          List.map_cons, ih active (idx+1), beat_mark]
    · by_cases hh : n.is_head = true
      · rw [bsg_m_h rest active idx (Bool.not_eq_true _ ▸ ht) hh, List.map_cons,
          List.map_cons, ih (active.set n.key.toNat true) (idx+1)]
      · rw [bsg_m_x rest active idx (Bool.not_eq_true _ ▸ ht) (Bool.not_eq_true _ ▸ hh),
          List.map_cons, List.map_cons, ih active (idx+1)]

/-- The removal pass releases exactly one active entry per chosen head. -/
theorem applyRemoval_countTrue (ms : List Note) : ∀ (chosen : List Nat) (idx : Nat)
    (act : List Bool),
    (∀ (j : Nat) (m' : Note), ms[j]? = some m' → m'.is_head = true →
      act.getD m'.key.toNat false = true) →
    (∀ (j1 j2 : Nat) (m1 m2 : Note), ms[j1]? = some m1 → ms[j2]? = some m2 → j1 ≠ j2 →
      m1.is_head = true → m2.is_head = true → m1.key.toNat ≠ m2.key.toNat) →
    countTrue (applyRemoval chosen idx ms act).2 + chosenHeads chosen idx ms =
      countTrue act := by
  induction ms with
  | nil =>
    intro chosen idx act h1 h2
    show countTrue act + chosenHeads chosen idx [] = countTrue act
    simp [chosenHeads]
  | cons m rest ih =>
    intro chosen idx act h1 h2
    have h2' : ∀ (j1 j2 : Nat) (m1 m2 : Note), rest[j1]? = some m1 → rest[j2]? = some m2 →
        j1 ≠ j2 → m1.is_head = true → m2.is_head = true → m1.key.toNat ≠ m2.key.toNat := by
      intro j1 j2 m1 m2 hj1 hj2 hne hm1 hm2
      refine h2 (j1+1) (j2+1) m1 m2 ?_ ?_ (by omega) hm1 hm2
      · rw [List.getElem?_cons_succ]; exact hj1
      · rw [List.getElem?_cons_succ]; exact hj2
    simp only [chosenHeads]
    by_cases hc : idx ∈ chosen
    · by_cases hh : m.is_head = true
      · -- a chosen head: its (still-set) key is released
        rw [ar_ch_a rest chosen act idx hc, if_bool_true _ hh, if_pos ⟨hc, hh⟩]
        have hkey : act.getD m.key.toNat false = true :=
          h1 0 m List.getElem?_cons_zero hh
        have h1' : ∀ (j : Nat) (m' : Note), rest[j]? = some m' → m'.is_head = true →
            (act.set m.key.toNat false).getD m'.key.toNat false = true := by
          intro j m' hj hm'
          have hne := h2 (j+1) 0 m' m (by rw [List.getElem?_cons_succ]; exact hj)
            List.getElem?_cons_zero (by omega) hm' hh
          rw [getD_set_false, h1 (j+1) m' (by rw [List.getElem?_cons_succ]; exact hj) hm']
          simp [hne]
        have hIH := ih chosen (idx+1) (act.set m.key.toNat false) h1' h2'
        have hdec := countTrue_set_false_eq act m.key.toNat hkey
        omega
      · -- a chosen non-head: `active_notes` untouched
        have hhf : m.is_head = false := Bool.not_eq_true _ ▸ hh
        rw [ar_ch_a rest chosen act idx hc, if_bool_false _ hhf,
          if_neg (fun hx => Bool.noConfusion (hhf ▸ hx.2))]
        have h1' : ∀ (j : Nat) (m' : Note), rest[j]? = some m' → m'.is_head = true →
            act.getD m'.key.toNat false = true := by
          intro j m' hj hm'
          exact h1 (j+1) m' (by rw [List.getElem?_cons_succ]; exact hj) hm'
        have hIH := ih chosen (idx+1) act h1' h2'
        omega
    · -- a kept note: `active_notes` untouched
      rw [ar_nc_a rest chosen act idx hc, if_neg (fun hx => hc hx.1)]
      have h1' : ∀ (j : Nat) (m' : Note), rest[j]? = some m' → m'.is_head = true →
          act.getD m'.key.toNat false = true := by
        intro j m' hj hm'
        exact h1 (j+1) m' (by rw [List.getElem?_cons_succ]; exact hj) hm'
      have hIH := ih chosen (idx+1) act h1' h2'
      omega

/-- The marked output of the removal pass ignores the active-notes input. -/
theorem applyRemoval_marked_indep (ms : List Note) : ∀ (chosen : List Nat) (idx : Nat)
    (a b : List Bool),
    (applyRemoval chosen idx ms a).1 = (applyRemoval chosen idx ms b).1 := by
  induction ms with
  | nil => intro chosen idx a b; rfl
  | cons m rest ih =>
    intro chosen idx a b
    by_cases hc : idx ∈ chosen
    · rw [ar_ch_m rest chosen a idx hc, ar_ch_m rest chosen b idx hc, ih]
    · rw [ar_nc_m rest chosen a idx hc, ar_nc_m rest chosen b idx hc, ih]

/-- The removal pass drops exactly one kept hit per chosen hit. -/
theorem applyRemoval_hits (ms : List Note) : ∀ (chosen : List Nat) (idx : Nat)
    (act : List Bool),
    (∀ (j : Nat) (m' : Note), ms[j]? = some m' → m'.is_tail = false → m'.is_head = false →
      0 ≤ m'.key) →
    countHitsKept (applyRemoval chosen idx ms act).1 + chosenHits chosen idx ms =
      countHits ms := by
  induction ms with
  | nil =>
    intro chosen idx act h
    show countHitsKept [] + chosenHits chosen idx [] = countHits []
    simp [countHitsKept, chosenHits, countHits]
  | cons m rest ih =>
    intro chosen idx act h
    have h' : ∀ (j : Nat) (m' : Note), rest[j]? = some m' → m'.is_tail = false →
        m'.is_head = false → 0 ≤ m'.key := by
      intro j m' hj ht' hh'
      exact h (j+1) m' (by rw [List.getElem?_cons_succ]; exact hj) ht' hh'
    simp only [chosenHits]
    rw [countHits_cons]
    by_cases hc : idx ∈ chosen
    · rw [ar_ch_m rest chosen act idx hc,
        applyRemoval_marked_indep rest chosen (idx+1) _ act,
        countHitsKept_cons, is_tail_mark, is_head_mark, key_mark]
      have hIH := ih chosen (idx+1) act h'
      have hC1 : (if m.is_tail = false ∧ m.is_head = false ∧ 0 ≤ (-1 : Int) then 1 else 0)
          = 0 := by
        rw [if_neg]
        rintro ⟨-, -, hx⟩
        omega
      rw [hC1]
      by_cases ht' : m.is_tail = true
      · have hC2 : (if idx ∈ chosen ∧ m.is_tail = false ∧ m.is_head = false then 1 else 0)
            = 0 := by
          rw [if_neg]
          rintro ⟨-, hx, -⟩
          rw [ht'] at hx
          exact Bool.noConfusion hx
        have hC3 : (if m.is_tail = false ∧ m.is_head = false then 1 else 0) = 0 := by
          rw [if_neg]
          rintro ⟨hx, -⟩
          rw [ht'] at hx
          exact Bool.noConfusion hx
        rw [hC2, hC3]
        omega
      · have htf : m.is_tail = false := Bool.not_eq_true _ ▸ ht'
        by_cases hh' : m.is_head = true
        · have hC2 : (if idx ∈ chosen ∧ m.is_tail = false ∧ m.is_head = false then 1 else 0)
              = 0 := by
            rw [if_neg]
            rintro ⟨-, -, hx⟩
            rw [hh'] at hx
            exact Bool.noConfusion hx
          have hC3 : (if m.is_tail = false ∧ m.is_head = false then 1 else 0) = 0 := by
            rw [if_neg]
            rintro ⟨-, hx⟩
            rw [hh'] at hx
            exact Bool.noConfusion hx
          rw [hC2, hC3]
          omega
        · have hhf : m.is_head = false := Bool.not_eq_true _ ▸ hh'
          have hC2 : (if idx ∈ chosen ∧ m.is_tail = false ∧ m.is_head = false then 1 else 0)
              = 1 := if_pos ⟨hc, htf, hhf⟩
          have hC3 : (if m.is_tail = false ∧ m.is_head = false then 1 else 0) = 1 :=
            if_pos ⟨htf, hhf⟩
          rw [hC2, hC3]
          omega
    · rw [ar_nc_m rest chosen act idx hc, countHitsKept_cons]
      have hIH := ih chosen (idx+1) act h'
      have hC2 : (if idx ∈ chosen ∧ m.is_tail = false ∧ m.is_head = false then 1 else 0)
          = 0 := by
        rw [if_neg]
        rintro ⟨hx, -⟩
        exact hc hx
      rw [hC2]
      by_cases ht' : m.is_tail = true
      · have hC1 : (if m.is_tail = false ∧ m.is_head = false ∧ 0 ≤ m.key then 1 else 0)
            = 0 := by
          rw [if_neg]
          rintro ⟨hx, -, -⟩
          rw [ht'] at hx
          exact Bool.noConfusion hx
        have hC3 : (if m.is_tail = false ∧ m.is_head = false then 1 else 0) = 0 := by
          rw [if_neg]
          rintro ⟨hx, -⟩
          rw [ht'] at hx
          exact Bool.noConfusion hx
        rw [hC1, hC3]
        omega
      · have htf : m.is_tail = false := Bool.not_eq_true _ ▸ ht'
        by_cases hh' : m.is_head = true
        · have hC1 : (if m.is_tail = false ∧ m.is_head = false ∧ 0 ≤ m.key then 1 else 0)
              = 0 := by
            rw [if_neg]
            rintro ⟨-, hx, -⟩
            rw [hh'] at hx
            exact Bool.noConfusion hx
          have hC3 : (if m.is_tail = false ∧ m.is_head = false then 1 else 0) = 0 := by
            rw [if_neg]
            rintro ⟨-, hx⟩
            rw [hh'] at hx
            exact Bool.noConfusion hx
          rw [hC1, hC3]
          omega
        · have hhf : m.is_head = false := Bool.not_eq_true _ ▸ hh'
          have hk0 : 0 ≤ m.key := h 0 m List.getElem?_cons_zero htf hhf
          have hC1 : (if m.is_tail = false ∧ m.is_head = false ∧ 0 ≤ m.key then 1 else 0)
              = 1 := if_pos ⟨htf, hhf, hk0⟩
          have hC3 : (if m.is_tail = false ∧ m.is_head = false then 1 else 0) = 1 :=
            if_pos ⟨htf, hhf⟩
          rw [hC1, hC3]
          omega

/-- Chosen heads and chosen hits together are the chosen non-tail positions. -/
theorem chosenHH_eq (ms : List Note) : ∀ (chosen : List Nat) (idx : Nat),
    chosenHeads chosen idx ms + chosenHits chosen idx ms =
      ((nonTailIdxs idx ms).filter (fun i => decide (i ∈ chosen))).length := by
  induction ms with
  | nil => intro chosen idx; simp [chosenHeads, chosenHits, nonTailIdxs]
  | cons m rest ih =>
    intro chosen idx
    simp only [chosenHeads, chosenHits, nonTailIdxs]
    have hIH := ih chosen (idx+1)
    by_cases ht' : m.is_tail = true
    · rw [if_bool_true _ ht']
      have hCH : (if idx ∈ chosen ∧ m.is_head = true then 1 else 0) = 0 := by
        rw [if_neg]
        rintro ⟨-, hx⟩
        rw [not_head_of_tail ht'] at hx
        exact Bool.noConfusion hx
      have hCX : (if idx ∈ chosen ∧ m.is_tail = false ∧ m.is_head = false then 1 else 0)
          = 0 := by
        rw [if_neg]
        rintro ⟨-, hx, -⟩
        rw [ht'] at hx
        exact Bool.noConfusion hx
      rw [hCH, hCX]
      omega
    · have htf : m.is_tail = false := Bool.not_eq_true _ ▸ ht'
      rw [if_bool_false _ htf]
      by_cases hc : idx ∈ chosen
      · rw [List.filter_cons_of_pos (by simpa using hc), List.length_cons]
        by_cases hh' : m.is_head = true
        · have hCH : (if idx ∈ chosen ∧ m.is_head = true then 1 else 0) = 1 :=
            if_pos ⟨hc, hh'⟩
          have hCX : (if idx ∈ chosen ∧ m.is_tail = false ∧ m.is_head = false then 1 else 0)
              = 0 := by
            rw [if_neg]
            rintro ⟨-, -, hx⟩
            rw [hh'] at hx
            exact Bool.noConfusion hx
          rw [hCH, hCX]
          omega
        · have hhf : m.is_head = false := Bool.not_eq_true _ ▸ hh'
          have hCH : (if idx ∈ chosen ∧ m.is_head = true then 1 else 0) = 0 := by
            rw [if_neg]
            rintro ⟨-, hx⟩
            rw [hhf] at hx
            exact Bool.noConfusion hx
          have hCX : (if idx ∈ chosen ∧ m.is_tail = false ∧ m.is_head = false then 1 else 0)
              = 1 := if_pos ⟨hc, htf, hhf⟩
          rw [hCH, hCX]
          omega
      · rw [List.filter_cons_of_neg (by simpa using hc)]
        have hCH : (if idx ∈ chosen ∧ m.is_head = true then 1 else 0) = 0 := by
          rw [if_neg]
          rintro ⟨hx, -⟩
          exact hc hx
        have hCX : (if idx ∈ chosen ∧ m.is_tail = false ∧ m.is_head = false then 1 else 0)
            = 0 := by
          rw [if_neg]
          rintro ⟨hx, -⟩
          exact hc hx
        rw [hCH, hCX]
        omega

/-- Filtering a duplicate-free list by membership of a duplicate-free subset
selects exactly that subset's length. -/
theorem filter_mem_length (l c : List Nat) (hl : l.Nodup) (hc : c.Nodup)
    (hsub : ∀ x ∈ c, x ∈ l) :
    (l.filter (fun i => decide (i ∈ c))).length = c.length := by
  have hperm : (l.filter (fun i => decide (i ∈ c))).Perm c := by
    rw [List.perm_ext_iff_of_nodup (hl.filter _) hc]
    intro a
    rw [List.mem_filter]
    constructor
    · rintro ⟨-, ha⟩
      exact of_decide_eq_true ha
    · intro ha
      exact ⟨hsub a ha, decide_eq_true ha⟩
  exact hperm.length_eq

/-- One-step unfolding of the block loop. -/
theorem limitBlocks_cons (choose : FastRng → List Nat → Nat → List Nat × FastRng)
    (rng : FastRng) (maxSim : Nat) (active : List Bool) (n : Note) (rest : List Note) :
    limitBlocks choose rng maxSim active (n :: rest) =
      ((blockOut choose rng maxSim active
          (n :: rest.takeWhile (fun m => m.beat = n.beat))).1 ++
        (limitBlocks choose
          (blockChosen choose rng maxSim active
            (n :: rest.takeWhile (fun m => m.beat = n.beat))).2 maxSim
          (blockOut choose rng maxSim active
            (n :: rest.takeWhile (fun m => m.beat = n.beat))).2
          (rest.dropWhile (fun m => m.beat = n.beat))).1,
       (countTrue (blockOut choose rng maxSim active
            (n :: rest.takeWhile (fun m => m.beat = n.beat))).2 +
          countHitsKept (blockOut choose rng maxSim active
            (n :: rest.takeWhile (fun m => m.beat = n.beat))).1) ::
        (limitBlocks choose
          (blockChosen choose rng maxSim active
            (n :: rest.takeWhile (fun m => m.beat = n.beat))).2 maxSim
          (blockOut choose rng maxSim active
            (n :: rest.takeWhile (fun m => m.beat = n.beat))).2
          (rest.dropWhile (fun m => m.beat = n.beat))).2) := by
  rw [limitBlocks]
  rfl

/-- The marked output determines the block positionally. -/
theorem blockScanGo_marked_inv (blk : List Note) (active : List Bool) (idx j : Nat)
    (m' : Note) (h : ((blockScanGo active idx blk).1)[j]? = some m') :
    ∃ m, blk[j]? = some m ∧ m'.kind = m.kind ∧ m'.beat = m.beat ∧
      (m'.key = m.key ∨ (m'.key = -1 ∧ m.is_tail = true)) := by
  have hj : j < blk.length := by
    have hx := (List.getElem?_eq_some.mp h).1
    rwa [blockScanGo_marked_length] at hx
  obtain ⟨mm, hmm1, hmm2, hmm3, hmm4⟩ :=
    blockScanGo_marked_get blk active idx j (blk.get ⟨j, hj⟩)
      (by rw [List.getElem?_eq_getElem hj]; rfl)
  rw [h] at hmm1
  injection hmm1 with he
  subst he
  exact ⟨blk.get ⟨j, hj⟩, by rw [List.getElem?_eq_getElem hj]; rfl, hmm2, hmm3, hmm4⟩

/-- Kind equality transports `is_head`. -/
theorem is_head_congr {a b : Note} (h : a.kind = b.kind) : a.is_head = b.is_head := by
  simp [Note.is_head, h]

/-- Kind equality transports `is_tail`. -/
theorem is_tail_congr {a b : Note} (h : a.kind = b.kind) : a.is_tail = b.is_tail := by
  simp [Note.is_tail, h]

/-- Every note of a beat block carries the block beat. -/
theorem block_beats (n : Note) (rest : List Note) :
    ∀ x ∈ n :: rest.takeWhile (fun m => m.beat = n.beat), x.beat = n.beat := by
  intro x hx
  rcases List.mem_cons.mp hx with rfl | hx'
  · rfl
  · have hp := List.mem_takeWhile_imp hx'
    simp only [decide_eq_true_eq] at hp
    exact hp

/-- `sortedByBeat` is the beat chain. -/
theorem sortedByBeat_chain' (l : List Note) :
    sortedByBeat l = true ↔ l.Chain' (fun a b => a.beat ≤ b.beat) := by
  induction l with
  | nil => simp [sortedByBeat]
  | cons a l ih =>
    cases l with
    | nil => simp [sortedByBeat]
    | cons b l' =>
      rw [sortedByBeat, Bool.and_eq_true_iff, decide_eq_true_eq, ih, List.chain'_cons]

instance : IsTrans Note (fun a b => a.beat ≤ b.beat) :=
  ⟨fun _ _ _ hab hbc => Int.le_trans hab hbc⟩

/-- Filtering preserves beat sortedness. -/
theorem sortedByBeat_filter (l : List Note) (p : Note → Bool) (h : sortedByBeat l = true) :
    sortedByBeat (l.filter p) = true := by
  rw [sortedByBeat_chain', List.chain'_iff_pairwise] at h ⊢
  exact List.Pairwise.sublist (List.filter_sublist l) h

/-- Beat sortedness only depends on the beat sequence. -/
theorem sortedByBeat_iff_map (l : List Note) :
    sortedByBeat l = true ↔ (l.map Note.beat).Chain' (fun a b => a ≤ b) := by
  rw [sortedByBeat_chain', List.chain'_map]

/-- The block loop on the empty list. -/
theorem limitBlocks_nil (choose : FastRng → List Nat → Nat → List Nat × FastRng)
    (rng : FastRng) (maxSim : Nat) (active : List Bool) :
    limitBlocks choose rng maxSim active [] = ([], []) := by
  rw [limitBlocks]

/-- The block loop preserves the beat sequence. -/
theorem limitBlocks_beats (choose : FastRng → List Nat → Nat → List Nat × FastRng)
    (maxSim : Nat) : ∀ (N : Nat) (notes : List Note), notes.length ≤ N →
    ∀ (rng : FastRng) (active : List Bool),
    ((limitBlocks choose rng maxSim active notes).1).map Note.beat =
      notes.map Note.beat := by
  intro N
  induction N with
  | zero =>
    intro notes h0 rng active
    have hnil : notes = [] := List.length_eq_zero.mp (Nat.le_zero.mp h0)
    subst hnil
    rw [limitBlocks_nil]
  | succ N ihN =>
    intro notes hlen rng active
    cases notes with
    | nil => rw [limitBlocks_nil]
    | cons n rest =>
      rw [limitBlocks_cons, List.map_append]
      have h2 : rest.length ≤ N := by
        rw [List.length_cons] at hlen
        omega
      have hdrop : (rest.dropWhile (fun m => m.beat = n.beat)).length ≤ N := by
        have h1 : (rest.dropWhile (fun m => m.beat = n.beat)).length ≤ rest.length :=
          (List.dropWhile_sublist _).length_le
        omega
      have hb1 : ((blockOut choose rng maxSim active
          (n :: rest.takeWhile (fun m => m.beat = n.beat))).1).map Note.beat =
          (n :: rest.takeWhile (fun m => m.beat = n.beat)).map Note.beat := by
        rw [blockOut, applyRemoval_beats, blockScanGo_beats]
      rw [hb1, ihN (rest.dropWhile (fun m => m.beat = n.beat)) hdrop
        (blockChosen choose rng maxSim active
          (n :: rest.takeWhile (fun m => m.beat = n.beat))).2
        (blockOut choose rng maxSim active
          (n :: rest.takeWhile (fun m => m.beat = n.beat))).2]
      rw [← List.map_append, List.cons_append, List.takeWhile_append_dropWhile]

/-- Component of `limitBlocks_cons`. -/
theorem limitBlocks_cons_m (choose : FastRng → List Nat → Nat → List Nat × FastRng)
    (rng : FastRng) (maxSim : Nat) (active : List Bool) (n : Note) (rest : List Note) :
    (limitBlocks choose rng maxSim active (n :: rest)).1 =
      (blockOut choose rng maxSim active
          (n :: rest.takeWhile (fun m => m.beat = n.beat))).1 ++
        (limitBlocks choose
          (blockChosen choose rng maxSim active
            (n :: rest.takeWhile (fun m => m.beat = n.beat))).2 maxSim
          (blockOut choose rng maxSim active
            (n :: rest.takeWhile (fun m => m.beat = n.beat))).2
          (rest.dropWhile (fun m => m.beat = n.beat))).1 := by
  rw [limitBlocks_cons]

/-- Component of `limitBlocks_cons`. -/
theorem limitBlocks_cons_c (choose : FastRng → List Nat → Nat → List Nat × FastRng)
    (rng : FastRng) (maxSim : Nat) (active : List Bool) (n : Note) (rest : List Note) :
    (limitBlocks choose rng maxSim active (n :: rest)).2 =
      (countTrue (blockOut choose rng maxSim active
          (n :: rest.takeWhile (fun m => m.beat = n.beat))).2 +
        countHitsKept (blockOut choose rng maxSim active
          (n :: rest.takeWhile (fun m => m.beat = n.beat))).1) ::
        (limitBlocks choose
          (blockChosen choose rng maxSim active
            (n :: rest.takeWhile (fun m => m.beat = n.beat))).2 maxSim
          (blockOut choose rng maxSim active
            (n :: rest.takeWhile (fun m => m.beat = n.beat))).2
          (rest.dropWhile (fun m => m.beat = n.beat))).2 := by
  rw [limitBlocks_cons]

/-- Main invariant of the block loop: under the chooser contract, starting
below the cap with a consistent open-hold projection, every per-block
post-removal count stays below the cap and the kept output scans from the
projected start state to a projection of the final state. -/
theorem limitBlocks_spec (choose : FastRng → List Nat → Nat → List Nat × FastRng)
    (hch : chooserOK choose) (maxSim : Nat) :
    ∀ (N : Nat) (notes : List Note), notes.length ≤ N →
    ∀ (rng : FastRng) (active : List Bool) (st stFin : List (Option BeatPos)),
    scanList st notes = some stFin →
    st.length = active.length →
    (∀ k, active.getD k false = true → (st.getD k none).isSome = true) →
    countTrue active ≤ maxSim →
    (∀ c ∈ (limitBlocks choose rng maxSim active notes).2, c ≤ maxSim) ∧
    (∃ actF : List Bool,
      scanList (projOut st active)
          ((limitBlocks choose rng maxSim active notes).1.filter
            (fun note => decide (0 ≤ note.key)))
        = some (projOut stFin actF)) := by
  intro N
  induction N with
  | zero =>
    intro notes h0 rng active st stFin hscan hlen hMst hcnt
    have hnil : notes = [] := List.length_eq_zero.mp (Nat.le_zero.mp h0)
    subst hnil
    simp only [scanList] at hscan
    injection hscan with h
    subst h
    rw [limitBlocks_nil]
    constructor
    · intro c hc
      simp at hc
    · exact ⟨active, rfl⟩
  | succ N ihN =>
    intro notes hlenN rng active st stFin hscan hlen hMst hcnt
    cases notes with
    | nil =>
      simp only [scanList] at hscan
      injection hscan with h
      subst h
      rw [limitBlocks_nil]
      constructor
      · intro c hc
        simp at hc
      · exact ⟨active, rfl⟩
    | cons n rest =>
      set blk : List Note := n :: rest.takeWhile (fun m => m.beat = n.beat) with hblk
      set aft : List Note := rest.dropWhile (fun m => m.beat = n.beat) with haft
      have hsplit : n :: rest = blk ++ aft := by
        rw [hblk, haft, List.cons_append, List.takeWhile_append_dropWhile]
      rw [hsplit] at hscan
      obtain ⟨stB, hscanB, hscanA⟩ := scanList_append _ _ _ _ hscan
      have hbeat : ∀ x ∈ blk, x.beat = n.beat := by
        rw [hblk]
        exact block_beats n rest
      have hstBlen : stB.length = st.length := scanList_length _ _ _ hscanB
      -- chooser contract facts for this block's selection
      have hCC := hch rng ((blockScanGo active 0 blk).2.2.1)
        (countTrue (blockScanGo active 0 blk).2.1 + (blockScanGo active 0 blk).2.2.2 - maxSim)
      have hsub : ∀ i ∈ (blockChosen choose rng maxSim active blk).1, i ∈ nonTailIdxs 0 blk := by
        intro i hi
        have hx := hCC.1 i hi
        rwa [blockScanGo_beatIdxs] at hx
      have hnd : (blockChosen choose rng maxSim active blk).1.Nodup := by
        apply hCC.2.2
        rw [blockScanGo_beatIdxs]
        exact nonTailIdxs_nodup blk 0
      have hchlen : (blockChosen choose rng maxSim active blk).1.length =
          min (countTrue (blockScanGo active 0 blk).2.1 +
              (blockScanGo active 0 blk).2.2.2 - maxSim)
            (nonTailIdxs 0 blk).length := by
        have hx : (blockChosen choose rng maxSim active blk).1.length =
            min (countTrue (blockScanGo active 0 blk).2.1 +
                (blockScanGo active 0 blk).2.2.2 - maxSim)
              ((blockScanGo active 0 blk).2.2.1).length := hCC.2.1
        rwa [blockScanGo_beatIdxs] at hx
      -- the scan-then-removal pipeline equals the fused one-pass block
      have hchtail : ∀ (j : Nat) (m' : Note), blk[j]? = some m' →
          (0 + j) ∈ (blockChosen choose rng maxSim active blk).1 → m'.is_tail = false := by
        intro j m' hj hcj
        rw [Nat.zero_add] at hcj
        obtain ⟨m2, hm2, hm2t⟩ := nonTailIdxs_spec blk 0 j (hsub j hcj)
        rw [Nat.sub_zero, hj] at hm2
        injection hm2 with he
        rw [he]
        exact hm2t
      have hEQ := scan_removal_eq_mark blk active active []
        (blockChosen choose rng maxSim active blk).1 0 st stB n.beat hbeat hscanB rfl hlen
        (by intro k; simp) (by intro k hk; cases hk) (by intro k hk; cases hk) hMst hchtail
      have hclnil : clearKeys [] ((blockScanGo active 0 blk).2.1) =
          (blockScanGo active 0 blk).2.1 := rfl
      rw [hclnil] at hEQ
      have hBO : blockOut choose rng maxSim active blk =
          markBlock (blockChosen choose rng maxSim active blk).1 active 0 blk := by
        rw [blockOut]
        exact hEQ
      -- the output scan across this block
      obtain ⟨hscanOut, hlenF, hMstF⟩ := markBlock_scan blk active
        (blockChosen choose rng maxSim active blk).1 0 st stB n.beat hbeat hscanB hlen hMst
      -- counting: the block's post-removal count obeys the cap
      have hheads : ∀ (j : Nat) (m' : Note),
          ((blockScanGo active 0 blk).1)[j]? = some m' → m'.is_head = true →
          ((blockScanGo active 0 blk).2.1).getD m'.key.toNat false = true := by
        intro j m' hj hh'
        obtain ⟨m, hm, hk, hb, hkey⟩ := blockScanGo_marked_inv blk active 0 j m' hj
        have hmh : m.is_head = true := (is_head_congr hk) ▸ hh'
        have hkne : m'.key = m.key := by
          rcases hkey with h | ⟨h1, h2⟩
          · exact h
          · rw [not_tail_of_head hmh] at h2
            exact Bool.noConfusion h2
        rw [hkne]
        exact blockScanGo_head_keys blk active 0 st stB n.beat hbeat hscanB hlen m
          (List.getElem?_mem hm) hmh
      have hpair : ∀ (j1 j2 : Nat) (m1 m2 : Note),
          ((blockScanGo active 0 blk).1)[j1]? = some m1 →
          ((blockScanGo active 0 blk).1)[j2]? = some m2 → j1 ≠ j2 →
          m1.is_head = true → m2.is_head = true → m1.key.toNat ≠ m2.key.toNat := by
        intro j1 j2 m1 m2 h1' h2' hne hh1 hh2
        obtain ⟨ma, hma, hka, hba, hkeya⟩ := blockScanGo_marked_inv blk active 0 j1 m1 h1'
        obtain ⟨mb, hmb, hkb, hbb, hkeyb⟩ := blockScanGo_marked_inv blk active 0 j2 m2 h2'
        have hmha : ma.is_head = true := (is_head_congr hka) ▸ hh1
        have hmhb : mb.is_head = true := (is_head_congr hkb) ▸ hh2
        have hea : m1.key = ma.key := by
          rcases hkeya with h | ⟨-, h2⟩
          · exact h
          · rw [not_tail_of_head hmha] at h2
            exact Bool.noConfusion h2
        have heb : m2.key = mb.key := by
          rcases hkeyb with h | ⟨-, h2⟩
          · exact h
          · rw [not_tail_of_head hmhb] at h2
            exact Bool.noConfusion h2
        rw [hea, heb]
        rcases Nat.lt_or_ge j1 j2 with hlt | hge
        · exact scan_heads_pairwise blk st stB n.beat hbeat hscanB j1 j2 ma mb hma hmb hlt
            hmha hmhb
        · have hlt2 : j2 < j1 := by omega
          exact (scan_heads_pairwise blk st stB n.beat hbeat hscanB j2 j1 mb ma hmb hma hlt2
            hmhb hmha).symm
      have hE1 : countTrue (blockOut choose rng maxSim active blk).2 +
          chosenHeads (blockChosen choose rng maxSim active blk).1 0
            ((blockScanGo active 0 blk).1) =
          countTrue ((blockScanGo active 0 blk).2.1) :=
        applyRemoval_countTrue _ _ _ _ hheads hpair
      have hkeys : ∀ (j : Nat) (m' : Note), ((blockScanGo active 0 blk).1)[j]? = some m' →
          m'.is_tail = false → m'.is_head = false → 0 ≤ m'.key := by
        intro j m' hj ht' hh'
        obtain ⟨m, hm, hk, hb, hkey⟩ := blockScanGo_marked_inv blk active 0 j m' hj
        have hmt : m.is_tail = false := (is_tail_congr hk) ▸ ht'
        have hkne : m'.key = m.key := by
          rcases hkey with h | ⟨-, h2⟩
          · exact h
          · rw [hmt] at h2
            exact Bool.noConfusion h2
        rw [hkne]
        exact (scanList_keys blk st stB hscanB m (List.getElem?_mem hm)).1
      have hE2 : countHitsKept (blockOut choose rng maxSim active blk).1 +
          chosenHits (blockChosen choose rng maxSim active blk).1 0
            ((blockScanGo active 0 blk).1) =
          countHits ((blockScanGo active 0 blk).1) :=
        applyRemoval_hits _ _ _ _ hkeys
      have hE3 : countHits ((blockScanGo active 0 blk).1) = countHits blk :=
        blockScanGo_countHits blk active 0
      have hE3b : (blockScanGo active 0 blk).2.2.2 = countHits blk :=
        blockScanGo_tmp blk active 0
      have hE4 : chosenHeads (blockChosen choose rng maxSim active blk).1 0
            ((blockScanGo active 0 blk).1) +
          chosenHits (blockChosen choose rng maxSim active blk).1 0
            ((blockScanGo active 0 blk).1) =
          ((nonTailIdxs 0 ((blockScanGo active 0 blk).1)).filter
            (fun i => decide (i ∈ (blockChosen choose rng maxSim active blk).1))).length :=
        chosenHH_eq _ _ _
      have hE4b : nonTailIdxs 0 ((blockScanGo active 0 blk).1) = nonTailIdxs 0 blk :=
        blockScanGo_nonTailIdxs blk active 0 0
      rw [hE4b] at hE4
      have hE4c : ((nonTailIdxs 0 blk).filter
          (fun i => decide (i ∈ (blockChosen choose rng maxSim active blk).1))).length =
          (blockChosen choose rng maxSim active blk).1.length :=
        filter_mem_length _ _ (nonTailIdxs_nodup blk 0) hnd hsub
      have hE6 := blockScanGo_count_le blk active 0
      have hcntB : countTrue (blockOut choose rng maxSim active blk).2 +
          countHitsKept (blockOut choose rng maxSim active blk).1 ≤ maxSim := by
        rcases Nat.le_total
          (countTrue (blockScanGo active 0 blk).2.1 +
            (blockScanGo active 0 blk).2.2.2 - maxSim)
          ((nonTailIdxs 0 blk).length) with hmin | hmin
        · rw [min_eq_left hmin] at hchlen
          omega
        · rw [min_eq_right hmin] at hchlen
          omega
      -- the induction hypothesis on the remaining blocks
      have h2N : rest.length ≤ N := by
        rw [List.length_cons] at hlenN
        omega
      have haftlen : aft.length ≤ N := by
        have h1 : (rest.dropWhile (fun m => m.beat = n.beat)).length ≤ rest.length :=
          (List.dropWhile_sublist _).length_le
        rw [haft]
        omega
      have hact2len : (blockOut choose rng maxSim active blk).2.length = active.length := by
        have h1 : (blockOut choose rng maxSim active blk).2.length =
            ((blockScanGo active 0 blk).2.1).length :=
          applyRemoval_act_length _ _ _ _
        rw [h1, blockScanGo_act_length]
      have hstB2 : stB.length = (blockOut choose rng maxSim active blk).2.length := by
        rw [hact2len, hstBlen, hlen]
      have hMst2 : ∀ k, (blockOut choose rng maxSim active blk).2.getD k false = true →
          (stB.getD k none).isSome = true := by
        rw [hBO]
        exact hMstF
      have hcnt2 : countTrue (blockOut choose rng maxSim active blk).2 ≤ maxSim := by
        omega
      obtain ⟨ihCnt, actF, ihScan⟩ := ihN aft haftlen
        (blockChosen choose rng maxSim active blk).2
        (blockOut choose rng maxSim active blk).2 stB stFin hscanA hstB2 hMst2 hcnt2
      constructor
      · -- the per-block counts
        intro c hc
        rw [limitBlocks_cons_c, ← hblk, ← haft] at hc
        rcases List.mem_cons.mp hc with rfl | hc'
        · exact hcntB
        · exact ihCnt c hc'
      · -- the output scan
        refine ⟨actF, ?_⟩
        rw [limitBlocks_cons_m, ← hblk, ← haft, List.filter_append]
        refine scanList_append_of _ _ _ _ _ ?_ ihScan
        rw [hBO]
        exact hscanOut

/-- A true pairing predicate yields a successful all-closed scan. -/
theorem pairScan_elim (openb : List (Option BeatPos)) (notes : List Note)
    (h : pairScan openb notes = true) :
    ∃ stFin, scanList openb notes = some stFin ∧ stFin.all Option.isNone = true := by
  unfold pairScan at h
  cases hs : scanList openb notes with
  | none =>
    rw [hs] at h
    exact Bool.noConfusion h
  | some stFin =>
    rw [hs] at h
    exact ⟨stFin, rfl, h⟩

/-- A successful all-closed scan yields the pairing predicate. -/
theorem pairScan_intro (openb : List (Option BeatPos)) (notes : List Note)
    (stFin : List (Option BeatPos)) (h1 : scanList openb notes = some stFin)
    (h2 : stFin.all Option.isNone = true) : pairScan openb notes = true := by
  unfold pairScan
  rw [h1]
  exact h2

/-- A fresh `active_notes` has count zero. -/
theorem countTrue_replicate_false (nK : Nat) : countTrue (List.replicate nK false) = 0 := by
  induction nK with
  | zero => rfl
  | succ n ih =>
    rw [List.replicate_succ, countTrue_cons, ih]
    rfl

/-- A fresh `active_notes` is all-false. -/
theorem getD_replicate_false (nK k : Nat) :
    (List.replicate nK false).getD k false = false := by
  rw [List.getD_eq_getElem?_getD]
  by_cases hk : k < nK
  · rw [List.getElem?_eq_getElem (by rwa [List.length_replicate])]
    simp [List.getElem_replicate]
  · rw [List.getElem?_eq_none (by rw [List.length_replicate]; omega)]
    rfl

/-- The notes of the Simultaneous stage's output. -/
theorem lsk_notes (choose : FastRng → List Nat → Nat → List Nat × FastRng)
    (sm : Simfile) (conf : Simultaneous) :
    (limit_simultaneous_keys choose sm conf).1.notes =
      ((limitBlocks choose (simfile_rng sm "simultaneous")
        ((conf.max_keys % (2^64 : Int)).toNat)
        (List.replicate sm.gamemode.key_count false) sm.notes).1).filter
          (fun note => decide (0 ≤ note.key)) := rfl

/-- The per-block counts of the Simultaneous stage. -/
theorem lsk_counts (choose : FastRng → List Nat → Nat → List Nat × FastRng)
    (sm : Simfile) (conf : Simultaneous) :
    (limit_simultaneous_keys choose sm conf).2 =
      (limitBlocks choose (simfile_rng sm "simultaneous")
        ((conf.max_keys % (2^64 : Int)).toNat)
        (List.replicate sm.gamemode.key_count false) sm.notes).2 := rfl

/-- `chooseFirst` satisfies the `choose_multiple` contract. -/
theorem chooseFirst_ok : chooserOK chooseFirst := by
  intro rng l k
  refine ⟨?_, ?_, ?_⟩
  · intro i hi
    exact List.take_subset k l hi
  · exact List.length_take k l
  · intro hnd
    exact List.Sublist.nodup (List.take_sublist k l) hnd

/-- C8: for every chart that is well formed for its gamemode (sorted by
beat, every hold head matched by a later tail on its key), every sampler
satisfying `rand`'s `choose_multiple` contract, and every `max_keys` in
`[0, 2^31)` (the non-negative `i32` values), the Simultaneous stage keeps
every beat block's post-removal active count (holding heads plus kept fresh
hits) at most `max_keys`, and its output chart is again well formed — in
particular every removed head's tail is removed with it. -/
theorem C8_theorem (choose : FastRng → List Nat → Nat → List Nat × FastRng)
    (sm : Simfile) (conf : Simultaneous)
    (hch : chooserOK choose) (h0 : 0 ≤ conf.max_keys) (h31 : conf.max_keys < 2^31)
    (hwf : wellFormedNotes sm.gamemode.key_count sm.notes = true) :
    (∀ c ∈ (limit_simultaneous_keys choose sm conf).2, (c : Int) ≤ conf.max_keys) ∧
    wellFormedNotes sm.gamemode.key_count
      (limit_simultaneous_keys choose sm conf).1.notes = true := by
  rw [wellFormedNotes, Bool.and_eq_true_iff] at hwf
  obtain ⟨hsort, hpair⟩ := hwf
  obtain ⟨stFin, hscan, hallN⟩ := pairScan_elim _ _ hpair
  have hcap : ((conf.max_keys % (2^64 : Int)).toNat : Int) = conf.max_keys := by
    rw [Int.emod_eq_of_lt h0 (lt_trans h31 (by decide))]
    exact Int.toNat_of_nonneg h0
  obtain ⟨hcnt, actF, hscanOut⟩ := limitBlocks_spec choose hch
    ((conf.max_keys % (2^64 : Int)).toNat) sm.notes.length sm.notes (Nat.le_refl _)
    (simfile_rng sm "simultaneous") (List.replicate sm.gamemode.key_count false)
    (List.replicate sm.gamemode.key_count none) stFin hscan
    (by rw [List.length_replicate, List.length_replicate])
    (by
      intro k hk
      rw [getD_replicate_false] at hk
      exact Bool.noConfusion hk)
    (by rw [countTrue_replicate_false]; exact Nat.zero_le _)
  constructor
  · intro c hc
    rw [lsk_counts] at hc
    rw [← hcap]
    exact Int.ofNat_le.mpr (hcnt c hc)
  · rw [wellFormedNotes, Bool.and_eq_true_iff]
    constructor
    · rw [lsk_notes]
      apply sortedByBeat_filter
      have hbeats := limitBlocks_beats choose ((conf.max_keys % (2^64 : Int)).toNat)
        sm.notes.length sm.notes (Nat.le_refl _) (simfile_rng sm "simultaneous")
        (List.replicate sm.gamemode.key_count false)
      rw [sortedByBeat_iff_map, hbeats, ← sortedByBeat_iff_map]
      exact hsort
    · rw [lsk_notes]
      apply pairScan_intro _ _ (projOut stFin actF)
      · rw [← projOut_replicate sm.gamemode.key_count]
        exact hscanOut
      · exact projOut_allNone stFin actF hallN

/-- C8, witness: the theorem applied to the concrete 4K chart `cxSm8` with
cap 2 and the contract-satisfying sampler `chooseFirst`. -/
theorem C8_witness :
    chooserOK chooseFirst ∧ (0 : Int) ≤ (2 : Int) ∧ ((2 : Int) < 2^31) ∧
    wellFormedNotes cxSm8.gamemode.key_count cxSm8.notes = true ∧
    ((∀ c ∈ (limit_simultaneous_keys chooseFirst cxSm8 ⟨2⟩).2,
        (c : Int) ≤ (⟨2⟩ : Simultaneous).max_keys) ∧
      wellFormedNotes cxSm8.gamemode.key_count
        (limit_simultaneous_keys chooseFirst cxSm8 ⟨2⟩).1.notes = true) :=
  ⟨chooseFirst_ok, by decide, by decide, by decide,
    C8_theorem chooseFirst cxSm8 ⟨2⟩ chooseFirst_ok (by decide) (by decide) (by decide)⟩

/-- C4, witness: the amended theorem applied to an inherited timing point
with `beat_len = −100`. -/
theorem C4_witness :
    (stepTP cxCtx3 { time := 0, beat_len := -100, meter := 4 }).inherited_multiplier
      = ({ time := 0, beat_len := -100, meter := 4 } : TimingPoint).beat_len / (-100) ∧
    (stepTP cxCtx3 { time := 0, beat_len := -100, meter := 4 }).cur_beat
      = cxCtx3.cur_beat ∧
    (stepTP cxCtx3 { time := 0, beat_len := -100, meter := 4 }).cur_time
      = cxCtx3.cur_time ∧
    (stepTP cxCtx3 { time := 0, beat_len := -100, meter := 4 }).out_bpms
      = cxCtx3.out_bpms ∧
    (stepTP cxCtx3 { time := 0, beat_len := -100, meter := 4 }).out_notes
      = cxCtx3.out_notes :=
  C4_theorem cxCtx3 { time := 0, beat_len := -100, meter := 4 } (by decide)

end Osu2sm
